import Mathlib

/-!
Verification of the goa `design` package (`design/api.go`): definition graph,
path-template resolution, response merging, finalization, enumeration order and
media-type canonicalization.

Strings are modelled as lists of characters (`Str`).  Go operates on bytes; on
ASCII data — which is what every identifier, path and name in this code is made
of — the two views coincide character for character.
-/

namespace Goa

/-- Character-list model of Go strings. -/
abbrev Str := List Char

/-- Convert a Lean string literal to the `Str` model. -/
def strOf (s : String) : Str := s.data

/-! ## Path cleaning (`path.Clean`, `path.Join`, `httprouter.CleanPath`) -/

/-- Split a string on `'/'`; `n` slashes yield `n+1` (possibly empty) pieces. -/
def splitSlash : Str → List Str
  | [] => [[]]
  | c :: rest =>
    let r := splitSlash rest
    if c = '/' then [] :: r
    else
      match r with
      | [] => [[c]]
      | s :: ss => (c :: s) :: ss

/-- Join segments with `'/'` separators. -/
def intercalSlash : List Str → Str
  | [] => []
  | [s] => s
  | s :: rest => s ++ '/' :: intercalSlash rest

/-- One step of lexical cleaning for a rooted path (`httprouter.CleanPath`):
empty and `.` segments are dropped, `..` pops the previous segment (or is
dropped at the root), anything else is kept. -/
def cleanPushRooted (stack : List Str) (seg : Str) : List Str :=
  if seg = [] ∨ seg = ['.'] then stack
  else if seg = ['.', '.'] then stack.dropLast
  else stack ++ [seg]

/-- `httprouter.CleanPath`: returns the canonical rooted form of `p` — a
leading `'/'` is forced, duplicate slashes collapse, `.` segments vanish, a
`..` segment erases the segment before it (and vanishes at the root), and a
trailing slash (or trailing `.` segment) is kept as a trailing slash.
`CleanPath("")` is `"/"`. -/
def cleanPath (p : Str) : Str :=
  if p = [] then ['/']
  else
    let segs := splitSlash p
    let stack := segs.foldl cleanPushRooted []
    let trailing := (decide (1 < p.length) && (p.getLast? == some '/')) ||
      (segs.getLast? == some ['.'])
    if stack = [] then ['/']
    else '/' :: intercalSlash stack ++ (if trailing then ['/'] else [])

/-- One step of lexical cleaning for `path.Clean`: like the rooted variant but
in a relative path a `..` that cannot pop anything is kept. -/
def goCleanPush (rooted : Bool) (stack : List Str) (seg : Str) : List Str :=
  if seg = [] ∨ seg = ['.'] then stack
  else if seg = ['.', '.'] then
    match stack.getLast? with
    | some t => if t = ['.', '.'] then stack ++ [seg] else stack.dropLast
    | none => if rooted then stack else stack ++ [seg]
  else stack ++ [seg]

/-- Go `path.Clean`: collapse duplicate slashes, drop `.` segments, resolve
`..` against the preceding segment (dropping it at the root of a rooted path,
keeping it in a relative path), no trailing slash; the empty result is `"."`
(or `"/"` when rooted). -/
def goClean (p : Str) : Str :=
  if p = [] then ['.']
  else
    let rooted := p.head? == some '/'
    let stack := (splitSlash p).foldl (goCleanPush rooted) []
    let body := intercalSlash stack
    if rooted then '/' :: body
    else if body = [] then ['.'] else body

/-- Go `path.Join`: skip leading empty elements, join the rest (including any
later empty elements) with `'/'` and clean the result; all-empty input yields
the empty string. -/
def goJoin : List Str → Str
  | [] => []
  | e :: rest => if e = [] then goJoin rest else goClean (intercalSlash (e :: rest))

/-! ## Wildcard extraction (`WildcardRegex`, `ExtractWildcards`) -/

/-- The character class `[a-zA-Z0-9_]` of `WildcardRegex`. -/
def isWordChar (c : Char) : Bool :=
  ('a' ≤ c && c ≤ 'z') || ('A' ≤ c && c ≤ 'Z') || ('0' ≤ c && c ≤ '9') || c = '_'

/-- Maximal prefix of word characters. -/
def takeWord : Str → Str
  | [] => []
  | c :: rest => if isWordChar c then c :: takeWord rest else []

/-- Remainder after the maximal prefix of word characters. -/
def dropWord : Str → Str
  | [] => []
  | c :: rest => if isWordChar c then dropWord rest else c :: rest

/-- The find-all loop of `ExtractWildcards`, fuelled to make the resume-after-
match recursion structural (one unit of fuel per character examined suffices,
since a match always consumes at least two characters). -/
def exFind : Nat → Str → List Str
  | 0, _ => []
  | _ + 1, [] => []
  | fuel + 1, c :: rest =>
    if c = '/' then
      match rest with
      | [] => []
      | k :: rest2 =>
        if (k = ':' ∨ k = '*') ∧ takeWord rest2 ≠ [] then
          takeWord rest2 :: exFind fuel (dropWord rest2)
        else
          exFind fuel rest
    else exFind fuel rest

/-- `ExtractWildcards` — all matches of the regular expression
`/(?::|\*)([a-zA-Z0-9_]+)`, left to right: each capture is the maximal run of
word characters directly after a `/:` or `/*`, and scanning resumes after the
captured run (matches cannot overlap since no `/` occurs inside a match). -/
def ExtractWildcards (s : Str) : List Str := exFind s.length s

/-- The claim's own description of wildcard extraction: walking the string one
position at a time, a name is emitted at every position where a `'/'` is
immediately followed by `':'` or `'*'` and then at least one word character;
the name is the maximal word-character run from there. -/
def wildcardSpec : Str → List Str
  | [] => []
  | c :: rest =>
    (if c = '/' then
      match rest with
      | [] => []
      | k :: rest2 =>
        if (k = ':' ∨ k = '*') ∧ takeWord rest2 ≠ [] then [takeWord rest2] else []
     else []) ++ wildcardSpec rest

/-! ## Data model

Association lists stand in for Go maps (which are unordered; every observation
this code makes of a map — lookup, insertion, sorted-key iteration — is
order-independent, so a list is a faithful model). -/

mutual

/-- `design.DataType`: only the `String` primitive and `Object` shapes matter
to the verified code; other data types are carried opaquely by name. -/
inductive DataType : Type where
  | stringK : DataType
  | otherK (kind : Str) : DataType
  | object (fields : List (Str × AttributeDefinition)) : DataType

/-- `design.AttributeDefinition`: a typed field node with the
`NonZeroAttributes` marker set (modelled as a list of names). -/
inductive AttributeDefinition : Type where
  | mk (type : DataType) (nonZeroAttributes : List Str) : AttributeDefinition

end

/-- The `Type` field of an attribute. -/
def AttributeDefinition.type : AttributeDefinition → DataType
  | .mk t _ => t

/-- The `NonZeroAttributes` field of an attribute. -/
def AttributeDefinition.nonZeroAttributes : AttributeDefinition → List Str
  | .mk _ nz => nz

/-- `DataType.ToObject` (design package file not under `src/`): the named
fields of an object type.  Modelled from the spec: an `AttributeDefinition` is
"possibly an object with named children"; a non-object has none (Go returns a
nil map). -/
def toObject : DataType → List (Str × AttributeDefinition)
  | .object fields => fields
  | _ => []

/-- The attribute `&AttributeDefinition{Type: String}` synthesized for
undeclared wildcards. -/
def attrString : AttributeDefinition := .mk .stringK []

/-- Association-list lookup, modelling `m[k]` with its `ok` flag. -/
def lookupA {α : Type} (m : List (Str × α)) (k : Str) : Option α :=
  (m.find? (fun p => decide (p.1 = k))).map Prod.snd

/-- `design.RouteDefinition`. -/
structure RouteDefinition where
  Verb : Str
  Path : Str
deriving DecidableEq

/-- `design.ResponseDefinition` (the fields `Merge` reads or writes, plus the
provenance flags; `Parent` back-references and metadata are omitted as no
verified operation touches them). -/
structure ResponseDefinition where
  Name : Str
  Status : Int
  Description : Str
  MediaType : Str
  Headers : Option AttributeDefinition
  Standard : Bool
  Global : Bool

/-- `design.ActionDefinition` (routes, parameters and responses; payload,
headers, docs and metadata are omitted as no verified operation touches
them). -/
structure ActionDefinition where
  Name : Str
  Routes : List RouteDefinition
  Params : Option AttributeDefinition
  QueryParams : Option AttributeDefinition
  Responses : List (Str × ResponseDefinition)

/-- `design.ResourceDefinition`. -/
structure ResourceDefinition where
  Name : Str
  BasePath : Str
  BaseParams : Option AttributeDefinition
  ParentName : Str
  APIVersions : List Str
  Actions : List (Str × ActionDefinition)
  CanonicalActionName : Str
  Responses : List (Str × ResponseDefinition)

/-- `design.MediaTypeDefinition` (only the identifier is observed here). -/
structure MediaTypeDefinition where
  Identifier : Str
deriving DecidableEq

/-- `design.UserTypeDefinition` (only the name is observed here). -/
structure UserTypeDefinition where
  TypeName : Str
deriving DecidableEq

/-- `design.APIVersionDefinition` (version string, base path/params and the
response catalogs used by `Finalize`). -/
structure APIVersionDefinition where
  Version : Str
  BasePath : Str
  BaseParams : Option AttributeDefinition
  Responses : List (Str × ResponseDefinition)
  DefaultResponses : List (Str × ResponseDefinition)

/-- `design.APIDefinition`: the root.  `apiVersionDefinition` is the embedded
default (unversioned) `APIVersionDefinition`. -/
structure APIDefinition where
  apiVersionDefinition : APIVersionDefinition
  APIVersions : List (Str × APIVersionDefinition)
  Resources : List (Str × ResourceDefinition)
  Types : List (Str × UserTypeDefinition)
  MediaTypes : List (Str × MediaTypeDefinition)

/-! ## Path composition -/

/-- `RouteDefinition.IsAbsolute`: the raw path starts with `"//"`. -/
def IsAbsolute (r : RouteDefinition) : Bool :=
  match r.Path with
  | '/' :: '/' :: _ => true
  | _ => false

/-- `ResourceDefinition.CanonicalAction`: the action named by
`CanonicalActionName`, defaulting to `"show"`; `none` when absent. -/
def CanonicalAction (r : ResourceDefinition) : Option ActionDefinition :=
  lookupA r.Actions (if r.CanonicalActionName = [] then strOf "show" else r.CanonicalActionName)

/-- `ResourceDefinition.Parent`: late-bound lookup of `ParentName` in the root
resource map; `none` when the name is empty or dangling. -/
def resourceParent (d : APIDefinition) (r : ResourceDefinition) : Option ResourceDefinition :=
  if r.ParentName = [] then none else lookupA d.Resources r.ParentName

/-- `ResourceDefinition.FullPath`.  The recursion through
`Parent → CanonicalAction → Routes[0] → FullPath` is by name lookup in Go and
is fuelled here; Go would not terminate on a cyclic parent chain, the model
returns `""` when fuel runs out.  The first route's `FullPath` is inlined
(see `routeFullPath_eq` below). -/
def resourceFullPath (d : APIDefinition) : Nat → ResourceDefinition → APIVersionDefinition → Str
  | 0, _, _ => []
  | Nat.succ fuel, res, ver =>
    let basePath :=
      match resourceParent d res with
      | none => ver.BasePath
      | some p =>
        match CanonicalAction p with
        | none => []
        | some ca =>
          match ca.Routes with
          | [] => []
          | r0 :: _ =>
            goJoin [if IsAbsolute r0 then cleanPath (r0.Path.drop 1)
                    else cleanPath (goJoin [resourceFullPath d fuel p ver, r0.Path])]
    cleanPath (goJoin [basePath, res.BasePath])

/-- `RouteDefinition.FullPath`: an absolute route keeps its own path (leading
slash stripped, re-cleaned); a relative route joins the owning resource's full
path (empty when the route has no action/resource parent) with its own. -/
def routeFullPath (d : APIDefinition) (fuel : Nat) (owner : Option ResourceDefinition)
    (r : RouteDefinition) (ver : APIVersionDefinition) : Str :=
  if IsAbsolute r then cleanPath (r.Path.drop 1)
  else
    cleanPath (goJoin [(match owner with
      | some res => resourceFullPath d fuel res ver
      | none => []), r.Path])

/-- `RouteDefinition.Params`: the wildcard names of the route's full path. -/
def routeParams (d : APIDefinition) (fuel : Nat) (owner : Option ResourceDefinition)
    (r : RouteDefinition) (ver : APIVersionDefinition) : List Str :=
  ExtractWildcards (routeFullPath d fuel owner r ver)

/-! ## Enumeration (the `Iterate*` operations) -/

/-- Sequential fail-fast visiting: invoke the visitor on each element in
order, stop at the first error and return it unchanged. -/
def seqVisit {ε α : Type} (it : α → Except ε Unit) : List α → Except ε Unit
  | [] => .ok ()
  | x :: xs =>
    match it x with
    | .error e => .error e
    | .ok _ => seqVisit it xs

/-- Collect the keys of a map and sort them (Go `sort.Strings`: bytewise
lexicographic, which on ASCII is the `List Char` lexicographic order; since
strings are totally ordered and equal keys are identical, the sorted
permutation — and hence the output of any correct sort — is unique). -/
def sortedKeys {α : Type} (m : List (Str × α)) : List Str :=
  (m.map Prod.fst).insertionSort (fun a b : Str => a ≤ b)

/-- The entries visited by an `Iterate*` operation: the sorted keys, each
resolved through the map.  (In Go the lookup cannot miss because the keys come
from the map itself; `filterMap` skips the impossible miss.) -/
def visitList {α : Type} (m : List (Str × α)) : List α :=
  (sortedKeys m).filterMap (lookupA m)

/-- The shape shared by all `Iterate*` operations: collect the keys, sort
them, visit `m[n]` for each key in order, fail fast. -/
def iterateMap {ε α : Type} (m : List (Str × α)) (it : α → Except ε Unit) : Except ε Unit :=
  seqVisit it (visitList m)

/-- `APIDefinition.IterateResources`. -/
def IterateResources {ε : Type} (d : APIDefinition) (it : ResourceDefinition → Except ε Unit) :
    Except ε Unit :=
  iterateMap d.Resources it

/-- `APIDefinition.IterateMediaTypes`. -/
def IterateMediaTypes {ε : Type} (d : APIDefinition) (it : MediaTypeDefinition → Except ε Unit) :
    Except ε Unit :=
  iterateMap d.MediaTypes it

/-- `APIDefinition.IterateUserTypes`. -/
def IterateUserTypes {ε : Type} (d : APIDefinition) (it : UserTypeDefinition → Except ε Unit) :
    Except ε Unit :=
  iterateMap d.Types it

/-- `ResourceDefinition.IterateActions`. -/
def IterateActions {ε : Type} (r : ResourceDefinition) (it : ActionDefinition → Except ε Unit) :
    Except ε Unit :=
  iterateMap r.Actions it

/-- `APIVersionDefinition.IterateResponses`. -/
def IterateResponses {ε : Type} (v : APIVersionDefinition)
    (it : ResponseDefinition → Except ε Unit) : Except ε Unit :=
  iterateMap v.Responses it

/-- The version scopes in iteration order: the embedded default (unversioned)
scope first, then the named versions sorted by version string. -/
def iterVersionDefs (d : APIDefinition) : List APIVersionDefinition :=
  d.apiVersionDefinition :: visitList d.APIVersions

/-- `APIDefinition.IterateVersions`: the default scope is visited first, then
the named versions in sorted order, failing fast throughout. -/
def IterateVersions {ε : Type} (d : APIDefinition)
    (it : APIVersionDefinition → Except ε Unit) : Except ε Unit :=
  match it d.apiVersionDefinition with
  | .error e => .error e
  | .ok _ => seqVisit it (visitList d.APIVersions)

/-! ## Response merging -/

/-- Field lookup in an optional attribute's object. -/
def lookupField (h : Option AttributeDefinition) (k : Str) : Option AttributeDefinition :=
  match h with
  | none => none
  | some a => lookupA (toObject a.type) k

/-- Well-formedness of an optional headers/params attribute: absent, or of
object type.  (Go panics on writing into the nil map obtained from a
non-object attribute, so behaviour is only claimed under this condition.) -/
def isObjAttr : Option AttributeDefinition → Bool
  | none => true
  | some a =>
    match a.type with
    | .object _ => true
    | _ => false

/-- The header part of `ResponseDefinition.Merge`: when `other` has a
non-empty header object, keys absent from the receiver's header object are
appended to it (creating an empty header object first when the receiver has
none); keys already present are untouched. -/
def mergeHeaders (rh ohOpt : Option AttributeDefinition) : Option AttributeDefinition :=
  match ohOpt with
  | none => rh
  | some oh =>
    if (toObject oh.type).isEmpty then rh
    else
      let base :=
        match rh with
        | none => AttributeDefinition.mk (.object []) []
        | some h => h
      let hs := toObject base.type
      some (AttributeDefinition.mk
        (.object (hs ++ (toObject oh.type).filter (fun q => (lookupA hs q.1).isNone)))
        base.nonZeroAttributes)

/-- `ResponseDefinition.Merge`: each of `Name`, `Status`, `Description` and
`MediaType` is taken from `other` only when currently unset (empty string,
`0` for `Status`); header keys of `other` absent from the receiver are added,
keys already present are left untouched; a `nil` argument is a no-op. -/
def ResponseDefinition.Merge (r : ResponseDefinition) (other : Option ResponseDefinition) :
    ResponseDefinition :=
  match other with
  | none => r
  | some o =>
    { r with
      Name := if r.Name = [] then o.Name else r.Name
      Status := if r.Status = 0 then o.Status else r.Status
      Description := if r.Description = [] then o.Description else r.Description
      MediaType := if r.MediaType = [] then o.MediaType else r.MediaType
      Headers := mergeHeaders r.Headers o.Headers }

/-- The all-empty (zero-valued) response definition. -/
def emptyResponse : ResponseDefinition := ⟨[], 0, [], [], none, false, false⟩

/-! ## Finalization (`ResourceDefinition.Finalize`) and derived parameter views -/

/-- Modelled from the spec: `DupAtt` (design package file not under `src/`)
returns a deep copy of an attribute; in a pure value model a copy is the
value itself. -/
def DupAtt (a : AttributeDefinition) : AttributeDefinition := a

/-- Modelled from the spec: `AttributeDefinition.Merge` (design package file
not under `src/`) writes every named field of `other`'s object into the
receiver's object — the result carries the union of the two field-name sets,
with `other`'s binding where both have one; a `nil` argument is a no-op. -/
def mergeAttr (a : AttributeDefinition) (other : Option AttributeDefinition) :
    AttributeDefinition :=
  match other with
  | none => a
  | some o =>
    AttributeDefinition.mk
      (.object ((toObject a.type).filter
        (fun q => (lookupA (toObject o.type) q.1).isNone) ++ toObject o.type))
      a.nonZeroAttributes

/-- `ActionDefinition.HasAbsoluteRoutes`: true when every route is absolute
(vacuously true for an action with no routes, as in Go). -/
def HasAbsoluteRoutes (a : ActionDefinition) : Bool := a.Routes.all IsAbsolute

/-- The non-recursive part of `ActionDefinition.AllParams`: a duplicate of the
action's `Params` (an empty object when absent); when some route is relative,
merged with the resource's `BaseParams`, the API `BaseParams` and the given
parent contribution. -/
def allParamsCore (d : APIDefinition) (res : ResourceDefinition) (a : ActionDefinition)
    (parentParams : Option AttributeDefinition) : AttributeDefinition :=
  let base :=
    match a.Params with
    | some p => DupAtt p
    | none => AttributeDefinition.mk (.object []) []
  if HasAbsoluteRoutes a then base
  else
    mergeAttr (mergeAttr (mergeAttr base res.BaseParams) d.apiVersionDefinition.BaseParams)
      parentParams

/-- `ActionDefinition.AllParams`: the parent contribution is the parent's
canonical action's own `AllParams`.  The parent-chain recursion is fuelled as
in `resourceFullPath`; Go dereferences a nil pointer when the parent has no
canonical action (the DSL validation rules that out), the model skips that
merge. -/
def AllParams (d : APIDefinition) :
    Nat → ResourceDefinition → ActionDefinition → AttributeDefinition
  | 0, res, a => allParamsCore d res a none
  | Nat.succ fuel, res, a =>
    allParamsCore d res a
      (match resourceParent d res with
       | some p =>
         match CanonicalAction p with
         | some ca => some (AllParams d fuel p ca)
         | none => none
       | none => none)

/-- One wildcard of step 2 of `Finalize`: create the params object on demand
and insert a `String`-typed attribute when the name has none. -/
def addWildcard (p : Option AttributeDefinition) (wc : Str) : AttributeDefinition :=
  match p with
  | none => AttributeDefinition.mk (.object [(wc, attrString)]) []
  | some a =>
    let o := toObject a.type
    if (lookupA o wc).isSome then a
    else AttributeDefinition.mk (.object (o ++ [(wc, attrString)])) a.nonZeroAttributes

/-- Step 2 of `Finalize` for one action: for every route (outer) and every
version scope (inner, default first), add an implicit parameter for each
wildcard of the route's full path that has none. -/
def implicitParams (d : APIDefinition) (fuel : Nat) (res : ResourceDefinition)
    (a : ActionDefinition) : Option AttributeDefinition :=
  a.Routes.foldl
    (fun p r =>
      (iterVersionDefs d).foldl
        (fun p ver =>
          (ExtractWildcards (routeFullPath d fuel (some res) r ver)).foldl
            (fun p wc => some (addWildcard p wc)) p)
        p)
    a.Params

/-- The names deleted from the query duplicate and marked non-zero by step 3:
for every version scope (outer) and every route (inner), the wildcards of the
route's full path. -/
def allPathNames (d : APIDefinition) (fuel : Nat) (res : ResourceDefinition)
    (routes : List RouteDefinition) : List Str :=
  (iterVersionDefs d).foldl
    (fun acc ver =>
      routes.foldl
        (fun acc r => acc ++ ExtractWildcards (routeFullPath d fuel (some res) r ver)) acc)
    []

/-- `ResourceDefinition.Finalize` restricted to one action: (1) merge each
response with the same-named parent-resource, API-global and built-in default
responses, in that order; (2) synthesize implicit `String` parameters for
path wildcards; (3) when a parameter object exists, mark every path-parameter
name non-zero on `Params` and make `QueryParams` a duplicate of `Params` with
those names removed. -/
def finalizeAction (d : APIDefinition) (fuel : Nat) (res : ResourceDefinition)
    (a : ActionDefinition) : ActionDefinition :=
  let responses := a.Responses.map (fun nr =>
    (nr.1,
      ((nr.2.Merge (lookupA res.Responses nr.1)).Merge
          (lookupA d.apiVersionDefinition.Responses nr.1)).Merge
        (lookupA d.apiVersionDefinition.DefaultResponses nr.1)))
  match implicitParams d fuel res a with
  | none => { a with Responses := responses }
  | some ps =>
    let pnames := allPathNames d fuel res a.Routes
    { a with
      Responses := responses
      Params := some (AttributeDefinition.mk ps.type pnames)
      QueryParams := some (AttributeDefinition.mk
        (.object ((toObject (DupAtt ps).type).filter (fun q => !pnames.contains q.1)))
        (DupAtt ps).nonZeroAttributes) }

/-- `ResourceDefinition.Finalize`: finalize every action.  (The sorted
iteration order of `IterateActions` does not affect the result: each action
only reads shared data and writes itself.) -/
def Finalize (d : APIDefinition) (fuel : Nat) (res : ResourceDefinition) : ResourceDefinition :=
  { res with Actions := res.Actions.map (fun na => (na.1, finalizeAction d fuel res na.2)) }

/-- The field names of an optional attribute's object. -/
def attrNames (p : Option AttributeDefinition) : List Str :=
  match p with
  | none => []
  | some a => (toObject a.type).map Prod.fst

/-- The action's declared parameter names (keys of `Params`). -/
def paramNames (a : ActionDefinition) : List Str := attrNames a.Params

/-- The action's query-parameter names (keys of `QueryParams`). -/
def queryParamNames (a : ActionDefinition) : List Str := attrNames a.QueryParams

/-- The action's path-parameter names under one version scope: the wildcards
of its routes' full paths under that scope (the claim's own definition; these
are also the keys of the object built by `ActionDefinition.PathParams`). -/
def actionPathNames (d : APIDefinition) (fuel : Nat) (res : ResourceDefinition)
    (a : ActionDefinition) (ver : APIVersionDefinition) : List Str :=
  (a.Routes.map (fun r => ExtractWildcards (routeFullPath d fuel (some res) r ver))).flatten

/-! ## Media-type canonicalization (`CanonicalIdentifier` and the Go `mime`
package functions it calls)

The `mime` library functions are embedded at the character level; Go operates
on bytes, and on ASCII data — all identifiers this code handles — the views
coincide.  Characters with code points in `[0x80, 0xFF]` stand for the
corresponding bytes; RFC 2231 percent-encoding of a character with a larger
code point (which in Go would be several UTF-8 bytes) is out of the model's
scope and makes `FormatMediaType` return `""`, exactly as it does for other
unrepresentable inputs.  `strings.ToLower` is modelled on ASCII. -/

/-- The apostrophe character (U+0027). -/
def apos : Char := Char.ofNat 39

/-- `mime.isTSpecial`: the RFC 1521 special characters. -/
def isTSpecialChar (c : Char) : Bool :=
  c = '(' || c = ')' || c = '<' || c = '>' || c = '@' || c = ',' || c = ';' || c = ':' ||
  c = '\\' || c = '"' || c = '/' || c = '[' || c = ']' || c = '?' || c = '='

/-- `mime.isTokenChar`: printable ASCII except space and specials. -/
def isTokenChar (c : Char) : Bool :=
  0x20 < c.toNat && c.toNat < 0x7f && !isTSpecialChar c

/-- `mime.isToken`: a non-empty run of token characters. -/
def isToken (s : Str) : Bool := !s.isEmpty && s.all isTokenChar

/-- `unicode.IsSpace` (the White_Space code points). -/
def goIsSpace (c : Char) : Bool :=
  c = ' ' || c = '\t' || c = '\n' || c.toNat = 0x0B || c.toNat = 0x0C || c = '\r' ||
  c.toNat = 0x85 || c.toNat = 0xA0 || c.toNat = 0x1680 ||
  (0x2000 ≤ c.toNat && c.toNat ≤ 0x200A) ||
  c.toNat = 0x2028 || c.toNat = 0x2029 || c.toNat = 0x202F || c.toNat = 0x205F ||
  c.toNat = 0x3000

/-- `strings.TrimLeftFunc(·, unicode.IsSpace)`. -/
def trimLeftSpace (s : Str) : Str := s.dropWhile goIsSpace

/-- `strings.TrimSpace`. -/
def trimSpace (s : Str) : Str :=
  ((s.dropWhile goIsSpace).reverse.dropWhile goIsSpace).reverse

/-- ASCII lowering of one character (`strings.ToLower`, ASCII fragment). -/
def toLowerChar (c : Char) : Char :=
  if 'A' ≤ c ∧ c ≤ 'Z' then Char.ofNat (c.toNat + 32) else c

/-- ASCII `strings.ToLower`. -/
def toLowerAscii (s : Str) : Str := s.map toLowerChar

/-- `strings.Cut` at a one-character separator: (before, after, found). -/
def cutChar (s : Str) (sep : Char) : Str × Str × Bool :=
  let before := s.takeWhile (fun c => !(c == sep))
  match s.drop before.length with
  | [] => (before, [], false)
  | _ :: after => (before, after, true)

/-- `mime.consumeToken`: the maximal token-character prefix and the rest. -/
def consumeToken (v : Str) : Str × Str :=
  (v.takeWhile isTokenChar, v.dropWhile isTokenChar)

/-- The quoted-string loop of `mime.consumeValue`, after the opening quote:
a backslash escapes a following tspecial, other backslashes are literal, bare
CR/LF or a missing closing quote fail. -/
def parseQuoted : Str → Option (Str × Str)
  | [] => none
  | c :: rest =>
    if c = '"' then some ([], rest)
    else if c = '\\' then
      match rest with
      | c2 :: rest2 =>
        if isTSpecialChar c2 then
          match parseQuoted rest2 with
          | some (val, r) => some (c2 :: val, r)
          | none => none
        else
          match parseQuoted (c2 :: rest2) with
          | some (val, r) => some ('\\' :: val, r)
          | none => none
      | [] => none
    else if c = '\r' ∨ c = '\n' then none
    else
      match parseQuoted rest with
      | some (val, r) => some (c :: val, r)
      | none => none

/-- `mime.consumeValue`: a token, or a quoted string; on failure the empty
value with the input unchanged. -/
def consumeValue (v : Str) : Str × Str :=
  match v with
  | [] => ([], [])
  | c :: rest =>
    if c = '"' then
      match parseQuoted rest with
      | some (val, r) => (val, r)
      | none => ([], v)
    else consumeToken v

/-- `mime.consumeMediaParam`: `;` `attribute` `=` `value` with optional
spaces; the attribute is lowered; failure returns empty strings with the
input unchanged. -/
def consumeMediaParam (v : Str) : Str × Str × Str :=
  match trimLeftSpace v with
  | ';' :: rest1 =>
    let rest2 := trimLeftSpace rest1
    match consumeToken rest2 with
    | (param0, rest3) =>
      let param := toLowerAscii param0
      if param = [] then ([], [], v)
      else
        match trimLeftSpace rest3 with
        | '=' :: rest4 =>
          let rest5 := trimLeftSpace rest4
          match consumeValue rest5 with
          | (value, rest6) =>
            if value = [] ∧ rest6 = rest5 then ([], [], v)
            else (param, value, rest6)
        | _ => ([], [], v)
  | _ => ([], [], v)

/-- A hexadecimal digit? (`mime.ishex`). -/
def ishexChar (c : Char) : Bool :=
  ('0' ≤ c && c ≤ '9') || ('a' ≤ c && c ≤ 'f') || ('A' ≤ c && c ≤ 'F')

/-- Numeric value of a hexadecimal digit (`mime.unhex`). -/
def unhex (c : Char) : Nat :=
  if '0' ≤ c ∧ c ≤ '9' then c.toNat - 48
  else if 'a' ≤ c ∧ c ≤ 'f' then c.toNat - 87
  else if 'A' ≤ c ∧ c ≤ 'F' then c.toNat - 55
  else 0

/-- `mime.percentHexUnescape` (single pass, equivalent to Go's
validate-then-decode): every `%` must head two hex digits. -/
def percentHexUnescape : Str → Option Str
  | [] => some []
  | '%' :: rest =>
    match rest with
    | c1 :: c2 :: rest2 =>
      if ishexChar c1 ∧ ishexChar c2 then
        match percentHexUnescape rest2 with
        | some t => some (Char.ofNat (unhex c1 * 16 + unhex c2) :: t)
        | none => none
      else none
    | _ => none
  | c :: rest =>
    match percentHexUnescape rest with
    | some t => some (c :: t)
    | none => none

/-- `mime.decode2231Enc`: `charset'language'percent-data` with charset
`us-ascii` or `utf-8`. -/
def decode2231Enc (v : Str) : Option Str :=
  match cutChar v apos with
  | (cs, r1, true) =>
    match cutChar r1 apos with
    | (_lang, enc, true) =>
      let charset := toLowerAscii cs
      if charset = [] then none
      else if charset ≠ strOf "us-ascii" ∧ charset ≠ strOf "utf-8" then none
      else percentHexUnescape enc
    | (_, _, false) => none
  | (_, _, false) => none

/-- `mime.checkMediaTypeDisposition` as a Boolean: `token` or
`token "/" token`, nothing after. -/
def checkMediaTypeDisposition (s : Str) : Bool :=
  match consumeToken s with
  | (typ, rest) =>
    if typ = [] then false
    else
      match rest with
      | [] => true
      | '/' :: rest1 =>
        match consumeToken rest1 with
        | (subtype, rest2) => !subtype.isEmpty && rest2.isEmpty
      | _ => false

/-- The Go `map[string]string`, as an association list with the map's
observable behaviour (lookup, overwrite-or-add assignment). -/
abbrev Mss := List (Str × Str)

/-- Go map assignment `m[k] = v`. -/
def mssSet (m : Mss) (k v : Str) : Mss :=
  if (lookupA m k).isSome then m.map (fun q => if q.1 = k then (q.1, v) else q)
  else m ++ [(k, v)]

/-- The continuation map `map[string]map[string]string` of `ParseMediaType`. -/
abbrev Cont := List (Str × Mss)

/-- `continuation[base][k] = v` (creating the inner map if needed). -/
def contSet (c : Cont) (base k v : Str) : Cont :=
  if (lookupA c base).isSome then
    c.map (fun q => if q.1 = base then (q.1, mssSet q.2 k v) else q)
  else c ++ [(base, [(k, v)])]

/-- Decimal digits of a natural number (`fmt.Sprintf("%d", ·)`). -/
def natDecAux : Nat → Nat → Str
  | 0, _ => []
  | fuel + 1, n =>
    if n < 10 then [Char.ofNat (48 + n)]
    else natDecAux fuel (n / 10) ++ [Char.ofNat (48 + n % 10)]

/-- Decimal rendering of a natural number. -/
def natDec (n : Nat) : Str := natDecAux (n + 1) n

/-- The parameter loop of `mime.ParseMediaType`: read `; k=v` chunks,
filing keys containing `*` into the continuation map, erroring on a
duplicate key with a different value, tolerating one trailing semicolon.
Fuelled by the input length (each iteration consumes at least one
character, so the fuel never runs out when started with the length). -/
def parseParams : Nat → Str → Mss → Cont → Option (Mss × Cont)
  | _, [], params, cont => some (params, cont)
  | 0, _ :: _, _, _ => none
  | fuel + 1, v, params, cont =>
    let v1 := trimLeftSpace v
    if v1 = [] then some (params, cont)
    else
      match consumeMediaParam v1 with
      | (key, value, rest) =>
        if key = [] then
          if trimSpace v1 = [';'] then some (params, cont) else none
        else
          match cutChar key '*' with
          | (base, _, true) =>
            let pmap := (lookupA cont base).getD []
            match lookupA pmap key with
            | some vv =>
              if vv = value then parseParams fuel rest params (contSet cont base key value)
              else none
            | none => parseParams fuel rest params (contSet cont base key value)
          | (_, _, false) =>
            match lookupA params key with
            | some vv =>
              if vv = value then parseParams fuel rest (mssSet params key value) cont
              else none
            | none => parseParams fuel rest (mssSet params key value) cont

/-- The multi-part (`key*0`, `key*1`, …) stitching loop of
`ParseMediaType`, fuelled by the piece-map size (each iteration consumes a
distinct key, so the fuel suffices). -/
def stitchLoop (key : Str) (pieceMap : Mss) : Nat → Nat → Str → Bool → Str × Bool
  | 0, _, acc, valid => (acc, valid)
  | fuel + 1, n, acc, valid =>
    let simplePart := key ++ '*' :: natDec n
    match lookupA pieceMap simplePart with
    | some v => stitchLoop key pieceMap fuel (n + 1) (acc ++ v) true
    | none =>
      match lookupA pieceMap (simplePart ++ ['*']) with
      | none => (acc, valid)
      | some v =>
        if n = 0 then
          match decode2231Enc v with
          | some decv => stitchLoop key pieceMap fuel (n + 1) (acc ++ decv) true
          | none => stitchLoop key pieceMap fuel (n + 1) acc true
        else
          stitchLoop key pieceMap fuel (n + 1)
            (acc ++ (percentHexUnescape v).getD []) true

/-- Stitch one continuation entry into the parameters: a single-part
`key*` is RFC 2231-decoded (and silently dropped when undecodable); the
multi-part loop errors when no part at all is found. -/
def stitchOne (params : Mss) (kp : Str × Mss) : Option Mss :=
  match lookupA kp.2 (kp.1 ++ ['*']) with
  | some v =>
    match decode2231Enc v with
    | some decv => some (mssSet params kp.1 decv)
    | none => some params
  | none =>
    match stitchLoop kp.1 kp.2 (kp.2.length + 1) 0 [] false with
    | (acc, true) => some (mssSet params kp.1 acc)
    | (_, false) => none

/-- Fold the continuation map into the parameters. -/
def stitchAll : Mss → Cont → Option Mss
  | params, [] => some params
  | params, kp :: rest =>
    match stitchOne params kp with
    | some params2 => stitchAll params2 rest
    | none => none

/-- `mime.ParseMediaType`: media type before the first `;`, trimmed and
lowered, checked as `token["/" token]`; then the parameter loop and RFC 2231
stitching.  `none` models a non-nil error. -/
def ParseMediaType (v : Str) : Option (Str × Mss) :=
  let base := v.takeWhile (fun c => !(c == ';'))
  let mediatype := trimSpace (toLowerAscii base)
  if checkMediaTypeDisposition mediatype then
    match parseParams (v.drop base.length).length (v.drop base.length) [] [] with
    | none => none
    | some (params, cont) =>
      match stitchAll params cont with
      | some params2 => some (mediatype, params2)
      | none => none
  else none

/-- Does a parameter value need RFC 2231 encoding? (`ch < ' ' || ch > '~'`.) -/
def needsEnc (value : Str) : Bool :=
  value.any (fun c => c.toNat < 0x20 || 0x7e < c.toNat)

/-- Upper-case hexadecimal digit. -/
def hexDigitUpper (n : Nat) : Char :=
  if n < 10 then Char.ofNat (48 + n) else Char.ofNat (55 + n)

/-- Is a character kept verbatim by the RFC 2231 encoder?
(RFC 2231 attribute-char: anything but controls, space, DEL, non-ASCII,
`*`, `'`, `%` and tspecials.) -/
def rfc2231Plain (c : Char) : Bool :=
  !(c.toNat ≤ 0x20 || 0x7f ≤ c.toNat || c = '*' || c = apos || c = '%' || isTSpecialChar c)

/-- The RFC 2231 value encoder of `FormatMediaType` (percent-escaping
non-attribute characters); characters above `0xFF` are outside the byte
model and make the encoder — and hence `FormatMediaType` — fail. -/
def encodeRFC2231 : Str → Option Str
  | [] => some []
  | c :: rest =>
    if rfc2231Plain c then
      match encodeRFC2231 rest with
      | some t => some (c :: t)
      | none => none
    else if c.toNat < 256 then
      match encodeRFC2231 rest with
      | some t =>
        some ('%' :: hexDigitUpper (c.toNat / 16) :: hexDigitUpper (c.toNat % 16) :: t)
      | none => none
    else none

/-- The quoted-string escaper of `FormatMediaType`: backslash before every
`"` and `\`. -/
def escapeQuoted : Str → Str
  | [] => []
  | c :: rest =>
    if c = '"' ∨ c = '\\' then '\\' :: c :: escapeQuoted rest
    else c :: escapeQuoted rest

/-- One `; attr=value` chunk of `FormatMediaType`: `none` when the
attribute name is not a token or the value is unrepresentable. -/
def formatParam (attrName value : Str) : Option Str :=
  if isToken attrName then
    if needsEnc value then
      match encodeRFC2231 value with
      | some enc =>
        some (';' :: ' ' :: (toLowerAscii attrName ++ '*' :: '=' ::
          (strOf "utf-8" ++ apos :: apos :: enc)))
      | none => none
    else if isToken value then
      some (';' :: ' ' :: (toLowerAscii attrName ++ '=' :: value))
    else
      some (';' :: ' ' :: (toLowerAscii attrName ++ '=' :: '"' :: (escapeQuoted value ++ ['"'])))
  else none

/-- The base-type serialization of `mime.FormatMediaType`: the lowered
`token` or `token "/" token`, `none` when either side is not a token. -/
def formatBase (t : Str) : Option Str :=
  match cutChar t '/' with
  | (_, _, false) => if isToken t then some (toLowerAscii t) else none
  | (major, sub, true) =>
    if isToken major ∧ isToken sub then
      some (toLowerAscii major ++ '/' :: toLowerAscii sub)
    else none

/-- One step of the parameter fold of `mime.FormatMediaType`: append the
chunk for attribute `k`, failing when the chunk is unrepresentable. -/
def formatFoldStep (param : Mss) (acc : Option Str) (k : Str) : Option Str :=
  match acc with
  | none => none
  | some s =>
    match formatParam k ((lookupA param k).getD []) with
    | some chunk => some (s ++ chunk)
    | none => none

/-- `mime.FormatMediaType`: the lowered `token["/" token]` followed by one
chunk per parameter in sorted attribute order; any failure yields `""`. -/
def FormatMediaType (t : Str) (param : Mss) : Str :=
  match formatBase t with
  | none => []
  | some b =>
    match (sortedKeys param).foldl (formatFoldStep param) (some b) with
    | none => []
    | some s => s

/-- `design.CanonicalIdentifier`: parse the identifier; on failure return it
verbatim; otherwise drop everything from the first `+` of the base type and
re-serialize with the parameters. -/
def CanonicalIdentifier (identifier : Str) : Str :=
  match ParseMediaType identifier with
  | none => identifier
  | some (base, params) =>
    FormatMediaType (base.takeWhile (fun c => !(c == '+'))) params

/-- `APIDefinition.MediaTypeWithIdentifier`: the first registered media type
whose canonical identifier matches the canonical form of `id` (map iteration
is modelled as list order), `none` when no media type matches. -/
def MediaTypeWithIdentifier (d : APIDefinition) (id : Str) : Option MediaTypeDefinition :=
  (d.MediaTypes.map Prod.snd).find?
    (fun mt => CanonicalIdentifier id == CanonicalIdentifier mt.Identifier)

/-! ### Descriptors for the mime round-trip development

These definitions do not embed further source code; they name the shapes
that `FormatMediaType` emits and `ParseMediaType` recovers, so that the
round-trip theorems below can state them once. -/

/-- The key well-formedness maintained by the parameter maps of
`ParseMediaType`: every character is already lower-case and none is `*`. -/
def wfKey (k : Str) : Prop := ∀ c ∈ k, toLowerChar c = c ∧ c ≠ '*'

/-- The `utf-8''…` value emitted for an RFC 2231-encoded parameter. -/
def encVal (v : Str) : Str :=
  strOf "utf-8" ++ apos :: apos :: (encodeRFC2231 v).getD []

/-- The attribute name as it appears in a formatted chunk (a `*` is appended
when the value needs RFC 2231 encoding). -/
def chunkKey (k v : Str) : Str := if needsEnc v then k ++ ['*'] else k

/-- The serialized value of a formatted chunk. -/
def chunkVal (v : Str) : Str :=
  if needsEnc v then encVal v
  else if isToken v then v
  else '"' :: (escapeQuoted v ++ ['"'])

/-- The raw value `consumeMediaParam` recovers from a formatted chunk. -/
def parsedVal (v : Str) : Str := if needsEnc v then encVal v else v

/-- A whole formatted `; attr=value` chunk (for a lower-case attribute). -/
def chunkFor (k v : Str) : Str := ';' :: ' ' :: (chunkKey k v ++ '=' :: chunkVal v)

/-- The direct (non-continuation) parameter entries the parser recovers from
the formatted chunks for the keys `ks`. -/
def fmtDirects (p : Mss) (ks : List Str) : Mss :=
  (ks.filter (fun k => !needsEnc ((lookupA p k).getD []))).map
    (fun k => (k, (lookupA p k).getD []))

/-- The continuation-map entries the parser files from the formatted chunks
for the keys `ks`. -/
def fmtConts (p : Mss) (ks : List Str) : Cont :=
  (ks.filter (fun k => needsEnc ((lookupA p k).getD []))).map
    (fun k => (k, [(k ++ ['*'], encVal ((lookupA p k).getD []))]))

/-- The parameter map recovered by parsing the formatted chunks for `ks`:
the direct entries first, then the stitched continuation entries. -/
def fmtParsed (p : Mss) (ks : List Str) : Mss :=
  fmtDirects p ks ++
    (ks.filter (fun k => needsEnc ((lookupA p k).getD []))).map
      (fun k => (k, (lookupA p k).getD []))

/-- The concatenated chunks the parameter fold of `FormatMediaType` appends
after the base type. -/
def formatChunks (p : Mss) : List Str → Option Str
  | [] => some []
  | k :: ks =>
    match formatParam k ((lookupA p k).getD []), formatChunks p ks with
    | some c, some rest => some (c ++ rest)
    | _, _ => none

/-! ### Concrete graphs used by witnesses and counterexamples -/

/-- A version scope with empty version string and empty base path. -/
def verEmpty : APIVersionDefinition := ⟨[], [], none, [], []⟩

/-- A parent resource with no actions at all (hence no canonical action). -/
def parentRes : ResourceDefinition :=
  ⟨strOf "parent", strOf "/parents", none, [], [], [], [], []⟩

/-- A child resource naming `parentRes` as parent. -/
def childRes : ResourceDefinition :=
  ⟨strOf "child", strOf "/children", none, strOf "parent", [], [], [], []⟩

/-- Root graph holding the parent/child pair. -/
def c5Design : APIDefinition :=
  ⟨verEmpty, [], [(strOf "parent", parentRes), (strOf "child", childRes)], [], []⟩

/-- Default (unversioned) scope whose base path carries a wildcard. -/
def verTenant : APIVersionDefinition := ⟨[], strOf "/:tenant", none, [], []⟩

/-- Named version scope `v1` with a wildcard-free base path. -/
def verV1 : APIVersionDefinition := ⟨strOf "v1", strOf "/api", none, [], []⟩

/-- An action with one relative route and no declared parameters. -/
def fooAction : ActionDefinition := ⟨strOf "list", [⟨strOf "GET", strOf "/foo"⟩], none, none, []⟩

/-- The resource owning `fooAction`. -/
def fooRes : ResourceDefinition :=
  ⟨strOf "widgets", [], none, [], [], [(strOf "list", fooAction)], [], []⟩

/-- Root graph whose default scope's base path has a wildcard that the `v1`
scope's base path lacks. -/
def c1Design : APIDefinition :=
  ⟨verTenant, [(strOf "v1", verV1)], [(strOf "widgets", fooRes)], [], []⟩

/-- A registered media type with a `+json` suffix in its identifier. -/
def mtFoo : MediaTypeDefinition := ⟨strOf "application/vnd.foo+json"⟩

/-- Root graph registering `mtFoo` under its identifier. -/
def c7Design : APIDefinition :=
  ⟨verEmpty, [], [], [], [(strOf "application/vnd.foo+json", mtFoo)]⟩

/-! ## Theorems -/

theorem dropWord_length_le (s : Str) : (dropWord s).length ≤ s.length := by
  induction s with
  | nil => exact Nat.le_refl _
  | cons c rest ih =>
    simp only [dropWord]
    by_cases h : isWordChar c
    · simp only [h, if_true]
      exact Nat.le_succ_of_le ih
    · simp [h]

theorem isWordChar_ne_slash {c : Char} (h : isWordChar c = true) : c ≠ '/' := by
  intro hc
  subst hc
  exact absurd h (by decide)

theorem wildcardSpec_dropWord (s : Str) : wildcardSpec (dropWord s) = wildcardSpec s := by
  induction s with
  | nil => rfl
  | cons c rest ih =>
    by_cases h : isWordChar c
    · have hc : c ≠ '/' := isWordChar_ne_slash h
      simp only [dropWord, h, if_true]
      rw [ih]
      simp only [wildcardSpec]
      simp [hc]
    · simp [dropWord, h]

theorem exFind_eq_wildcardSpec :
    ∀ (fuel : Nat) (s : Str), s.length ≤ fuel → exFind fuel s = wildcardSpec s := by
  intro fuel
  induction fuel with
  | zero =>
    intro s hs
    have : s = [] := by cases s <;> simp_all
    subst this
    rfl
  | succ fuel ih =>
    intro s hs
    match s with
    | [] => rfl
    | c :: rest =>
      by_cases hc : c = '/'
      · subst hc
        match rest with
        | [] => rfl
        | k :: rest2 =>
          by_cases hm : (k = ':' ∨ k = '*') ∧ takeWord rest2 ≠ []
          · have hk : k ≠ '/' := by rcases hm.1 with h | h <;> subst h <;> decide
            have h1 : exFind (fuel + 1) ('/' :: k :: rest2) =
                takeWord rest2 :: exFind fuel (dropWord rest2) := by
              simp [exFind, hm]
            have hlen : (dropWord rest2).length ≤ fuel := by
              have := dropWord_length_le rest2
              simp only [List.length_cons] at hs
              omega
            rw [h1, ih _ hlen, wildcardSpec_dropWord]
            simp only [wildcardSpec]
            simp [hm, hk]
          · have h1 : exFind (fuel + 1) ('/' :: k :: rest2) = exFind fuel (k :: rest2) := by
              simp [exFind, hm]
            have hlen : (k :: rest2).length ≤ fuel := by
              simp only [List.length_cons] at hs ⊢
              omega
            rw [h1, ih _ hlen]
            simp only [wildcardSpec]
            simp [hm]
      · have h1 : exFind (fuel + 1) (c :: rest) = exFind fuel rest := by
          simp [exFind, hc]
        have hlen : rest.length ≤ fuel := by
          simp only [List.length_cons] at hs
          omega
        rw [h1, ih _ hlen]
        simp only [wildcardSpec]
        simp [hc]

/-- The inlined first-route computation in `resourceFullPath` is exactly
`routeFullPath` of that route with the parent resource as owner. -/
theorem resourceFullPath_succ (d : APIDefinition) (fuel : Nat) (res : ResourceDefinition)
    (ver : APIVersionDefinition) :
    resourceFullPath d (fuel + 1) res ver =
      cleanPath (goJoin [(match resourceParent d res with
        | none => ver.BasePath
        | some p =>
          match CanonicalAction p with
          | none => []
          | some ca =>
            match ca.Routes with
            | [] => []
            | r0 :: _ => goJoin [routeFullPath d fuel (some p) r0 ver]), res.BasePath]) := by
  simp only [resourceFullPath, routeFullPath]

example : ExtractWildcards (strOf "/x/:foo-bar") = [strOf "foo"] := by decide
example : ExtractWildcards (strOf "/a/:id/b/*rest") = [strOf "id", strOf "rest"] := by decide
example : ExtractWildcards (strOf "/a:id") = [] := by decide
/-- C4: for every route, `FullPath(scope)` is — when the raw path starts with
`"//"` (absolute) — the cleaned path with the leading slash stripped, ignoring
all ancestor base paths (the result does not depend on the design, the fuel,
the owning resource or the scope); otherwise it is the clean join of the
owning resource's `FullPath(scope)` with the route's own path segment. -/
theorem c4_routeFullPath_spec (d : APIDefinition) (fuel : Nat)
    (owner : Option ResourceDefinition) (r : RouteDefinition) (ver : APIVersionDefinition) :
    (IsAbsolute r = true →
      routeFullPath d fuel owner r ver = cleanPath (r.Path.drop 1) ∧
      ∀ (d' : APIDefinition) (fuel' : Nat) (owner' : Option ResourceDefinition)
        (ver' : APIVersionDefinition),
        routeFullPath d' fuel' owner' r ver' = routeFullPath d fuel owner r ver) ∧
    (IsAbsolute r = false →
      ∀ res, owner = some res →
        routeFullPath d fuel owner r ver =
          cleanPath (goJoin [resourceFullPath d fuel res ver, r.Path])) := by
  refine ⟨fun habs => ⟨?_, fun d' fuel' owner' ver' => ?_⟩, fun habs res howner => ?_⟩
  · simp [routeFullPath, habs]
  · simp [routeFullPath, habs]
  · subst howner
    simp [routeFullPath, habs]

/-- Witness for C4 at concrete inputs: the absolute route `"//x//y"` resolves
to `"/x/y"` whatever the context. -/
theorem c4_witness :
    routeFullPath c5Design 1 none ⟨strOf "GET", strOf "//x//y"⟩ verEmpty =
      cleanPath ((strOf "//x//y").drop 1) :=
  ((c4_routeFullPath_spec c5Design 1 none ⟨strOf "GET", strOf "//x//y"⟩ verEmpty).1
    (by decide)).1

/-- C5 (amended): a resource with a parent lacking a canonical action (or whose
canonical action has no routes) computes its full path from an *empty base
path* — the result is the clean join of `""` with the resource's own base path
(not the empty string) — degrading rather than aborting; a resource without a
parent joins the scope's base path with its own. -/
theorem c5_fullPath_degrades (d : APIDefinition) (fuel : Nat) (res : ResourceDefinition)
    (ver : APIVersionDefinition) :
    (∀ p, resourceParent d res = some p →
      (CanonicalAction p = none ∨ ∃ ca, CanonicalAction p = some ca ∧ ca.Routes = []) →
      resourceFullPath d (fuel + 1) res ver = cleanPath (goJoin [([] : Str), res.BasePath])) ∧
    (resourceParent d res = none →
      resourceFullPath d (fuel + 1) res ver =
        cleanPath (goJoin [ver.BasePath, res.BasePath])) := by
  constructor
  · intro p hp hca
    rcases hca with h | ⟨ca, hca, hroutes⟩
    · simp [resourceFullPath, hp, h]
    · simp [resourceFullPath, hp, hca, hroutes]
  · intro hp
    simp [resourceFullPath, hp]

/-- Witness for C5 (amended) at a concrete input: `childRes` has parent
`parentRes`, which has no canonical action, and the child's path degrades to
the clean of its own base path. -/
theorem c5_witness :
    resourceFullPath c5Design 1 childRes verEmpty =
      cleanPath (goJoin [([] : Str), childRes.BasePath]) :=
  (c5_fullPath_degrades c5Design 0 childRes verEmpty).1 parentRes rfl (Or.inl rfl)

/-- C5 counterexample: the claim says such a resource's `FullPath` "yields an
empty path", but at this input the parent exists and has no canonical action
while `FullPath` returns `"/children"`, which is not empty. -/
theorem c5_counterexample :
    ((resourceParent c5Design childRes).map (fun p => (CanonicalAction p).isNone) = some true) ∧
    resourceFullPath c5Design 2 childRes verEmpty = strOf "/children" ∧
    strOf "/children" ≠ ([] : Str) := by
  refine ⟨rfl, by decide, by decide⟩

theorem lookupA_cons {α : Type} (p : Str × α) (xs : List (Str × α)) (k : Str) :
    lookupA (p :: xs) k = if p.1 = k then some p.2 else lookupA xs k := by
  by_cases h : p.1 = k <;> simp [lookupA, List.find?_cons, h]

theorem lookupA_append_some {α : Type} {xs : List (Str × α)} (ys : List (Str × α)) {k : Str}
    {v : α} (h : lookupA xs k = some v) : lookupA (xs ++ ys) k = some v := by
  induction xs with
  | nil => simp [lookupA] at h
  | cons p xs ih =>
    rw [List.cons_append, lookupA_cons]
    rw [lookupA_cons] at h
    by_cases hp : p.1 = k
    · simpa [hp] using h
    · rw [if_neg hp]
      exact ih (by simpa [hp] using h)

theorem lookupA_append_none {α : Type} {xs : List (Str × α)} (ys : List (Str × α)) {k : Str}
    (h : lookupA xs k = none) : lookupA (xs ++ ys) k = lookupA ys k := by
  induction xs with
  | nil => rfl
  | cons p xs ih =>
    rw [List.cons_append, lookupA_cons]
    rw [lookupA_cons] at h
    by_cases hp : p.1 = k
    · simp [hp] at h
    · rw [if_neg hp]
      exact ih (by simpa [hp] using h)

theorem lookupA_filter_of_none {α : Type} (hs : List (Str × α)) {k : Str}
    (hk : lookupA hs k = none) (ohs : List (Str × α)) :
    lookupA (ohs.filter (fun q => (lookupA hs q.1).isNone)) k = lookupA ohs k := by
  induction ohs with
  | nil => rfl
  | cons q ohs ih =>
    by_cases h : q.1 = k
    · simp [List.filter_cons, h, hk, lookupA_cons]
    · by_cases hq : (lookupA hs q.1).isNone = true
      · simp [List.filter_cons, h, hq, lookupA_cons, ih]
      · simp [List.filter_cons, h, hq, lookupA_cons, ih]

theorem lookupField_none (k : Str) : lookupField none k = none := rfl

theorem lookupField_some (a : AttributeDefinition) (k : Str) :
    lookupField (some a) k = lookupA (toObject a.type) k := rfl

theorem type_mk (t : DataType) (nz : List Str) : (AttributeDefinition.mk t nz).type = t := rfl

theorem toObject_object (f : List (Str × AttributeDefinition)) :
    toObject (DataType.object f) = f := rfl

theorem mergeHeaders_empty (rh : Option AttributeDefinition) (oh : AttributeDefinition)
    (he : (toObject oh.type).isEmpty = true) : mergeHeaders rh (some oh) = rh := by
  simp [mergeHeaders, he]

theorem mergeHeaders_cons (rh : Option AttributeDefinition) (oh : AttributeDefinition)
    (he : (toObject oh.type).isEmpty = false) :
    mergeHeaders rh (some oh) =
      some (AttributeDefinition.mk
        (.object (toObject (rh.getD (AttributeDefinition.mk (.object []) [])).type ++
          (toObject oh.type).filter
            (fun q =>
              (lookupA (toObject (rh.getD (AttributeDefinition.mk (.object []) [])).type)
                q.1).isNone)))
        (rh.getD (AttributeDefinition.mk (.object []) [])).nonZeroAttributes) := by
  cases rh <;> simp [mergeHeaders, he]

theorem mergeHeaders_preserves {rh ohOpt : Option AttributeDefinition} {k : Str}
    {v : AttributeDefinition} (hv : lookupField rh k = some v) :
    lookupField (mergeHeaders rh ohOpt) k = some v := by
  match ohOpt with
  | none => exact hv
  | some oh =>
    cases he : (toObject oh.type).isEmpty with
    | true => rw [mergeHeaders_empty rh oh he]; exact hv
    | false =>
      rw [mergeHeaders_cons rh oh he, lookupField_some, type_mk, toObject_object]
      match rh, hv with
      | none, hv => simp [lookupField] at hv
      | some h, hv =>
        rw [lookupField_some] at hv
        rw [Option.getD_some]
        exact lookupA_append_some _ hv

theorem mergeHeaders_adds {rh ohOpt : Option AttributeDefinition} {k : Str}
    {v : AttributeDefinition} (hn : lookupField rh k = none)
    (hv : lookupField ohOpt k = some v) :
    lookupField (mergeHeaders rh ohOpt) k = some v := by
  match ohOpt with
  | none => simp [lookupField] at hv
  | some oh =>
    rw [lookupField_some] at hv
    cases he : (toObject oh.type).isEmpty with
    | true =>
      rw [List.isEmpty_iff] at he
      rw [he] at hv
      simp [lookupA] at hv
    | false =>
      rw [mergeHeaders_cons rh oh he, lookupField_some, type_mk, toObject_object]
      match rh, hn with
      | none, _ =>
        rw [Option.getD_none, type_mk, toObject_object, List.nil_append]
        rw [lookupA_filter_of_none _ (by rfl)]
        exact hv
      | some h, hn =>
        rw [lookupField_some] at hn
        rw [Option.getD_some]
        rw [lookupA_append_none _ hn, lookupA_filter_of_none _ hn]
        exact hv

/-- C3: `Merge(other)` sets each of `Name`, `Status`, `Description` and
`MediaType` from `other` only when the receiver's field is unset (empty
string, or `0` for `Status`), never overwriting a set field; header keys of
`other` absent from the receiver are added while keys already present are left
untouched; merging with an all-empty `other` leaves the receiver unchanged. -/
theorem c3_responseMerge_spec (r o : ResponseDefinition) (_hr : isObjAttr r.Headers = true) :
    ((r.Name ≠ [] → (r.Merge (some o)).Name = r.Name) ∧
      (r.Name = [] → (r.Merge (some o)).Name = o.Name) ∧
      (r.Status ≠ 0 → (r.Merge (some o)).Status = r.Status) ∧
      (r.Status = 0 → (r.Merge (some o)).Status = o.Status) ∧
      (r.Description ≠ [] → (r.Merge (some o)).Description = r.Description) ∧
      (r.Description = [] → (r.Merge (some o)).Description = o.Description) ∧
      (r.MediaType ≠ [] → (r.Merge (some o)).MediaType = r.MediaType) ∧
      (r.MediaType = [] → (r.Merge (some o)).MediaType = o.MediaType) ∧
      (∀ k v, lookupField r.Headers k = some v →
        lookupField (r.Merge (some o)).Headers k = some v) ∧
      (∀ k v, lookupField r.Headers k = none → lookupField o.Headers k = some v →
        lookupField (r.Merge (some o)).Headers k = some v)) ∧
    r.Merge (some emptyResponse) = r := by
  constructor
  · refine ⟨fun h => ?_, fun h => ?_, fun h => ?_, fun h => ?_, fun h => ?_, fun h => ?_,
      fun h => ?_, fun h => ?_, fun k v hv => ?_, fun k v hn hv => ?_⟩
    · simp [ResponseDefinition.Merge, h]
    · simp [ResponseDefinition.Merge, h]
    · simp [ResponseDefinition.Merge, h]
    · simp [ResponseDefinition.Merge, h]
    · simp [ResponseDefinition.Merge, h]
    · simp [ResponseDefinition.Merge, h]
    · simp [ResponseDefinition.Merge, h]
    · simp [ResponseDefinition.Merge, h]
    · exact mergeHeaders_preserves hv
    · exact mergeHeaders_adds hn hv
  · cases r with
    | mk n s dsc mt h std gl =>
      simp only [ResponseDefinition.Merge, emptyResponse, mergeHeaders]
      congr 1 <;> first
        | rfl
        | (split <;> simp_all)

/-- Witness for C3 at a concrete input (the spec's own scenario): a resource
response `{Name: "OK", Status: 0}` merged with `{Name: "OK", Status: 200}`
takes `Status` 200 and keeps its `Name`. -/
theorem c3_witness :
    (ResponseDefinition.Merge ⟨strOf "OK", 0, [], [], none, false, false⟩
        (some ⟨strOf "OK", 200, [], [], none, false, true⟩)).Status = 200 ∧
    (ResponseDefinition.Merge ⟨strOf "OK", 0, [], [], none, false, false⟩
        (some ⟨strOf "OK", 200, [], [], none, false, true⟩)).Name = strOf "OK" := by
  have h := c3_responseMerge_spec ⟨strOf "OK", 0, [], [], none, false, false⟩
    ⟨strOf "OK", 200, [], [], none, false, true⟩ (by decide)
  exact ⟨h.1.2.2.2.1 rfl, h.1.1 (by decide)⟩

/-- C9: merging with a `nil` response is tolerated and returns immediately,
modifying nothing. -/
theorem c9_merge_nil_noop (r : ResponseDefinition) : r.Merge none = r := rfl

example : cleanPath (strOf "//a//b/./x/../c") = strOf "/a/b/c" := by decide
example : cleanPath (strOf "") = strOf "/" := by decide
example : goJoin [strOf "", strOf "/children"] = strOf "/children" := by decide
example : goJoin [strOf "/:tenant", strOf "/foo"] = strOf "/:tenant/foo" := by decide

/-- C10: `ExtractWildcards` returns exactly the maximal runs of ASCII letters,
digits and underscores that immediately follow `"/:"` or `"/*"`, in
left-to-right order of appearance; any other character terminates a wildcard
name, and a `':'` or `'*'` not immediately preceded by `'/'` introduces no
wildcard (`wildcardSpec` states that description position by position). -/
theorem c10_extractWildcards_spec (s : Str) : ExtractWildcards s = wildcardSpec s :=
  exFind_eq_wildcardSpec s.length s (Nat.le_refl _)

theorem sortedKeys_sorted {α : Type} (m : List (Str × α)) :
    (sortedKeys m).Pairwise (fun a b : Str => a ≤ b) :=
  List.sorted_insertionSort (fun a b : Str => a ≤ b) (m.map Prod.fst)

theorem sortedKeys_perm {α : Type} (m : List (Str × α)) :
    (sortedKeys m).Perm (m.map Prod.fst) :=
  List.perm_insertionSort (fun a b : Str => a ≤ b) (m.map Prod.fst)

theorem seqVisit_all_ok {ε α : Type} (it : α → Except ε Unit) :
    ∀ (l : List α), (∀ y ∈ l, it y = .ok ()) → seqVisit it l = .ok ()
  | [], _ => rfl
  | x :: xs, h => by
    have hx := h x (List.mem_cons_self x xs)
    simp only [seqVisit, hx]
    exact seqVisit_all_ok it xs (fun y hy => h y (List.mem_cons_of_mem x hy))

theorem seqVisit_first_error {ε α : Type} (it : α → Except ε Unit) (e : ε) :
    ∀ (l1 : List α) (x : α) (l2 : List α), (∀ y ∈ l1, it y = .ok ()) →
      it x = .error e → seqVisit it (l1 ++ x :: l2) = .error e
  | [], x, l2, _, hx => by simp only [List.nil_append, seqVisit, hx]
  | y :: l1, x, l2, h, hx => by
    have hy := h y (List.mem_cons_self y l1)
    simp only [List.cons_append, seqVisit, hy]
    exact seqVisit_first_error it e l1 x l2 (fun z hz => h z (List.mem_cons_of_mem y hz)) hx

theorem lookupA_ne_head {α : Type} (k k' : Str) (v : α) (m : List (Str × α)) (h : k' ≠ k) :
    lookupA ((k, v) :: m) k' = lookupA m k' := by
  rw [lookupA_cons]
  exact if_neg (fun hk => h hk.symm)

theorem keys_filterMap_lookup {α : Type} (m : List (Str × α)) :
    (m.map Prod.fst).Nodup → (m.map Prod.fst).filterMap (lookupA m) = m.map Prod.snd := by
  induction m with
  | nil => intro _; rfl
  | cons p m ih =>
    intro h
    obtain ⟨k, v⟩ := p
    rw [List.map_cons, List.nodup_cons] at h
    obtain ⟨hk, hnd⟩ := h
    have hhead : lookupA ((k, v) :: m) k = some v := by
      rw [lookupA_cons]
      exact if_pos rfl
    have htail : (m.map Prod.fst).filterMap (lookupA ((k, v) :: m)) =
        (m.map Prod.fst).filterMap (lookupA m) := by
      apply List.filterMap_congr
      intro k' hk'
      apply lookupA_ne_head
      intro hkk
      subst hkk
      exact hk hk'
    simp only [List.map_cons, List.filterMap_cons, hhead, htail, ih hnd]

theorem visitList_perm_values {α : Type} (m : List (Str × α))
    (h : (m.map Prod.fst).Nodup) : (visitList m).Perm (m.map Prod.snd) := by
  have h1 : (visitList m).Perm ((m.map Prod.fst).filterMap (lookupA m)) :=
    (sortedKeys_perm m).filterMap (lookupA m)
  rw [keys_filterMap_lookup m h] at h1
  exact h1

/-- C6: every enumeration operation — `IterateResources`, `IterateMediaTypes`,
`IterateUserTypes`, `IterateActions`, `IterateResponses`, `IterateVersions` —
visits entries in lexicographically sorted key order (the visited list is the
map resolved along its sorted keys; under the map invariant of distinct keys
it is a permutation of the map's entries), stops at the first error a visitor
returns and propagates it unchanged, returns `ok` when no visitor errs, and
version iteration visits the default (unversioned) scope first, before any
named version. -/
theorem c6_iteration_spec :
    (∀ (α : Type) (m : List (Str × α)),
      (sortedKeys m).Pairwise (fun a b : Str => a ≤ b) ∧
      (sortedKeys m).Perm (m.map Prod.fst) ∧
      visitList m = (sortedKeys m).filterMap (lookupA m) ∧
      ((m.map Prod.fst).Nodup → (visitList m).Perm (m.map Prod.snd))) ∧
    (∀ (ε α : Type) (it : α → Except ε Unit) (l1 : List α) (x : α) (l2 : List α) (e : ε),
      (∀ y ∈ l1, it y = .ok ()) → it x = .error e →
        seqVisit it (l1 ++ x :: l2) = .error e) ∧
    (∀ (ε α : Type) (it : α → Except ε Unit) (l : List α),
      (∀ y ∈ l, it y = .ok ()) → seqVisit it l = .ok ()) ∧
    (∀ (ε : Type) (d : APIDefinition) (it : ResourceDefinition → Except ε Unit),
      IterateResources d it = seqVisit it (visitList d.Resources)) ∧
    (∀ (ε : Type) (d : APIDefinition) (it : MediaTypeDefinition → Except ε Unit),
      IterateMediaTypes d it = seqVisit it (visitList d.MediaTypes)) ∧
    (∀ (ε : Type) (d : APIDefinition) (it : UserTypeDefinition → Except ε Unit),
      IterateUserTypes d it = seqVisit it (visitList d.Types)) ∧
    (∀ (ε : Type) (r : ResourceDefinition) (it : ActionDefinition → Except ε Unit),
      IterateActions r it = seqVisit it (visitList r.Actions)) ∧
    (∀ (ε : Type) (v : APIVersionDefinition) (it : ResponseDefinition → Except ε Unit),
      IterateResponses v it = seqVisit it (visitList v.Responses)) ∧
    (∀ (ε : Type) (d : APIDefinition) (it : APIVersionDefinition → Except ε Unit),
      IterateVersions d it = seqVisit it (iterVersionDefs d) ∧
      (∀ e, it d.apiVersionDefinition = .error e → IterateVersions d it = .error e)) := by
  refine ⟨fun α m => ⟨sortedKeys_sorted m, sortedKeys_perm m, rfl,
      visitList_perm_values m⟩,
    fun ε α it l1 x l2 e h hx => seqVisit_first_error it e l1 x l2 h hx,
    fun ε α it l h => seqVisit_all_ok it l h,
    fun ε d it => rfl, fun ε d it => rfl, fun ε d it => rfl, fun ε r it => rfl,
    fun ε v it => rfl, fun ε d it => ⟨rfl, fun e he => ?_⟩⟩
  simp only [IterateVersions, he]

theorem foldl_append_eq {α β : Type} (f : β → List α) :
    ∀ (l : List β) (init : List α),
      l.foldl (fun acc b => acc ++ f b) init = init ++ (l.map f).flatten := by
  intro l
  induction l with
  | nil => simp
  | cons b l ih =>
    intro init
    rw [List.foldl_cons, ih]
    simp [List.append_assoc]

theorem allPathNames_eq (d : APIDefinition) (fuel : Nat) (res : ResourceDefinition)
    (routes : List RouteDefinition) :
    allPathNames d fuel res routes =
      ((iterVersionDefs d).map (fun ver =>
        (routes.map
          (fun r => ExtractWildcards (routeFullPath d fuel (some res) r ver))).flatten)).flatten := by
  unfold allPathNames
  have hstep : (fun (acc : List Str) (ver : APIVersionDefinition) =>
      routes.foldl
        (fun acc r => acc ++ ExtractWildcards (routeFullPath d fuel (some res) r ver)) acc) =
      fun acc ver => acc ++
        (routes.map (fun r => ExtractWildcards (routeFullPath d fuel (some res) r ver))).flatten := by
    funext acc ver
    exact foldl_append_eq _ routes acc
  rw [hstep, foldl_append_eq]
  simp

theorem mem_allPathNames (d : APIDefinition) (fuel : Nat) (res : ResourceDefinition)
    (routes : List RouteDefinition) (n : Str) :
    n ∈ allPathNames d fuel res routes ↔
      ∃ ver ∈ iterVersionDefs d, ∃ r ∈ routes,
        n ∈ ExtractWildcards (routeFullPath d fuel (some res) r ver) := by
  rw [allPathNames_eq]
  simp [List.mem_flatten]

theorem mem_actionPathNames (d : APIDefinition) (fuel : Nat) (res : ResourceDefinition)
    (a : ActionDefinition) (ver : APIVersionDefinition) (n : Str) :
    n ∈ actionPathNames d fuel res a ver ↔
      ∃ r ∈ a.Routes, n ∈ ExtractWildcards (routeFullPath d fuel (some res) r ver) := by
  unfold actionPathNames
  simp [List.mem_flatten]

theorem lookupA_isSome_iff_mem {α : Type} (m : List (Str × α)) (k : Str) :
    (lookupA m k).isSome = true ↔ k ∈ m.map Prod.fst := by
  induction m with
  | nil => simp [lookupA]
  | cons p m ih =>
    rw [lookupA_cons, List.map_cons]
    by_cases h : p.1 = k
    · rw [if_pos h]
      exact iff_of_true rfl (List.mem_cons.mpr (Or.inl h.symm))
    · rw [if_neg h, ih]
      constructor
      · exact fun hm => List.mem_cons.mpr (Or.inr hm)
      · intro hm
        rcases List.mem_cons.mp hm with he | hm
        · exact absurd he.symm h
        · exact hm

theorem lookupA_eq_none_iff {α : Type} (m : List (Str × α)) (k : Str) :
    lookupA m k = none ↔ k ∉ m.map Prod.fst := by
  rw [← lookupA_isSome_iff_mem]
  cases lookupA m k <;> simp

theorem attrNames_addWildcard (p : Option AttributeDefinition) (wc n : Str) :
    n ∈ attrNames (some (addWildcard p wc)) ↔ n ∈ attrNames p ∨ n = wc := by
  match p with
  | none =>
    show n ∈ [(wc, attrString)].map Prod.fst ↔ n ∈ ([] : List Str) ∨ n = wc
    rw [List.map_cons, List.map_nil]
    constructor
    · intro h
      exact Or.inr (List.mem_singleton.mp h)
    · rintro (h | h)
      · exact absurd h (List.not_mem_nil n)
      · exact List.mem_singleton.mpr h
  | some a =>
    by_cases hfound : (lookupA (toObject a.type) wc).isSome = true
    · have hmem : wc ∈ (toObject a.type).map Prod.fst :=
        (lookupA_isSome_iff_mem _ _).mp hfound
      have heq : addWildcard (some a) wc = a := by
        simp [addWildcard, hfound]
      rw [heq]
      constructor
      · exact fun h => Or.inl h
      · rintro (h | h)
        · exact h
        · rw [h]
          exact hmem
    · have heq : addWildcard (some a) wc =
          AttributeDefinition.mk (.object (toObject a.type ++ [(wc, attrString)]))
            a.nonZeroAttributes := by
        simp [addWildcard, hfound]
      rw [heq]
      show n ∈ (toObject a.type ++ [(wc, attrString)]).map Prod.fst ↔
        n ∈ (toObject a.type).map Prod.fst ∨ n = wc
      rw [List.map_append, List.mem_append]
      apply or_congr Iff.rfl
      show n ∈ [wc] ↔ n = wc
      exact List.mem_singleton

theorem attrNames_foldl_step {β : Type}
    (step : Option AttributeDefinition → β → Option AttributeDefinition)
    (f : β → List Str)
    (hstep : ∀ p b n, n ∈ attrNames (step p b) ↔ n ∈ attrNames p ∨ n ∈ f b) :
    ∀ (l : List β) (p : Option AttributeDefinition) (n : Str),
      n ∈ attrNames (l.foldl step p) ↔ n ∈ attrNames p ∨ ∃ b ∈ l, n ∈ f b := by
  intro l
  induction l with
  | nil => simp
  | cons b l ih =>
    intro p n
    rw [List.foldl_cons, ih, hstep]
    simp only [List.mem_cons, exists_eq_or_imp]
    tauto

theorem attrNames_implicitParams (d : APIDefinition) (fuel : Nat) (res : ResourceDefinition)
    (a : ActionDefinition) (n : Str) :
    n ∈ attrNames (implicitParams d fuel res a) ↔
      n ∈ attrNames a.Params ∨
      ∃ r ∈ a.Routes, ∃ ver ∈ iterVersionDefs d,
        n ∈ ExtractWildcards (routeFullPath d fuel (some res) r ver) := by
  have h1 : ∀ (wcs : List Str) (p : Option AttributeDefinition) (n : Str),
      n ∈ attrNames (wcs.foldl (fun p wc => some (addWildcard p wc)) p) ↔
      n ∈ attrNames p ∨ n ∈ wcs := by
    intro wcs p n
    rw [attrNames_foldl_step (fun p wc => some (addWildcard p wc)) (fun wc => [wc])
      (fun p wc n => by rw [attrNames_addWildcard, List.mem_singleton]) wcs p n]
    simp
  have h2 : ∀ (r : RouteDefinition) (p : Option AttributeDefinition) (n : Str),
      n ∈ attrNames ((iterVersionDefs d).foldl
        (fun p ver => (ExtractWildcards (routeFullPath d fuel (some res) r ver)).foldl
          (fun p wc => some (addWildcard p wc)) p) p) ↔
      n ∈ attrNames p ∨ ∃ ver ∈ iterVersionDefs d,
        n ∈ ExtractWildcards (routeFullPath d fuel (some res) r ver) := by
    intro r
    exact attrNames_foldl_step
      (fun p ver => (ExtractWildcards (routeFullPath d fuel (some res) r ver)).foldl
        (fun p wc => some (addWildcard p wc)) p)
      (fun ver => ExtractWildcards (routeFullPath d fuel (some res) r ver))
      (fun p ver n => h1 _ p n) (iterVersionDefs d)
  have h3 := attrNames_foldl_step
    (fun p r => (iterVersionDefs d).foldl
      (fun p ver => (ExtractWildcards (routeFullPath d fuel (some res) r ver)).foldl
        (fun p wc => some (addWildcard p wc)) p) p)
    (fun r => ((iterVersionDefs d).map
      (fun ver => ExtractWildcards (routeFullPath d fuel (some res) r ver))).flatten)
    (fun p r n => by rw [h2 r p n]; simp [List.mem_flatten])
    a.Routes a.Params n
  rw [implicitParams, h3]
  simp [List.mem_flatten]

theorem lookupField_addWildcard_pres (p : Option AttributeDefinition) (wc n : Str)
    (v : AttributeDefinition) (h : lookupField p n = some v) :
    lookupField (some (addWildcard p wc)) n = some v := by
  match p with
  | none => simp [lookupField] at h
  | some a =>
    by_cases hfound : (lookupA (toObject a.type) wc).isSome = true
    · have heq : addWildcard (some a) wc = a := by
        simp [addWildcard, hfound]
      rw [heq]
      exact h
    · have heq : addWildcard (some a) wc =
          AttributeDefinition.mk (.object (toObject a.type ++ [(wc, attrString)]))
            a.nonZeroAttributes := by
        simp [addWildcard, hfound]
      rw [heq, lookupField_some, type_mk, toObject_object]
      rw [lookupField_some] at h
      exact lookupA_append_some _ h

theorem lookupField_addWildcard_new (p : Option AttributeDefinition) (wc : Str)
    (h : lookupField p wc = none) :
    lookupField (some (addWildcard p wc)) wc = some attrString := by
  match p with
  | none =>
    show lookupA [(wc, attrString)] wc = some attrString
    rw [lookupA_cons]
    exact if_pos rfl
  | some a =>
    rw [lookupField_some] at h
    have hfound : ¬ (lookupA (toObject a.type) wc).isSome = true := by
      rw [h]
      exact Bool.false_ne_true
    have heq : addWildcard (some a) wc =
        AttributeDefinition.mk (.object (toObject a.type ++ [(wc, attrString)]))
          a.nonZeroAttributes := by
      simp [addWildcard, hfound]
    rw [heq, lookupField_some, type_mk, toObject_object]
    rw [lookupA_append_none _ h, lookupA_cons]
    exact if_pos rfl

theorem lookupField_addWildcard_none (p : Option AttributeDefinition) (wc n : Str)
    (hne : n ≠ wc) (h : lookupField p n = none) :
    lookupField (some (addWildcard p wc)) n = none := by
  match p with
  | none =>
    show lookupA [(wc, attrString)] n = none
    rw [lookupA_cons, if_neg (fun he => hne he.symm)]
    rfl
  | some a =>
    by_cases hfound : (lookupA (toObject a.type) wc).isSome = true
    · have heq : addWildcard (some a) wc = a := by
        simp [addWildcard, hfound]
      rw [heq]
      exact h
    · have heq : addWildcard (some a) wc =
          AttributeDefinition.mk (.object (toObject a.type ++ [(wc, attrString)]))
            a.nonZeroAttributes := by
        simp [addWildcard, hfound]
      rw [lookupField_some] at h
      rw [heq, lookupField_some, type_mk, toObject_object]
      rw [lookupA_append_none _ h, lookupA_cons, if_neg (fun he => hne he.symm)]
      rfl

theorem lookupField_foldl_pres {β : Type}
    (step : Option AttributeDefinition → β → Option AttributeDefinition)
    (hpres : ∀ p b n v, lookupField p n = some v → lookupField (step p b) n = some v) :
    ∀ (l : List β) (p : Option AttributeDefinition) (n : Str) (v : AttributeDefinition),
      lookupField p n = some v → lookupField (l.foldl step p) n = some v := by
  intro l
  induction l with
  | nil => exact fun p n v h => h
  | cons b l ih => exact fun p n v h => ih _ _ _ (hpres p b n v h)

theorem lookupField_foldl_new {β : Type}
    (step : Option AttributeDefinition → β → Option AttributeDefinition) (f : β → List Str)
    (hpres : ∀ p b n v, lookupField p n = some v → lookupField (step p b) n = some v)
    (hnew : ∀ p b n, n ∈ f b → lookupField p n = none →
      lookupField (step p b) n = some attrString)
    (hnone : ∀ p b n, n ∉ f b → lookupField p n = none → lookupField (step p b) n = none) :
    ∀ (l : List β) (p : Option AttributeDefinition) (n : Str),
      (∃ b ∈ l, n ∈ f b) → lookupField p n = none →
        lookupField (l.foldl step p) n = some attrString := by
  intro l
  induction l with
  | nil =>
    rintro p n ⟨b, hb, _⟩ _
    exact absurd hb (List.not_mem_nil b)
  | cons b l ih =>
    rintro p n ⟨b2, hb2, hnb⟩ hn
    rw [List.foldl_cons]
    by_cases hmem : n ∈ f b
    · exact lookupField_foldl_pres step hpres l _ n _ (hnew p b n hmem hn)
    · rcases List.mem_cons.mp hb2 with he | hb2
      · subst he
        exact absurd hnb hmem
      · exact ih _ n ⟨b2, hb2, hnb⟩ (hnone p b n hmem hn)

theorem lookupField_foldl_none {β : Type}
    (step : Option AttributeDefinition → β → Option AttributeDefinition) (f : β → List Str)
    (hnone : ∀ p b n, n ∉ f b → lookupField p n = none → lookupField (step p b) n = none) :
    ∀ (l : List β) (p : Option AttributeDefinition) (n : Str),
      (∀ b ∈ l, n ∉ f b) → lookupField p n = none →
        lookupField (l.foldl step p) n = none := by
  intro l
  induction l with
  | nil => exact fun p n _ h => h
  | cons b l ih =>
    intro p n hall h
    rw [List.foldl_cons]
    exact ih _ n (fun b2 hb2 => hall b2 (List.mem_cons_of_mem b hb2))
      (hnone p b n (hall b (List.mem_cons_self b l)) h)

theorem foldl_step_isSome {β : Type}
    (step : Option AttributeDefinition → β → Option AttributeDefinition)
    (hmono : ∀ p b, p.isSome = true → (step p b).isSome = true) :
    ∀ (l : List β) (p : Option AttributeDefinition),
      p.isSome = true → (l.foldl step p).isSome = true := by
  intro l
  induction l with
  | nil => exact fun p h => h
  | cons b l ih => exact fun p h => ih _ (hmono p b h)

theorem foldl_step_isSome_mem {β : Type}
    (step : Option AttributeDefinition → β → Option AttributeDefinition)
    (hmono : ∀ p b, p.isSome = true → (step p b).isSome = true) (b0 : β)
    (hforce : ∀ p, (step p b0).isSome = true) :
    ∀ (l : List β) (p : Option AttributeDefinition),
      b0 ∈ l → (l.foldl step p).isSome = true := by
  intro l
  induction l with
  | nil =>
    intro p h
    exact absurd h (List.not_mem_nil b0)
  | cons b l ih =>
    intro p h
    rw [List.foldl_cons]
    rcases List.mem_cons.mp h with he | hmem
    · subst he
      exact foldl_step_isSome step hmono l _ (hforce p)
    · exact ih _ hmem

theorem implicitParams_isSome_of_params (d : APIDefinition) (fuel : Nat)
    (res : ResourceDefinition) (a : ActionDefinition) (h : (a.Params).isSome = true) :
    (implicitParams d fuel res a).isSome = true := by
  have mono1 : ∀ (p : Option AttributeDefinition) (wc : Str),
      p.isSome = true → (some (addWildcard p wc)).isSome = true := fun _ _ _ => rfl
  have mono2 : ∀ (r : RouteDefinition) (p : Option AttributeDefinition)
      (ver : APIVersionDefinition), p.isSome = true →
      ((ExtractWildcards (routeFullPath d fuel (some res) r ver)).foldl
        (fun p wc => some (addWildcard p wc)) p).isSome = true :=
    fun r p ver hp => foldl_step_isSome _ mono1 _ p hp
  have mono3 : ∀ (p : Option AttributeDefinition) (r : RouteDefinition), p.isSome = true →
      ((iterVersionDefs d).foldl
        (fun p ver => (ExtractWildcards (routeFullPath d fuel (some res) r ver)).foldl
          (fun p wc => some (addWildcard p wc)) p) p).isSome = true :=
    fun p r hp => foldl_step_isSome _ (fun p ver => mono2 r p ver) _ p hp
  exact foldl_step_isSome _ mono3 a.Routes a.Params h

theorem implicitParams_isSome_of_wc (d : APIDefinition) (fuel : Nat)
    (res : ResourceDefinition) (a : ActionDefinition) (r : RouteDefinition)
    (ver : APIVersionDefinition) (hr : r ∈ a.Routes) (hver : ver ∈ iterVersionDefs d)
    (hne : ExtractWildcards (routeFullPath d fuel (some res) r ver) ≠ []) :
    (implicitParams d fuel res a).isSome = true := by
  have mono1 : ∀ (p : Option AttributeDefinition) (wc : Str),
      p.isSome = true → (some (addWildcard p wc)).isSome = true := fun _ _ _ => rfl
  have mono2 : ∀ (r2 : RouteDefinition) (p : Option AttributeDefinition)
      (ver2 : APIVersionDefinition), p.isSome = true →
      ((ExtractWildcards (routeFullPath d fuel (some res) r2 ver2)).foldl
        (fun p wc => some (addWildcard p wc)) p).isSome = true :=
    fun r2 p ver2 hp => foldl_step_isSome _ mono1 _ p hp
  have force1 : ∀ (p : Option AttributeDefinition),
      ((ExtractWildcards (routeFullPath d fuel (some res) r ver)).foldl
        (fun p wc => some (addWildcard p wc)) p).isSome = true := by
    intro p
    match hw : ExtractWildcards (routeFullPath d fuel (some res) r ver) with
    | [] => exact absurd hw hne
    | wc :: wcs =>
      rw [List.foldl_cons]
      exact foldl_step_isSome _ mono1 wcs _ rfl
  have force2 : ∀ (p : Option AttributeDefinition),
      ((iterVersionDefs d).foldl
        (fun p ver2 => (ExtractWildcards (routeFullPath d fuel (some res) r ver2)).foldl
          (fun p wc => some (addWildcard p wc)) p) p).isSome = true :=
    fun p => foldl_step_isSome_mem _ (fun p ver2 => mono2 r p ver2) ver force1
      (iterVersionDefs d) p hver
  exact foldl_step_isSome_mem _
    (fun p r2 hp => foldl_step_isSome _ (fun p ver2 => mono2 r2 p ver2) _ p hp)
    r force2 a.Routes a.Params hr

theorem implicitParams_none_inv (d : APIDefinition) (fuel : Nat) (res : ResourceDefinition)
    (a : ActionDefinition) (h : implicitParams d fuel res a = none) :
    a.Params = none ∧ ∀ r ∈ a.Routes, ∀ ver ∈ iterVersionDefs d,
      ExtractWildcards (routeFullPath d fuel (some res) r ver) = [] := by
  constructor
  · cases hp : a.Params with
    | none => rfl
    | some p =>
      have hs := implicitParams_isSome_of_params d fuel res a (by rw [hp]; rfl)
      rw [h] at hs
      exact absurd hs Bool.false_ne_true
  · intro r hr ver hver
    by_contra hne
    have hs := implicitParams_isSome_of_wc d fuel res a r ver hr hver hne
    rw [h] at hs
    exact absurd hs Bool.false_ne_true

theorem lookupField_implicitParams_pres (d : APIDefinition) (fuel : Nat)
    (res : ResourceDefinition) (a : ActionDefinition) (n : Str) (v : AttributeDefinition)
    (h : lookupField a.Params n = some v) :
    lookupField (implicitParams d fuel res a) n = some v := by
  have pres1 : ∀ (p : Option AttributeDefinition) (wc : Str) (n : Str)
      (v : AttributeDefinition), lookupField p n = some v →
      lookupField (some (addWildcard p wc)) n = some v :=
    fun p wc n v h2 => lookupField_addWildcard_pres p wc n v h2
  have pres2 : ∀ (r : RouteDefinition) (p : Option AttributeDefinition)
      (ver : APIVersionDefinition) (n : Str) (v : AttributeDefinition),
      lookupField p n = some v →
      lookupField ((ExtractWildcards (routeFullPath d fuel (some res) r ver)).foldl
        (fun p wc => some (addWildcard p wc)) p) n = some v :=
    fun r p ver n v h2 => lookupField_foldl_pres _ pres1 _ p n v h2
  exact lookupField_foldl_pres _
    (fun p r n v h2 => lookupField_foldl_pres _ (fun p ver n v h3 => pres2 r p ver n v h3)
      _ p n v h2)
    a.Routes a.Params n v h

theorem lookupField_implicitParams_new (d : APIDefinition) (fuel : Nat)
    (res : ResourceDefinition) (a : ActionDefinition) (n : Str)
    (hex : ∃ r ∈ a.Routes, ∃ ver ∈ iterVersionDefs d,
      n ∈ ExtractWildcards (routeFullPath d fuel (some res) r ver))
    (hn : lookupField a.Params n = none) :
    lookupField (implicitParams d fuel res a) n = some attrString := by
  have pres1 : ∀ (p : Option AttributeDefinition) (wc : Str) (n : Str)
      (v : AttributeDefinition), lookupField p n = some v →
      lookupField (some (addWildcard p wc)) n = some v :=
    fun p wc n v h2 => lookupField_addWildcard_pres p wc n v h2
  have new1 : ∀ (p : Option AttributeDefinition) (wc : Str) (n : Str), n ∈ [wc] →
      lookupField p n = none → lookupField (some (addWildcard p wc)) n = some attrString := by
    intro p wc n hmem h2
    rw [List.mem_singleton] at hmem
    subst hmem
    exact lookupField_addWildcard_new p n h2
  have none1 : ∀ (p : Option AttributeDefinition) (wc : Str) (n : Str), n ∉ [wc] →
      lookupField p n = none → lookupField (some (addWildcard p wc)) n = none := by
    intro p wc n hmem h2
    exact lookupField_addWildcard_none p wc n (fun he => hmem (List.mem_singleton.mpr he)) h2
  have pres2 : ∀ (r : RouteDefinition) (p : Option AttributeDefinition)
      (ver : APIVersionDefinition) (n : Str) (v : AttributeDefinition),
      lookupField p n = some v →
      lookupField ((ExtractWildcards (routeFullPath d fuel (some res) r ver)).foldl
        (fun p wc => some (addWildcard p wc)) p) n = some v :=
    fun r p ver n v h2 => lookupField_foldl_pres _ pres1 _ p n v h2
  have new2 : ∀ (r : RouteDefinition) (p : Option AttributeDefinition)
      (ver : APIVersionDefinition) (n : Str),
      n ∈ ExtractWildcards (routeFullPath d fuel (some res) r ver) →
      lookupField p n = none →
      lookupField ((ExtractWildcards (routeFullPath d fuel (some res) r ver)).foldl
        (fun p wc => some (addWildcard p wc)) p) n = some attrString := by
    intro r p ver n hmem h2
    exact lookupField_foldl_new _ (fun wc => [wc]) pres1 new1 none1 _ p n
      ⟨n, hmem, List.mem_singleton.mpr rfl⟩ h2
  have none2 : ∀ (r : RouteDefinition) (p : Option AttributeDefinition)
      (ver : APIVersionDefinition) (n : Str),
      n ∉ ExtractWildcards (routeFullPath d fuel (some res) r ver) →
      lookupField p n = none →
      lookupField ((ExtractWildcards (routeFullPath d fuel (some res) r ver)).foldl
        (fun p wc => some (addWildcard p wc)) p) n = none := by
    intro r p ver n hmem h2
    exact lookupField_foldl_none _ (fun wc => [wc]) none1 _ p n
      (fun wc hwc hcontra => hmem (List.mem_singleton.mp hcontra ▸ hwc)) h2
  obtain ⟨r, hr, ver, hver, hwc⟩ := hex
  exact lookupField_foldl_new
    (fun p r => (iterVersionDefs d).foldl
      (fun p ver => (ExtractWildcards (routeFullPath d fuel (some res) r ver)).foldl
        (fun p wc => some (addWildcard p wc)) p) p)
    (fun r => ((iterVersionDefs d).map
      (fun ver => ExtractWildcards (routeFullPath d fuel (some res) r ver))).flatten)
    (fun p r n v h2 => lookupField_foldl_pres _ (fun p ver n v h3 => pres2 r p ver n v h3)
      _ p n v h2)
    (fun p r n hmem h2 => by
      rw [List.mem_flatten] at hmem
      obtain ⟨l2, hl2, hnl⟩ := hmem
      rw [List.mem_map] at hl2
      obtain ⟨ver2, hver2, hleq⟩ := hl2
      subst hleq
      exact lookupField_foldl_new _
        (fun ver => ExtractWildcards (routeFullPath d fuel (some res) r ver))
        (fun p ver n v h3 => pres2 r p ver n v h3)
        (fun p ver n hm h3 => new2 r p ver n hm h3)
        (fun p ver n hm h3 => none2 r p ver n hm h3)
        _ p n ⟨ver2, hver2, hnl⟩ h2)
    (fun p r n hmem h2 => by
      apply lookupField_foldl_none _
        (fun ver => ExtractWildcards (routeFullPath d fuel (some res) r ver))
        (fun p ver n hm h3 => none2 r p ver n hm h3)
      · intro ver2 hver2 hcontra
        apply hmem
        rw [List.mem_flatten]
        exact ⟨_, List.mem_map.mpr ⟨ver2, hver2, rfl⟩, hcontra⟩
      · exact h2)
    a.Routes a.Params n
    ⟨r, hr, by
      rw [List.mem_flatten]
      exact ⟨_, List.mem_map.mpr ⟨ver, hver, rfl⟩, hwc⟩⟩
    hn

theorem strContains_iff_mem (l : List Str) (n : Str) : l.contains n = true ↔ n ∈ l := by
  rw [List.contains_eq_any_beq, List.any_eq_true]
  constructor
  · rintro ⟨x, hx, hbeq⟩
    rw [beq_iff_eq] at hbeq
    rw [hbeq]
    exact hx
  · intro h
    exact ⟨n, h, beq_iff_eq.mpr rfl⟩

theorem mem_filter_not_contains (l : List (Str × AttributeDefinition)) (pn : List Str)
    (n : Str) :
    n ∈ (l.filter (fun q => !pn.contains q.1)).map Prod.fst ↔
      n ∈ l.map Prod.fst ∧ n ∉ pn := by
  constructor
  · intro h
    rw [List.mem_map] at h
    obtain ⟨q, hq, hfst⟩ := h
    rw [List.mem_filter] at hq
    obtain ⟨hql, hqp⟩ := hq
    subst hfst
    refine ⟨List.mem_map.mpr ⟨q, hql, rfl⟩, fun hmem => ?_⟩
    rw [Bool.not_eq_eq_eq_not, Bool.not_true] at hqp
    rw [(strContains_iff_mem pn q.1).mpr hmem] at hqp
    exact absurd hqp (by decide)
  · rintro ⟨hmem, hnot⟩
    rw [List.mem_map] at hmem
    obtain ⟨q, hql, hfst⟩ := hmem
    subst hfst
    refine List.mem_map.mpr ⟨q, List.mem_filter.mpr ⟨hql, ?_⟩, rfl⟩
    rw [Bool.not_eq_eq_eq_not, Bool.not_true]
    cases hc : pn.contains q.1 with
    | false => rfl
    | true => exact absurd ((strContains_iff_mem pn q.1).mp hc) hnot

theorem finalizeAction_Routes (d : APIDefinition) (fuel : Nat) (res : ResourceDefinition)
    (a : ActionDefinition) : (finalizeAction d fuel res a).Routes = a.Routes := by
  unfold finalizeAction
  cases implicitParams d fuel res a <;> rfl

theorem finalizeAction_none_proj (d : APIDefinition) (fuel : Nat) (res : ResourceDefinition)
    (a : ActionDefinition) (h : implicitParams d fuel res a = none) :
    (finalizeAction d fuel res a).Params = a.Params ∧
    (finalizeAction d fuel res a).QueryParams = a.QueryParams := by
  simp only [finalizeAction, h]
  constructor <;> trivial

theorem finalizeAction_some_proj (d : APIDefinition) (fuel : Nat) (res : ResourceDefinition)
    (a : ActionDefinition) (ps : AttributeDefinition)
    (h : implicitParams d fuel res a = some ps) :
    (finalizeAction d fuel res a).Params =
      some (AttributeDefinition.mk ps.type (allPathNames d fuel res a.Routes)) ∧
    (finalizeAction d fuel res a).QueryParams =
      some (AttributeDefinition.mk
        (.object ((toObject ps.type).filter
          (fun q => !(allPathNames d fuel res a.Routes).contains q.1)))
        ps.nonZeroAttributes) := by
  simp only [finalizeAction, h, DupAtt]
  constructor <;> trivial

theorem attrNames_some (a : AttributeDefinition) :
    attrNames (some a) = (toObject a.type).map Prod.fst := rfl

theorem attrNames_mergeAttr_left (a : AttributeDefinition) (o : Option AttributeDefinition)
    (n : Str) (h : n ∈ (toObject a.type).map Prod.fst) :
    n ∈ (toObject (mergeAttr a o).type).map Prod.fst := by
  match o with
  | none => exact h
  | some ob =>
    show n ∈ (((toObject a.type).filter
      (fun q => (lookupA (toObject ob.type) q.1).isNone) ++ toObject ob.type).map Prod.fst)
    rw [List.map_append, List.mem_append]
    rw [List.mem_map] at h
    obtain ⟨q, hq, hfst⟩ := h
    subst hfst
    cases hopt : lookupA (toObject ob.type) q.1 with
    | some v =>
      right
      exact (lookupA_isSome_iff_mem _ _).mp (by rw [hopt]; rfl)
    | none =>
      left
      refine List.mem_map.mpr ⟨q, List.mem_filter.mpr ⟨hq, ?_⟩, rfl⟩
      rw [hopt]
      rfl

theorem allParamsCore_contains_paramNames (d : APIDefinition) (res : ResourceDefinition)
    (a : ActionDefinition) (pp : Option AttributeDefinition) (n : Str)
    (h : n ∈ paramNames a) :
    n ∈ (toObject (allParamsCore d res a pp).type).map Prod.fst := by
  match hp : a.Params with
  | none =>
    rw [paramNames, hp] at h
    exact absurd h (List.not_mem_nil n)
  | some p =>
    rw [paramNames, hp, attrNames_some] at h
    have hcore : allParamsCore d res a pp =
        if HasAbsoluteRoutes a = true then DupAtt p
        else mergeAttr (mergeAttr (mergeAttr (DupAtt p) res.BaseParams)
          d.apiVersionDefinition.BaseParams) pp := by
      simp [allParamsCore, hp]
    rw [hcore]
    by_cases habs : HasAbsoluteRoutes a = true
    · rw [if_pos habs]
      exact h
    · rw [if_neg habs]
      exact attrNames_mergeAttr_left _ _ n
        (attrNames_mergeAttr_left _ _ n (attrNames_mergeAttr_left _ _ n h))

theorem allParams_contains_paramNames (d : APIDefinition) (fuel : Nat)
    (res : ResourceDefinition) (a : ActionDefinition) (n : Str) (h : n ∈ paramNames a) :
    n ∈ (toObject (AllParams d fuel res a).type).map Prod.fst := by
  cases fuel with
  | zero => exact allParamsCore_contains_paramNames d res a none n h
  | succ fuel2 => exact allParamsCore_contains_paramNames d res a _ n h

/-- C1 (amended): after finalization — for an action whose `Params` are
well-formed (absent or object-typed; Go panics otherwise) and whose
`QueryParams` have not been set yet (only `Finalize` writes them) — for every
version scope the action's path-parameter names (wildcards of its routes'
full paths under that scope) are disjoint from its query-parameter names; and
the query-parameter names together with the path-parameter names taken across
*all* version scopes are exactly the action's parameter set.  The claim's
per-scope union equality fails (see `c1_counterexample`): `QueryParams`
excludes names that are path parameters under *any* scope, the edge case §4.5
of the spec itself documents. -/
theorem c1_partition_amended (d : APIDefinition) (fuel : Nat) (res : ResourceDefinition)
    (a : ActionDefinition) (_hwf : isObjAttr a.Params = true)
    (hq : a.QueryParams = none) :
    (∀ ver ∈ iterVersionDefs d, ∀ n : Str,
      n ∈ actionPathNames d fuel res (finalizeAction d fuel res a) ver →
        n ∉ queryParamNames (finalizeAction d fuel res a)) ∧
    (∀ n : Str, n ∈ paramNames (finalizeAction d fuel res a) ↔
      ((∃ ver ∈ iterVersionDefs d,
        n ∈ actionPathNames d fuel res (finalizeAction d fuel res a) ver) ∨
       n ∈ queryParamNames (finalizeAction d fuel res a))) := by
  have hroutes := finalizeAction_Routes d fuel res a
  have hpath : ∀ (ver : APIVersionDefinition) (n : Str),
      n ∈ actionPathNames d fuel res (finalizeAction d fuel res a) ver ↔
        ∃ r ∈ a.Routes, n ∈ ExtractWildcards (routeFullPath d fuel (some res) r ver) := by
    intro ver n
    rw [mem_actionPathNames, hroutes]
  cases himp : implicitParams d fuel res a with
  | none =>
    obtain ⟨hpnone, hall⟩ := implicitParams_none_inv d fuel res a himp
    obtain ⟨hfp, hfq⟩ := finalizeAction_none_proj d fuel res a himp
    have hnopath : ∀ ver ∈ iterVersionDefs d, ∀ n : Str,
        ¬ n ∈ actionPathNames d fuel res (finalizeAction d fuel res a) ver := by
      intro ver hver n hmem
      rw [hpath] at hmem
      obtain ⟨r, hr, hwc⟩ := hmem
      rw [hall r hr ver hver] at hwc
      exact absurd hwc (List.not_mem_nil n)
    constructor
    · intro ver hver n hmem
      exact absurd hmem (hnopath ver hver n)
    · intro n
      rw [paramNames, hfp, hpnone]
      constructor
      · intro hmem
        exact absurd hmem (List.not_mem_nil n)
      · rintro (⟨ver, hver, hmem⟩ | hmem)
        · exact absurd hmem (hnopath ver hver n)
        · rw [queryParamNames, hfq, hq] at hmem
          exact absurd hmem (List.not_mem_nil n)
  | some ps =>
    obtain ⟨hfp, hfq⟩ := finalizeAction_some_proj d fuel res a ps himp
    have hparam : ∀ n : Str, n ∈ paramNames (finalizeAction d fuel res a) ↔
        n ∈ (toObject ps.type).map Prod.fst := by
      intro n
      rw [paramNames, hfp, attrNames_some, type_mk]
    have hquery : ∀ n : Str, n ∈ queryParamNames (finalizeAction d fuel res a) ↔
        (n ∈ (toObject ps.type).map Prod.fst ∧ n ∉ allPathNames d fuel res a.Routes) := by
      intro n
      rw [queryParamNames, hfq, attrNames_some, type_mk, toObject_object]
      exact mem_filter_not_contains _ _ n
    have hnames : ∀ n : Str, n ∈ (toObject ps.type).map Prod.fst ↔
        (n ∈ attrNames a.Params ∨
          ∃ r ∈ a.Routes, ∃ ver ∈ iterVersionDefs d,
            n ∈ ExtractWildcards (routeFullPath d fuel (some res) r ver)) := by
      intro n
      rw [← attrNames_some, ← himp]
      exact attrNames_implicitParams d fuel res a n
    constructor
    · intro ver hver n hmem hqmem
      rw [hpath] at hmem
      obtain ⟨r, hr, hwc⟩ := hmem
      have hpn : n ∈ allPathNames d fuel res a.Routes :=
        (mem_allPathNames d fuel res a.Routes n).mpr ⟨ver, hver, r, hr, hwc⟩
      exact absurd hpn ((hquery n).mp hqmem).2
    · intro n
      rw [hparam n]
      constructor
      · intro hmem
        by_cases hpn : n ∈ allPathNames d fuel res a.Routes
        · obtain ⟨ver, hver, r, hr, hwc⟩ := (mem_allPathNames d fuel res a.Routes n).mp hpn
          exact Or.inl ⟨ver, hver, (hpath ver n).mpr ⟨r, hr, hwc⟩⟩
        · exact Or.inr ((hquery n).mpr ⟨hmem, hpn⟩)
      · rintro (⟨ver, hver, hmem⟩ | hmem)
        · rw [hpath] at hmem
          obtain ⟨r, hr, hwc⟩ := hmem
          exact (hnames n).mpr (Or.inr ⟨r, hr, ver, hver, hwc⟩)
        · exact ((hquery n).mp hmem).1

/-- C1 counterexample: in `c1Design` the scope list is `[verTenant, verV1]`;
after finalization `"tenant"` is a declared parameter of the action, yet under
the `verV1` scope it is neither a path-parameter name nor a query-parameter
name — the per-scope partition claimed by C1 fails at `verV1`. -/
theorem c1_counterexample :
    iterVersionDefs c1Design = [verTenant, verV1] ∧
    strOf "tenant" ∈ paramNames (finalizeAction c1Design 1 fooRes fooAction) ∧
    strOf "tenant" ∉
      actionPathNames c1Design 1 fooRes (finalizeAction c1Design 1 fooRes fooAction) verV1 ∧
    strOf "tenant" ∉ queryParamNames (finalizeAction c1Design 1 fooRes fooAction) :=
  ⟨rfl, by decide, by decide, by decide⟩

/-- Witness for C1 (amended) at a concrete input: in `c1Design`, under the
default scope, the wildcard `"tenant"` is a path parameter and hence not a
query parameter. -/
theorem c1_witness :
    strOf "tenant" ∉ queryParamNames (finalizeAction c1Design 1 fooRes fooAction) :=
  (c1_partition_amended c1Design 1 fooRes fooAction (by decide) rfl).1 verTenant
    (List.mem_cons_self _ _) (strOf "tenant") (by decide)

/-- C2: after finalization, every wildcard extracted from a route's full path
under any version scope is among the parameter names returned by
`AllParams()`; a wildcard the author did not declare appears in the finalized
`Params` as a parameter of type `String`. -/
theorem c2_wildcards_in_allParams (d : APIDefinition) (fuel fuel2 : Nat)
    (res : ResourceDefinition) (a : ActionDefinition)
    (_hwf : isObjAttr a.Params = true)
    (r : RouteDefinition) (hr : r ∈ a.Routes) (ver : APIVersionDefinition)
    (hver : ver ∈ iterVersionDefs d) (wc : Str)
    (hwc : wc ∈ ExtractWildcards (routeFullPath d fuel (some res) r ver)) :
    wc ∈ (toObject (AllParams d fuel2 res (finalizeAction d fuel res a)).type).map
      Prod.fst ∧
    (wc ∉ paramNames a →
      lookupField (finalizeAction d fuel res a).Params wc = some attrString) := by
  have hne : ExtractWildcards (routeFullPath d fuel (some res) r ver) ≠ [] := by
    intro hcontra
    rw [hcontra] at hwc
    exact absurd hwc (List.not_mem_nil wc)
  obtain ⟨ps, himp⟩ := Option.isSome_iff_exists.mp
    (implicitParams_isSome_of_wc d fuel res a r ver hr hver hne)
  obtain ⟨hfp, _⟩ := finalizeAction_some_proj d fuel res a ps himp
  have hmem : wc ∈ paramNames (finalizeAction d fuel res a) := by
    rw [paramNames, hfp, attrNames_some, type_mk, ← attrNames_some, ← himp]
    exact (attrNames_implicitParams d fuel res a wc).mpr
      (Or.inr ⟨r, hr, ver, hver, hwc⟩)
  refine ⟨allParams_contains_paramNames d fuel2 res _ wc hmem, fun hnot => ?_⟩
  have hn : lookupField a.Params wc = none := by
    match hp : a.Params with
    | none => rfl
    | some p =>
      rw [lookupField_some]
      rw [lookupA_eq_none_iff]
      intro hcontra
      apply hnot
      rw [paramNames, hp, attrNames_some]
      exact hcontra
  have hlook := lookupField_implicitParams_new d fuel res a wc
    ⟨r, hr, ver, hver, hwc⟩ hn
  rw [himp, lookupField_some] at hlook
  rw [hfp, lookupField_some, type_mk]
  exact hlook

/-- Witness for C2 at a concrete input: in `c1Design` the undeclared wildcard
`"tenant"` ends up in `AllParams()` and as a `String` parameter. -/
theorem c2_witness :
    strOf "tenant" ∈
      (toObject (AllParams c1Design 1 fooRes
        (finalizeAction c1Design 1 fooRes fooAction)).type).map Prod.fst ∧
    lookupField (finalizeAction c1Design 1 fooRes fooAction).Params (strOf "tenant") =
      some attrString := by
  have h := c2_wildcards_in_allParams c1Design 1 1 fooRes fooAction (by decide)
    ⟨strOf "GET", strOf "/foo"⟩ (by decide) verTenant (List.mem_cons_self _ _)
    (strOf "tenant") (by decide)
  exact ⟨h.1, h.2 (by decide)⟩

/-- Witness for C6 at concrete inputs: a visit stops at the first error and
returns it unchanged. -/
theorem c6_witness :
    seqVisit (fun n : Nat => if n = 2 then Except.error "boom" else Except.ok ())
      ([0, 1] ++ 2 :: [3]) = Except.error "boom" :=
  c6_iteration_spec.2.1 String Nat
    (fun n : Nat => if n = 2 then Except.error "boom" else Except.ok ()) [0, 1] 2 [3] "boom"
    (by intro y hy; fin_cases hy <;> rfl) rfl

example :
    sortedKeys [(strOf "zebra", 1), (strOf "apple", 2), (strOf "mango", 3)] =
      [strOf "apple", strOf "mango", strOf "zebra"] := by decide

/-- A successful `find?` splits the list into a prefix of non-matches, the
found element, and a suffix. -/
theorem find_first_decomp {α : Type} (p : α → Bool) (l : List α) (a : α)
    (h : l.find? p = some a) :
    p a = true ∧ ∃ pre post, l = pre ++ a :: post ∧ ∀ x ∈ pre, p x = false := by
  induction l with
  | nil => simp [List.find?] at h
  | cons b bs ih =>
    rw [List.find?] at h
    by_cases hb : p b = true
    · rw [hb] at h
      simp only [Option.some.injEq] at h
      subst h
      exact ⟨hb, [], bs, rfl, by simp⟩
    · rw [Bool.not_eq_true] at hb
      rw [hb] at h
      obtain ⟨hpa, pre, post, hsplit, hpre⟩ := ih h
      refine ⟨hpa, b :: pre, post, by rw [hsplit, List.cons_append], ?_⟩
      intro x hx
      rcases List.mem_cons.mp hx with he | hm
      · exact he ▸ hb
      · exact hpre x hm

/-- C7: for every identifier `id`, `MediaTypeWithIdentifier(id)` returns the
first registered media type whose canonical identifier equals the canonical
form of `id` — when it returns a media type, that media type's canonical
identifier matches and every registered media type before it mismatches — and
it returns `none` (never an error: it is a total function into `Option`)
exactly when no registered media type matches. -/
theorem c7_mediaTypeWithIdentifier_spec (d : APIDefinition) (id : Str) :
    (∀ mt, MediaTypeWithIdentifier d id = some mt →
      CanonicalIdentifier mt.Identifier = CanonicalIdentifier id ∧
      ∃ pre post, d.MediaTypes.map Prod.snd = pre ++ mt :: post ∧
        ∀ mt2 ∈ pre, CanonicalIdentifier mt2.Identifier ≠ CanonicalIdentifier id) ∧
    (MediaTypeWithIdentifier d id = none ↔
      ∀ mt ∈ d.MediaTypes.map Prod.snd,
        CanonicalIdentifier mt.Identifier ≠ CanonicalIdentifier id) := by
  constructor
  · intro mt h
    obtain ⟨hp, pre, post, hsplit, hpre⟩ :=
      find_first_decomp _ (d.MediaTypes.map Prod.snd) mt h
    refine ⟨(beq_iff_eq.mp hp).symm, pre, post, hsplit, ?_⟩
    intro mt2 hmt2 heq
    have hfalse := hpre mt2 hmt2
    rw [heq, beq_iff_eq.mpr rfl] at hfalse
    exact Bool.true_eq_false.mp hfalse
  · rw [MediaTypeWithIdentifier, List.find?_eq_none]
    constructor
    · intro h mt hmt heq
      have := h mt hmt
      rw [heq] at this
      exact this (beq_iff_eq.mpr rfl)
    · intro h mt hmt hbeq
      exact h mt hmt ((beq_iff_eq.mp hbeq).symm)

theorem c7_witness :
    MediaTypeWithIdentifier c7Design (strOf "application/vnd.foo+xml") = some mtFoo ∧
    CanonicalIdentifier mtFoo.Identifier =
      CanonicalIdentifier (strOf "application/vnd.foo+xml") := by
  refine ⟨by decide, ?_⟩
  exact ((c7_mediaTypeWithIdentifier_spec c7Design (strOf "application/vnd.foo+xml")).1
    mtFoo (by decide)).1

/-! ### Character-level facts for the mime round trip -/

theorem char_le_iff_toNat (a b : Char) : a ≤ b ↔ a.toNat ≤ b.toNat :=
  ⟨fun h => h, fun h => h⟩

theorem char_eq_iff_toNat (a b : Char) : a = b ↔ a.toNat = b.toNat :=
  ⟨fun h => h ▸ rfl, fun h => Char.ext (UInt32.toNat.inj h)⟩

theorem charOfNat_toNat {n : Nat} (h : n < 55296) : (Char.ofNat n).toNat = n := by
  unfold Char.ofNat
  rw [dif_pos (Or.inl h)]
  rfl

theorem toLowerChar_toNat (c : Char) :
    (toLowerChar c).toNat =
      if 65 ≤ c.toNat ∧ c.toNat ≤ 90 then c.toNat + 32 else c.toNat := by
  unfold toLowerChar
  have hiff : ('A' ≤ c ∧ c ≤ 'Z') ↔ (65 ≤ c.toNat ∧ c.toNat ≤ 90) := by
    rw [char_le_iff_toNat, char_le_iff_toNat]
    exact Iff.rfl
  by_cases h : 65 ≤ c.toNat ∧ c.toNat ≤ 90
  · rw [if_pos (hiff.mpr h), if_pos h]
    exact charOfNat_toNat (by omega)
  · rw [if_neg (fun hc => h (hiff.mp hc)), if_neg h]

theorem isTSpecialChar_iff (c : Char) : isTSpecialChar c = true ↔
    (c.toNat = 40 ∨ c.toNat = 41 ∨ c.toNat = 60 ∨ c.toNat = 62 ∨ c.toNat = 64 ∨
     c.toNat = 44 ∨ c.toNat = 59 ∨ c.toNat = 58 ∨ c.toNat = 92 ∨ c.toNat = 34 ∨
     c.toNat = 47 ∨ c.toNat = 91 ∨ c.toNat = 93 ∨ c.toNat = 63 ∨ c.toNat = 61) := by
  simp only [isTSpecialChar, Bool.or_eq_true, decide_eq_true_eq, char_eq_iff_toNat,
    show ('(').toNat = 40 from rfl, show (')').toNat = 41 from rfl,
    show ('<').toNat = 60 from rfl, show ('>').toNat = 62 from rfl,
    show ('@').toNat = 64 from rfl, show (',').toNat = 44 from rfl,
    show (';').toNat = 59 from rfl, show (':').toNat = 58 from rfl,
    show ('\\').toNat = 92 from rfl, show ('"').toNat = 34 from rfl,
    show ('/').toNat = 47 from rfl, show ('[').toNat = 91 from rfl,
    show (']').toNat = 93 from rfl, show ('?').toNat = 63 from rfl,
    show ('=').toNat = 61 from rfl]
  omega

theorem isTokenChar_iff (c : Char) : isTokenChar c = true ↔
    (32 < c.toNat ∧ c.toNat < 127 ∧
     ¬(c.toNat = 40 ∨ c.toNat = 41 ∨ c.toNat = 60 ∨ c.toNat = 62 ∨ c.toNat = 64 ∨
       c.toNat = 44 ∨ c.toNat = 59 ∨ c.toNat = 58 ∨ c.toNat = 92 ∨ c.toNat = 34 ∨
       c.toNat = 47 ∨ c.toNat = 91 ∨ c.toNat = 93 ∨ c.toNat = 63 ∨ c.toNat = 61)) := by
  simp only [isTokenChar, Bool.and_eq_true, decide_eq_true_eq, Bool.not_eq_true',
    Bool.eq_false_iff, Ne, isTSpecialChar_iff]
  omega

theorem goIsSpace_iff (c : Char) : goIsSpace c = true ↔
    (c.toNat = 32 ∨ c.toNat = 9 ∨ c.toNat = 10 ∨ c.toNat = 11 ∨ c.toNat = 12 ∨
     c.toNat = 13 ∨ c.toNat = 133 ∨ c.toNat = 160 ∨ c.toNat = 5760 ∨
     (8192 ≤ c.toNat ∧ c.toNat ≤ 8202) ∨ c.toNat = 8232 ∨ c.toNat = 8233 ∨
     c.toNat = 8239 ∨ c.toNat = 8287 ∨ c.toNat = 12288) := by
  simp only [goIsSpace, Bool.or_eq_true, Bool.and_eq_true, decide_eq_true_eq,
    char_eq_iff_toNat, show (' ').toNat = 32 from rfl, show ('\t').toNat = 9 from rfl,
    show ('\n').toNat = 10 from rfl, show ('\r').toNat = 13 from rfl]
  omega

theorem rfc2231Plain_iff (c : Char) : rfc2231Plain c = true ↔
    (32 < c.toNat ∧ c.toNat < 127 ∧ c.toNat ≠ 42 ∧ c.toNat ≠ 39 ∧ c.toNat ≠ 37 ∧
     isTSpecialChar c = false) := by
  simp only [rfc2231Plain, Bool.not_eq_true', Bool.or_eq_false_iff,
    decide_eq_false_iff_not, char_eq_iff_toNat, Ne,
    show ('*').toNat = 42 from rfl, show apos.toNat = 39 from rfl,
    show ('%').toNat = 37 from rfl, not_le]
  tauto

theorem isTokenChar_not_space {c : Char} (h : isTokenChar c = true) :
    goIsSpace c = false := by
  rw [isTokenChar_iff] at h
  rw [Bool.eq_false_iff, Ne, goIsSpace_iff]
  omega

theorem toLowerChar_idem (c : Char) : toLowerChar (toLowerChar c) = toLowerChar c := by
  rw [char_eq_iff_toNat, toLowerChar_toNat, toLowerChar_toNat c]
  by_cases h : 65 ≤ c.toNat ∧ c.toNat ≤ 90
  · rw [if_pos h, if_neg (by omega)]
  · rw [if_neg h, if_neg h]

theorem toLowerChar_eq_iff {c x : Char}
    (hx : x.toNat < 65 ∨ (90 < x.toNat ∧ x.toNat < 97) ∨ 122 < x.toNat) :
    toLowerChar c = x ↔ c = x := by
  rw [char_eq_iff_toNat, char_eq_iff_toNat, toLowerChar_toNat]
  by_cases h : 65 ≤ c.toNat ∧ c.toNat ≤ 90
  · rw [if_pos h]
    omega
  · rw [if_neg h]

theorem isTokenChar_toLower {c : Char} (h : isTokenChar c = true) :
    isTokenChar (toLowerChar c) = true := by
  rw [isTokenChar_iff] at h ⊢
  rw [toLowerChar_toNat]
  by_cases hc : 65 ≤ c.toNat ∧ c.toNat ≤ 90
  · rw [if_pos hc]
    omega
  · rw [if_neg hc]
    exact h

theorem toLowerAscii_lower (s : Str) : ∀ c ∈ toLowerAscii s, toLowerChar c = c := by
  intro c hc
  obtain ⟨c0, _, hc0⟩ := List.mem_map.mp hc
  rw [← hc0]
  exact toLowerChar_idem c0

theorem toLowerAscii_of_lower {s : Str} (h : ∀ c ∈ s, toLowerChar c = c) :
    toLowerAscii s = s := by
  unfold toLowerAscii
  induction s with
  | nil => rfl
  | cons c cs ih =>
    rw [List.map_cons, h c (by simp), ih (fun x hx => h x (by simp [hx]))]

theorem toLowerAscii_idem (s : Str) : toLowerAscii (toLowerAscii s) = toLowerAscii s :=
  toLowerAscii_of_lower (toLowerAscii_lower s)

/-! ### `takeWhile`/`dropWhile`/`cutChar` splitting facts -/

theorem takeWhile_all_true {α : Type} {p : α → Bool} {l : List α}
    (h : ∀ c ∈ l, p c = true) : l.takeWhile p = l :=
  List.takeWhile_eq_self_iff.mpr h

theorem dropWhile_all_false {α : Type} {p : α → Bool} {l : List α}
    (h : ∀ c ∈ l, p c = false) : l.dropWhile p = l := by
  cases l with
  | nil => rfl
  | cons c cs =>
    rw [List.dropWhile_cons_of_neg]
    simp [h c (by simp)]

theorem takeWhile_append_all {α : Type} {p : α → Bool} {a : List α} (b : List α)
    (h : ∀ c ∈ a, p c = true) : (a ++ b).takeWhile p = a ++ b.takeWhile p := by
  induction a with
  | nil => rfl
  | cons c cs ih =>
    rw [List.cons_append, List.takeWhile_cons_of_pos (h c (by simp)), List.cons_append,
      ih (fun x hx => h x (by simp [hx]))]

theorem dropWhile_append_all {α : Type} {p : α → Bool} {a : List α} (b : List α)
    (h : ∀ c ∈ a, p c = true) : (a ++ b).dropWhile p = b.dropWhile p := by
  induction a with
  | nil => rfl
  | cons c cs ih =>
    rw [List.cons_append, List.dropWhile_cons_of_pos (h c (by simp)),
      ih (fun x hx => h x (by simp [hx]))]

theorem takeWhile_length_eq {α : Type} {p : α → Bool} {l : List α}
    (h : (l.takeWhile p).length = l.length) : l.takeWhile p = l := by
  induction l with
  | nil => rfl
  | cons c cs ih =>
    by_cases hc : p c = true
    · rw [List.takeWhile_cons_of_pos hc] at h ⊢
      rw [ih (by simpa using h)]
    · rw [List.takeWhile_cons_of_neg (by simp [hc])] at h
      simp at h

theorem dropWhile_head_false {α : Type} {p : α → Bool} {l : List α} {c : α} {rest : List α}
    (h : l.dropWhile p = c :: rest) : p c = false := by
  induction l with
  | nil => simp at h
  | cons x xs ih =>
    by_cases hx : p x = true
    · rw [List.dropWhile_cons_of_pos hx] at h
      exact ih h
    · rw [List.dropWhile_cons_of_neg (by simp [hx])] at h
      cases h
      simpa using hx

theorem mem_of_mem_takeWhile {α : Type} {p : α → Bool} {l : List α} {c : α}
    (h : c ∈ l.takeWhile p) : c ∈ l := by
  induction l with
  | nil => simp at h
  | cons x xs ih =>
    by_cases hx : p x = true
    · rw [List.takeWhile_cons_of_pos hx] at h
      rcases List.mem_cons.mp h with he | hm
      · exact he ▸ List.mem_cons_self x xs
      · exact List.mem_cons.mpr (Or.inr (ih hm))
    · rw [List.takeWhile_cons_of_neg (by simp [hx])] at h
      simp at h

theorem trimLeftSpace_no {l : Str} (h : ∀ c ∈ l, goIsSpace c = false) :
    trimLeftSpace l = l :=
  dropWhile_all_false h

theorem trimSpace_no {l : Str} (h : ∀ c ∈ l, goIsSpace c = false) :
    trimSpace l = l := by
  unfold trimSpace
  rw [dropWhile_all_false h, dropWhile_all_false (fun c hc => h c (List.mem_reverse.mp hc)),
    List.reverse_reverse]

theorem drop_takeWhile_length {α : Type} (p : α → Bool) (l : List α) :
    l.drop (l.takeWhile p).length = l.dropWhile p := by
  induction l with
  | nil => rfl
  | cons c cs ih =>
    by_cases hc : p c = true
    · rw [List.takeWhile_cons_of_pos hc, List.dropWhile_cons_of_pos hc, List.length_cons,
        List.drop_succ_cons, ih]
    · rw [List.takeWhile_cons_of_neg (by simp [hc]), List.dropWhile_cons_of_neg (by simp [hc])]
      rfl

theorem cutChar_not_found {s : Str} {sep : Char} (h : ∀ c ∈ s, ¬(c = sep)) :
    cutChar s sep = (s, [], false) := by
  unfold cutChar
  have ht : s.takeWhile (fun c => !(c == sep)) = s :=
    takeWhile_all_true (by intro c hc; simp [h c hc])
  simp only [ht, List.drop_length]

theorem cutChar_found {a : Str} {sep : Char} (b : Str) (h : ∀ c ∈ a, ¬(c = sep)) :
    cutChar (a ++ sep :: b) sep = (a, b, true) := by
  unfold cutChar
  have ht : (a ++ sep :: b).takeWhile (fun c => !(c == sep)) = a := by
    rw [takeWhile_append_all (sep :: b) (by intro c hc; simp [h c hc]),
      List.takeWhile_cons_of_neg (by simp), List.append_nil]
  simp only [ht, List.drop_left]

theorem cutChar_found_inv {s : Str} {sep : Char} {a b : Str}
    (h : cutChar s sep = (a, b, true)) : s = a ++ sep :: b ∧ ∀ c ∈ a, ¬(c = sep) := by
  unfold cutChar at h
  simp only [drop_takeWhile_length] at h
  cases hd : s.dropWhile (fun c => !(c == sep)) with
  | nil =>
    rw [hd] at h
    simp at h
  | cons c rest =>
    rw [hd] at h
    simp only [Prod.mk.injEq] at h
    obtain ⟨ha, hb, _⟩ := h
    have hc : c = sep := by
      have := dropWhile_head_false hd
      simpa using this
    constructor
    · conv_lhs => rw [← List.takeWhile_append_dropWhile (fun c => !(c == sep)) s]
      rw [hd, ha, hc, hb]
    · intro x hx
      rw [← ha] at hx
      have := List.mem_takeWhile_imp hx
      simpa using this

theorem cutChar_false_all {s : Str} {sep : Char} {a b : Str}
    (h : cutChar s sep = (a, b, false)) : a = s ∧ ∀ c ∈ s, ¬(c = sep) := by
  unfold cutChar at h
  simp only [drop_takeWhile_length] at h
  cases hd : s.dropWhile (fun c => !(c == sep)) with
  | nil =>
    rw [hd] at h
    simp only [Prod.mk.injEq] at h
    obtain ⟨ha, _, _⟩ := h
    have hs : s.takeWhile (fun c => !(c == sep)) = s := by
      conv_rhs => rw [← List.takeWhile_append_dropWhile (fun c => !(c == sep)) s]
      rw [hd, List.append_nil]
    constructor
    · rw [← ha, hs]
    · intro x hx
      rw [← hs] at hx
      have := List.mem_takeWhile_imp hx
      simpa using this
  | cons c rest =>
    rw [hd] at h
    simp at h

theorem lookupA_map_entry {α : Type} (f : Str → α) (ks : List Str) (k : Str) :
    lookupA (ks.map (fun k => (k, f k))) k =
      if k ∈ ks then some (f k) else none := by
  induction ks with
  | nil => simp [lookupA]
  | cons k0 ks ih =>
    rw [List.map_cons, lookupA_cons]
    by_cases h : k0 = k
    · subst h
      simp
    · rw [if_neg h, ih]
      by_cases hm : k ∈ ks
      · rw [if_pos hm, if_pos (List.mem_cons.mpr (Or.inr hm))]
      · rw [if_neg hm, if_neg (fun hc => by
          rcases List.mem_cons.mp hc with he | hm2
          · exact h he.symm
          · exact hm hm2)]

theorem mssSet_absent {m : Mss} {k v : Str} (h : lookupA m k = none) :
    mssSet m k v = m ++ [(k, v)] := by
  unfold mssSet
  rw [h]
  rfl

theorem contSet_absent {c : Cont} {base k v : Str} (h : lookupA c base = none) :
    contSet c base k v = c ++ [(base, [(k, v)])] := by
  unfold contSet
  rw [h]
  rfl

/-! ### Percent-encoding round trip -/

theorem percentHexUnescape_cons {c : Char} (h : c ≠ '%') (rest : Str) :
    percentHexUnescape (c :: rest) =
      match percentHexUnescape rest with
      | some t => some (c :: t)
      | none => none := by
  rw [percentHexUnescape.eq_def]
  split
  · simp_all
  · rename_i rest2 heq
    cases heq
    exact absurd rfl h
  · rename_i c2 rest2 hne heq
    injection heq with h1 h2
    subst h1
    subst h2
    rfl

theorem percentHexUnescape_pct (c1 c2 : Char) (rest2 : Str) :
    percentHexUnescape ('%' :: c1 :: c2 :: rest2) =
      if ishexChar c1 ∧ ishexChar c2 then
        match percentHexUnescape rest2 with
        | some t => some (Char.ofNat (unhex c1 * 16 + unhex c2) :: t)
        | none => none
      else none := by
  rw [percentHexUnescape.eq_def]
  rfl

theorem ishexChar_iff (c : Char) : ishexChar c = true ↔
    ((48 ≤ c.toNat ∧ c.toNat ≤ 57) ∨ (97 ≤ c.toNat ∧ c.toNat ≤ 102) ∨
     (65 ≤ c.toNat ∧ c.toNat ≤ 70)) := by
  simp only [ishexChar, Bool.or_eq_true, Bool.and_eq_true, decide_eq_true_eq,
    char_le_iff_toNat, show ('0').toNat = 48 from rfl, show ('9').toNat = 57 from rfl,
    show ('a').toNat = 97 from rfl, show ('f').toNat = 102 from rfl,
    show ('A').toNat = 65 from rfl, show ('F').toNat = 70 from rfl]
  omega

theorem unhex_toNat (c : Char) :
    unhex c = if 48 ≤ c.toNat ∧ c.toNat ≤ 57 then c.toNat - 48
      else if 97 ≤ c.toNat ∧ c.toNat ≤ 102 then c.toNat - 87
      else if 65 ≤ c.toNat ∧ c.toNat ≤ 70 then c.toNat - 55 else 0 := by
  simp only [unhex, char_le_iff_toNat, show ('0').toNat = 48 from rfl,
    show ('9').toNat = 57 from rfl, show ('a').toNat = 97 from rfl,
    show ('f').toNat = 102 from rfl, show ('A').toNat = 65 from rfl,
    show ('F').toNat = 70 from rfl]

theorem hexDigitUpper_toNat {n : Nat} (h : n < 16) :
    (hexDigitUpper n).toNat = if n < 10 then 48 + n else 55 + n := by
  unfold hexDigitUpper
  by_cases hn : n < 10
  · rw [if_pos hn, if_pos hn, charOfNat_toNat (by omega)]
  · rw [if_neg hn, if_neg hn, charOfNat_toNat (by omega)]

theorem hexDigitUpper_isToken {n : Nat} (h : n < 16) :
    isTokenChar (hexDigitUpper n) = true := by
  rw [isTokenChar_iff, hexDigitUpper_toNat h]
  by_cases hn : n < 10
  · rw [if_pos hn]
    omega
  · rw [if_neg hn]
    omega

theorem hex_roundtrip {n : Nat} (h : n < 256) :
    ishexChar (hexDigitUpper (n / 16)) = true ∧ ishexChar (hexDigitUpper (n % 16)) = true ∧
    unhex (hexDigitUpper (n / 16)) * 16 + unhex (hexDigitUpper (n % 16)) = n := by
  have h1 : n / 16 < 16 := by omega
  have h2 : n % 16 < 16 := by omega
  have t1 := hexDigitUpper_toNat h1
  have t2 := hexDigitUpper_toNat h2
  have e1 : (hexDigitUpper (n / 16)).toNat = if n / 16 < 10 then 48 + n / 16 else 55 + n / 16 :=
    t1
  have e2 : (hexDigitUpper (n % 16)).toNat = if n % 16 < 10 then 48 + n % 16 else 55 + n % 16 :=
    t2
  refine ⟨?_, ?_, ?_⟩
  · rw [ishexChar_iff, e1]
    by_cases hd : n / 16 < 10
    · rw [if_pos hd]
      omega
    · rw [if_neg hd]
      omega
  · rw [ishexChar_iff, e2]
    by_cases hd : n % 16 < 10
    · rw [if_pos hd]
      omega
    · rw [if_neg hd]
      omega
  · rw [unhex_toNat, unhex_toNat, e1, e2]
    repeat' split
    all_goals omega

theorem charOfNat_toNat_self {c : Char} (h : c.toNat < 55296) : Char.ofNat c.toNat = c :=
  (char_eq_iff_toNat _ _).mpr (charOfNat_toNat h)

theorem rfc2231Plain_isToken {c : Char} (h : rfc2231Plain c = true) :
    isTokenChar c = true := by
  rw [rfc2231Plain_iff] at h
  obtain ⟨h1, h2, _, _, _, h6⟩ := h
  rw [isTokenChar_iff]
  refine ⟨h1, h2, fun hd => ?_⟩
  rw [(isTSpecialChar_iff c).mpr hd] at h6
  exact Bool.true_eq_false.mp h6

theorem rfc2231Plain_ne_pct {c : Char} (h : rfc2231Plain c = true) : c ≠ '%' := by
  rw [rfc2231Plain_iff] at h
  intro he
  exact h.2.2.2.2.1 (he ▸ rfl)

theorem encodeRFC2231_sound : ∀ {v e : Str}, encodeRFC2231 v = some e →
    percentHexUnescape e = some v := by
  intro v
  induction v with
  | nil =>
    intro e h
    simp only [encodeRFC2231, Option.some.injEq] at h
    rw [← h]
    rfl
  | cons c rest ih =>
    intro e h
    simp only [encodeRFC2231] at h
    by_cases hp : rfc2231Plain c = true
    · rw [if_pos hp] at h
      cases he : encodeRFC2231 rest with
      | none => rw [he] at h; exact absurd h (by simp)
      | some t =>
        rw [he] at h
        simp only [Option.some.injEq] at h
        rw [← h, percentHexUnescape_cons (rfc2231Plain_ne_pct hp), ih he]
    · rw [if_neg hp] at h
      by_cases hlt : c.toNat < 256
      · rw [if_pos hlt] at h
        cases he : encodeRFC2231 rest with
        | none => rw [he] at h; exact absurd h (by simp)
        | some t =>
          rw [he] at h
          simp only [Option.some.injEq] at h
          obtain ⟨hx1, hx2, hx3⟩ := hex_roundtrip hlt
          rw [← h, percentHexUnescape_pct, if_pos ⟨hx1, hx2⟩, ih he, hx3,
            charOfNat_toNat_self (by omega)]
      · rw [if_neg hlt] at h
        exact absurd h (by simp)

theorem encodeRFC2231_tokens : ∀ {v e : Str}, encodeRFC2231 v = some e →
    ∀ c ∈ e, isTokenChar c = true := by
  intro v
  induction v with
  | nil =>
    intro e h c hc
    simp only [encodeRFC2231, Option.some.injEq] at h
    rw [← h] at hc
    simp at hc
  | cons c0 rest ih =>
    intro e h c hc
    simp only [encodeRFC2231] at h
    by_cases hp : rfc2231Plain c0 = true
    · rw [if_pos hp] at h
      cases he : encodeRFC2231 rest with
      | none => rw [he] at h; exact absurd h (by simp)
      | some t =>
        rw [he] at h
        simp only [Option.some.injEq] at h
        rw [← h] at hc
        rcases List.mem_cons.mp hc with hce | hcm
        · exact hce ▸ rfc2231Plain_isToken hp
        · exact ih he c hcm
    · rw [if_neg hp] at h
      by_cases hlt : c0.toNat < 256
      · rw [if_pos hlt] at h
        cases he : encodeRFC2231 rest with
        | none => rw [he] at h; exact absurd h (by simp)
        | some t =>
          rw [he] at h
          simp only [Option.some.injEq] at h
          rw [← h] at hc
          rcases List.mem_cons.mp hc with hce | hc2
          · exact hce ▸ (by decide : isTokenChar '%' = true)
          · rcases List.mem_cons.mp hc2 with hce | hc3
            · exact hce ▸ hexDigitUpper_isToken (by omega)
            · rcases List.mem_cons.mp hc3 with hce | hc4
              · exact hce ▸ hexDigitUpper_isToken (by omega)
              · exact ih he c hc4
      · rw [if_neg hlt] at h
        exact absurd h (by simp)

theorem decode2231Enc_utf8 (e : Str) :
    decode2231Enc (strOf "utf-8" ++ apos :: apos :: e) = percentHexUnescape e := by
  unfold decode2231Enc
  simp only [cutChar_found (apos :: e)
      (show ∀ c ∈ strOf "utf-8", ¬(c = apos) from by decide),
    show cutChar (apos :: e) apos = ([], e, true) from @cutChar_found [] apos e (by simp),
    show toLowerAscii (strOf "utf-8") = strOf "utf-8" from by decide]
  rw [if_neg (by decide), if_neg (by decide)]

theorem decode_encVal {v e : Str} (he : encodeRFC2231 v = some e) :
    decode2231Enc (encVal v) = some v := by
  have henc : encVal v = strOf "utf-8" ++ apos :: apos :: e := by
    unfold encVal
    rw [he]
    rfl
  rw [henc, decode2231Enc_utf8]
  exact encodeRFC2231_sound he

/-! ### Quoted strings and value consumption -/

theorem dropWhile_all_true {α : Type} {p : α → Bool} {l : List α}
    (h : ∀ c ∈ l, p c = true) : l.dropWhile p = [] := by
  induction l with
  | nil => rfl
  | cons c cs ih =>
    rw [List.dropWhile_cons_of_pos (h c (by simp)), ih (fun x hx => h x (by simp [hx]))]

theorem parseQuoted_cons (c : Char) (rest : Str) :
    parseQuoted (c :: rest) =
      if c = '"' then some ([], rest)
      else if c = '\\' then
        match rest with
        | c2 :: rest2 =>
          if isTSpecialChar c2 then
            match parseQuoted rest2 with
            | some (val, r) => some (c2 :: val, r)
            | none => none
          else
            match parseQuoted (c2 :: rest2) with
            | some (val, r) => some ('\\' :: val, r)
            | none => none
        | [] => none
      else if c = '\r' ∨ c = '\n' then none
      else
        match parseQuoted rest with
        | some (val, r) => some (c :: val, r)
        | none => none := by
  rw [parseQuoted.eq_def]
  rfl

theorem parseQuoted_quote (rest : Str) : parseQuoted ('"' :: rest) = some ([], rest) := by
  rw [parseQuoted_cons, if_pos rfl]

theorem parseQuoted_esc {c : Char} (hts : isTSpecialChar c = true) (rest : Str) :
    parseQuoted ('\\' :: c :: rest) =
      match parseQuoted rest with
      | some (val, r) => some (c :: val, r)
      | none => none := by
  rw [parseQuoted_cons, if_neg (by decide), if_pos rfl]
  simp only [hts, if_pos]

theorem parseQuoted_plain {c : Char} (h1 : ¬(c = '"')) (h2 : ¬(c = '\\'))
    (h3 : ¬(c = '\r' ∨ c = '\n')) (rest : Str) :
    parseQuoted (c :: rest) =
      match parseQuoted rest with
      | some (val, r) => some (c :: val, r)
      | none => none := by
  rw [parseQuoted_cons, if_neg h1, if_neg h2, if_neg h3]

theorem escapeQuoted_cons (c : Char) (rest : Str) :
    escapeQuoted (c :: rest) =
      if c = '"' ∨ c = '\\' then '\\' :: c :: escapeQuoted rest
      else c :: escapeQuoted rest := by
  rw [escapeQuoted.eq_def]

theorem parseQuoted_escapeQuoted {v : Str} (rest : Str)
    (hv : ∀ c ∈ v, 32 ≤ c.toNat ∧ c.toNat ≤ 126) :
    parseQuoted (escapeQuoted v ++ '"' :: rest) = some (v, rest) := by
  induction v with
  | nil => exact parseQuoted_quote rest
  | cons c v ih =>
    have hc := hv c (by simp)
    have hrec := ih (fun x hx => hv x (by simp [hx]))
    by_cases hesc : c = '"' ∨ c = '\\'
    · have hts : isTSpecialChar c = true := by
        rcases hesc with h | h <;> subst h <;> decide
      rw [escapeQuoted_cons, if_pos hesc, List.cons_append, List.cons_append,
        parseQuoted_esc hts, hrec]
    · have h1 : ¬(c = '"') := fun h => hesc (Or.inl h)
      have h2 : ¬(c = '\\') := fun h => hesc (Or.inr h)
      have h3 : ¬(c = '\r' ∨ c = '\n') := by
        rintro (h | h) <;> subst h <;> exact absurd hc (by decide)
      rw [escapeQuoted_cons, if_neg hesc, List.cons_append,
        parseQuoted_plain h1 h2 h3, hrec]

theorem consumeToken_split {v rest : Str} (hv : ∀ c ∈ v, isTokenChar c = true)
    (hrest : ∀ c r, rest = c :: r → isTokenChar c = false) :
    consumeToken (v ++ rest) = (v, rest) := by
  unfold consumeToken
  cases rest with
  | nil =>
    rw [List.append_nil, takeWhile_all_true hv, dropWhile_all_true hv]
  | cons c r =>
    have hc := hrest c r rfl
    rw [takeWhile_append_all (c :: r) hv, dropWhile_append_all (c :: r) hv,
      List.takeWhile_cons_of_neg (by simp [hc]), List.dropWhile_cons_of_neg (by simp [hc]),
      List.append_nil]

theorem consumeValue_token {v : Str} (rest : Str) (hne : v ≠ [])
    (hv : ∀ c ∈ v, isTokenChar c = true)
    (hrest : ∀ c r, rest = c :: r → isTokenChar c = false) :
    consumeValue (v ++ rest) = (v, rest) := by
  cases v with
  | nil => exact absurd rfl hne
  | cons c v2 =>
    have hq : ¬(c = '"') := by
      intro h
      have := hv c (by simp)
      rw [h] at this
      exact absurd this (by decide)
    rw [List.cons_append]
    simp only [consumeValue]
    rw [if_neg hq, ← List.cons_append]
    exact consumeToken_split hv hrest

theorem consumeValue_quoted {v : Str} (rest : Str)
    (hv : ∀ c ∈ v, 32 ≤ c.toNat ∧ c.toNat ≤ 126) :
    consumeValue ('"' :: (escapeQuoted v ++ '"' :: rest)) = (v, rest) := by
  have hq := parseQuoted_escapeQuoted rest hv
  simp [consumeValue, hq]

/-! ### Formatted chunks and their re-parsing -/

theorem isToken_ne_nil {v : Str} (h : isToken v = true) : v ≠ [] := by
  unfold isToken at h
  simp only [Bool.and_eq_true, Bool.not_eq_true'] at h
  intro he
  rw [he] at h
  simp at h

theorem isToken_all {v : Str} (h : isToken v = true) : ∀ c ∈ v, isTokenChar c = true := by
  unfold isToken at h
  simp only [Bool.and_eq_true, List.all_eq_true] at h
  exact fun c hc => h.2 c hc

theorem not_needsEnc_range {v : Str} (h : needsEnc v = false) :
    ∀ c ∈ v, 32 ≤ c.toNat ∧ c.toNat ≤ 126 := by
  intro c hc
  simp only [needsEnc, List.any_eq_false, Bool.or_eq_true, decide_eq_true_eq,
    not_or, not_lt] at h
  exact ⟨(h c hc).1, (h c hc).2⟩

theorem encVal_ne_nil (v : Str) : encVal v ≠ [] := by
  unfold encVal strOf
  simp

theorem encVal_tokens {v e : Str} (he : encodeRFC2231 v = some e) :
    ∀ c ∈ encVal v, isTokenChar c = true := by
  intro c hc
  unfold encVal at hc
  rw [he, Option.getD_some] at hc
  rcases List.mem_append.mp hc with h8 | h9
  · exact (by decide : ∀ c ∈ strOf "utf-8", isTokenChar c = true) c h8
  · rcases List.mem_cons.mp h9 with he1 | h10
    · exact he1 ▸ (by decide : isTokenChar apos = true)
    · rcases List.mem_cons.mp h10 with he2 | h11
      · exact he2 ▸ (by decide : isTokenChar apos = true)
      · exact encodeRFC2231_tokens he c h11

theorem formatParam_isToken {k v chunk : Str} (h : formatParam k v = some chunk) :
    isToken k = true := by
  unfold formatParam at h
  by_cases htk : isToken k = true
  · exact htk
  · rw [if_neg htk] at h
    exact absurd h (by simp)

theorem formatParam_enc {k v chunk : Str} (h : formatParam k v = some chunk)
    (hne : needsEnc v = true) : ∃ e, encodeRFC2231 v = some e := by
  unfold formatParam at h
  rw [if_pos (formatParam_isToken h), if_pos hne] at h
  cases he : encodeRFC2231 v with
  | none => rw [he] at h; exact absurd h (by simp)
  | some e => exact ⟨e, rfl⟩

theorem formatParam_chunk {k v chunk : Str} (h : formatParam k v = some chunk)
    (hklow : toLowerAscii k = k) : chunk = chunkFor k v := by
  unfold formatParam at h
  rw [if_pos (formatParam_isToken h)] at h
  by_cases hne : needsEnc v = true
  · rw [if_pos hne] at h
    cases he : encodeRFC2231 v with
    | none => rw [he] at h; exact absurd h (by simp)
    | some e =>
      rw [he] at h
      simp only [Option.some.injEq] at h
      rw [← h, hklow]
      simp [chunkFor, chunkKey, chunkVal, encVal, hne, he, List.append_assoc]
  · rw [if_neg hne] at h
    have hne2 : needsEnc v = false := Bool.eq_false_iff.mpr hne
    by_cases htv : isToken v = true
    · rw [if_pos htv] at h
      simp only [Option.some.injEq] at h
      rw [← h, hklow]
      simp [chunkFor, chunkKey, chunkVal, hne2, htv]
    · rw [if_neg htv] at h
      simp only [Option.some.injEq] at h
      rw [← h, hklow]
      simp [chunkFor, chunkKey, chunkVal, hne2, htv]

theorem chunkKey_ne_nil {k : Str} (v : Str) (hk : k ≠ []) : chunkKey k v ≠ [] := by
  unfold chunkKey
  by_cases hne : needsEnc v = true
  · rw [if_pos hne]
    simp
  · rw [if_neg hne]
    exact hk

theorem chunkKey_tokens {k : Str} (v : Str) (hk : ∀ c ∈ k, isTokenChar c = true) :
    ∀ c ∈ chunkKey k v, isTokenChar c = true := by
  unfold chunkKey
  by_cases hne : needsEnc v = true
  · rw [if_pos hne]
    intro c hc
    rcases List.mem_append.mp hc with hm | hm
    · exact hk c hm
    · rw [List.mem_singleton.mp hm]
      decide
  · rw [if_neg hne]
    exact hk

theorem chunkKey_lower {k : Str} (v : Str) (hklow : toLowerAscii k = k) :
    toLowerAscii (chunkKey k v) = chunkKey k v := by
  unfold chunkKey
  by_cases hne : needsEnc v = true
  · rw [if_pos hne]
    unfold toLowerAscii at hklow ⊢
    rw [List.map_append, hklow]
    rfl
  · rw [if_neg hne]
    exact hklow

theorem trimLeftSpace_head {c : Char} (hcs : goIsSpace c = false) (l : Str) :
    trimLeftSpace (c :: l) = c :: l := by
  unfold trimLeftSpace
  rw [List.dropWhile_cons_of_neg (by simp [hcs])]

theorem chunkVal_ne_nil {k v chunk : Str} (_h : formatParam k v = some chunk) :
    chunkVal v ≠ [] := by
  unfold chunkVal
  by_cases hne : needsEnc v = true
  · rw [if_pos hne]
    exact encVal_ne_nil v
  · rw [if_neg hne]
    by_cases htv : isToken v = true
    · rw [if_pos htv]
      exact isToken_ne_nil htv
    · rw [if_neg htv]
      simp

theorem trimLeftSpace_chunkVal {v : Str} (rest : Str) :
    trimLeftSpace (chunkVal v ++ rest) = chunkVal v ++ rest := by
  unfold chunkVal
  by_cases hne : needsEnc v = true
  · rw [if_pos hne]
    rw [show encVal v ++ rest =
      'u' :: (strOf "tf-8" ++ apos :: apos :: (encodeRFC2231 v).getD [] ++ rest) from by
        simp [encVal, strOf]]
    exact trimLeftSpace_head (by decide) _
  · rw [if_neg hne]
    by_cases htv : isToken v = true
    · rw [if_pos htv]
      cases hv : v with
      | nil => exact absurd hv (isToken_ne_nil htv)
      | cons c v2 =>
        rw [List.cons_append]
        exact trimLeftSpace_head
          (isTokenChar_not_space (isToken_all htv c (hv.symm ▸ List.mem_cons_self c v2))) _
    · rw [if_neg htv, List.cons_append]
      exact trimLeftSpace_head (by decide) _

theorem consumeValue_chunkVal {k v chunk : Str} (rest : Str)
    (h : formatParam k v = some chunk)
    (hrest : ∀ c r, rest = c :: r → isTokenChar c = false) :
    consumeValue (chunkVal v ++ rest) = (parsedVal v, rest) := by
  unfold chunkVal parsedVal
  by_cases hne : needsEnc v = true
  · rw [if_pos hne, if_pos hne]
    obtain ⟨e, he⟩ := formatParam_enc h hne
    exact consumeValue_token rest (encVal_ne_nil v) (encVal_tokens he) hrest
  · rw [if_neg hne, if_neg hne]
    have hne2 : needsEnc v = false := Bool.eq_false_iff.mpr hne
    by_cases htv : isToken v = true
    · rw [if_pos htv]
      exact consumeValue_token rest (isToken_ne_nil htv) (isToken_all htv) hrest
    · rw [if_neg htv]
      rw [show ('"' :: (escapeQuoted v ++ ['"'])) ++ rest =
        '"' :: (escapeQuoted v ++ '"' :: rest) from by simp [List.append_assoc]]
      exact consumeValue_quoted rest (not_needsEnc_range hne2)

theorem consumeMediaParam_eq {v rest1 : Str} (h : trimLeftSpace v = ';' :: rest1) :
    consumeMediaParam v =
      match consumeToken (trimLeftSpace rest1) with
      | (param0, rest3) =>
        if toLowerAscii param0 = [] then ([], [], v)
        else
          match trimLeftSpace rest3 with
          | '=' :: rest4 =>
            match consumeValue (trimLeftSpace rest4) with
            | (value, rest6) =>
              if value = [] ∧ rest6 = trimLeftSpace rest4 then ([], [], v)
              else (toLowerAscii param0, value, rest6)
          | _ => ([], [], v) := by
  unfold consumeMediaParam
  rw [h]
  rfl

theorem append_right_ne {α : Type} {a rest : List α} (ha : a ≠ []) : rest ≠ a ++ rest := by
  intro he
  have hl := congrArg List.length he
  rw [List.length_append] at hl
  cases a with
  | nil => exact ha rfl
  | cons c a2 => simp at hl

theorem consumeMediaParam_chunk {k v chunk rest : Str}
    (h : formatParam k v = some chunk) (hklow : toLowerAscii k = k)
    (hrest : ∀ c r, rest = c :: r → isTokenChar c = false) :
    consumeMediaParam (chunkFor k v ++ rest) = (chunkKey k v, parsedVal v, rest) := by
  have htk := formatParam_isToken h
  have hkne : k ≠ [] := isToken_ne_nil htk
  have hck_ne : chunkKey k v ≠ [] := chunkKey_ne_nil v hkne
  have hck_tok : ∀ c ∈ chunkKey k v, isTokenChar c = true := chunkKey_tokens v (isToken_all htk)
  have hck_low : toLowerAscii (chunkKey k v) = chunkKey k v := chunkKey_lower v hklow
  have hcv : consumeValue (chunkVal v ++ rest) = (parsedVal v, rest) :=
    consumeValue_chunkVal rest h hrest
  have hcvne : chunkVal v ≠ [] := chunkVal_ne_nil h
  rw [show chunkFor k v ++ rest =
    ';' :: ' ' :: (chunkKey k v ++ '=' :: (chunkVal v ++ rest)) from by
      simp [chunkFor, List.append_assoc]]
  have h1 : trimLeftSpace (';' :: ' ' :: (chunkKey k v ++ '=' :: (chunkVal v ++ rest))) =
      ';' :: (' ' :: (chunkKey k v ++ '=' :: (chunkVal v ++ rest))) :=
    trimLeftSpace_head (by decide) _
  rw [consumeMediaParam_eq h1]
  have h2 : trimLeftSpace (' ' :: (chunkKey k v ++ '=' :: (chunkVal v ++ rest))) =
      chunkKey k v ++ '=' :: (chunkVal v ++ rest) := by
    unfold trimLeftSpace
    rw [List.dropWhile_cons_of_pos (by decide)]
    cases hck : chunkKey k v with
    | nil => exact absurd hck hck_ne
    | cons c ck2 =>
      have hc : isTokenChar c = true := hck_tok c (hck.symm ▸ List.mem_cons_self c ck2)
      rw [List.cons_append, List.dropWhile_cons_of_neg (by simp [isTokenChar_not_space hc])]
  rw [h2]
  have h3 : consumeToken (chunkKey k v ++ '=' :: (chunkVal v ++ rest)) =
      (chunkKey k v, '=' :: (chunkVal v ++ rest)) :=
    consumeToken_split hck_tok (fun c r heq => by
      injection heq with hh1 hh2
      rw [← hh1]
      decide)
  simp only [h3]
  rw [hck_low, if_neg hck_ne]
  simp only [show trimLeftSpace ('=' :: (chunkVal v ++ rest)) =
    '=' :: (chunkVal v ++ rest) from rfl]
  simp only [trimLeftSpace_chunkVal rest, hcv]
  rw [if_neg (fun hand => append_right_ne hcvne hand.2)]

/-! ### The parameter loop over formatted chunks -/

theorem parseParams_nil (fuel : Nat) (params : Mss) (cont : Cont) :
    parseParams fuel [] params cont = some (params, cont) := by
  cases fuel <;> rfl

theorem parseParams_cons (fuel : Nat) (c : Char) (cs : Str) (params : Mss) (cont : Cont) :
    parseParams (fuel + 1) (c :: cs) params cont =
      (if trimLeftSpace (c :: cs) = [] then some (params, cont)
       else
         match consumeMediaParam (trimLeftSpace (c :: cs)) with
         | (key, value, rest) =>
           if key = [] then
             if trimSpace (trimLeftSpace (c :: cs)) = [';'] then some (params, cont) else none
           else
             match cutChar key '*' with
             | (base, _, true) =>
               match lookupA ((lookupA cont base).getD []) key with
               | some vv =>
                 if vv = value then parseParams fuel rest params (contSet cont base key value)
                 else none
               | none => parseParams fuel rest params (contSet cont base key value)
             | (_, _, false) =>
               match lookupA params key with
               | some vv =>
                 if vv = value then parseParams fuel rest (mssSet params key value) cont
                 else none
               | none => parseParams fuel rest (mssSet params key value) cont) := by
  rw [parseParams.eq_def]

theorem lookupA_single_ne {α : Type} {k k' : Str} (h : ¬(k = k')) (x : α) :
    lookupA [(k, x)] k' = none := by
  rw [lookupA_cons, if_neg h]
  rfl

theorem formatParam_head {k v chunk : Str} (h : formatParam k v = some chunk) :
    ∃ t, chunk = ';' :: ' ' :: t := by
  unfold formatParam at h
  rw [if_pos (formatParam_isToken h)] at h
  by_cases hne : needsEnc v = true
  · rw [if_pos hne] at h
    cases he : encodeRFC2231 v with
    | none => rw [he] at h; exact absurd h (by simp)
    | some e =>
      rw [he] at h
      simp only [Option.some.injEq] at h
      exact ⟨_, h.symm⟩
  · rw [if_neg hne] at h
    by_cases htv : isToken v = true
    · rw [if_pos htv] at h
      simp only [Option.some.injEq] at h
      exact ⟨_, h.symm⟩
    · rw [if_neg htv] at h
      simp only [Option.some.injEq] at h
      exact ⟨_, h.symm⟩

theorem formatChunks_cons_some {p : Mss} {k : Str} {ks : List Str} {cs : Str}
    (h : formatChunks p (k :: ks) = some cs) :
    ∃ chunk cs2, formatParam k ((lookupA p k).getD []) = some chunk ∧
      formatChunks p ks = some cs2 ∧ cs = chunk ++ cs2 := by
  simp only [formatChunks] at h
  cases hf : formatParam k ((lookupA p k).getD []) with
  | none => rw [hf] at h; exact absurd h (by simp)
  | some chunk =>
    cases hc2 : formatChunks p ks with
    | none => rw [hf, hc2] at h; exact absurd h (by simp)
    | some cs2 =>
      rw [hf, hc2] at h
      simp only [Option.some.injEq] at h
      exact ⟨chunk, cs2, rfl, rfl, h.symm⟩

theorem formatChunks_shape {p : Mss} {ks : List Str} {cs : Str}
    (h : formatChunks p ks = some cs) :
    ∀ c r, cs = c :: r → isTokenChar c = false := by
  intro c r heq
  cases ks with
  | nil =>
    unfold formatChunks at h
    injection h with h
    rw [← h] at heq
    simp at heq
  | cons k ks2 =>
    obtain ⟨chunk, cs2, hf, _, hcs⟩ := formatChunks_cons_some h
    obtain ⟨t, ht⟩ := formatParam_head hf
    rw [hcs, ht, List.cons_append] at heq
    injection heq with hh _
    rw [← hh]
    decide

theorem parseParams_chunk_direct {k v chunk : Str} {rest : Str} {fuel : Nat}
    {params : Mss} {cont : Cont}
    (h : formatParam k v = some chunk) (hklow : toLowerAscii k = k)
    (hkstar : ∀ c ∈ k, ¬(c = '*'))
    (hne : needsEnc v = false)
    (hrest : ∀ c r, rest = c :: r → isTokenChar c = false)
    (hpk : lookupA params k = none) :
    parseParams (fuel + 1) (chunkFor k v ++ rest) params cont =
      parseParams fuel rest (params ++ [(k, v)]) cont := by
  have hkne : k ≠ [] := isToken_ne_nil (formatParam_isToken h)
  have hcm := consumeMediaParam_chunk h hklow hrest
  have hck : chunkKey k v = k := by simp [chunkKey, hne]
  have hpv : parsedVal v = v := by simp [parsedVal, hne]
  rw [hck, hpv] at hcm
  have hsplit : chunkFor k v ++ rest =
      ';' :: ' ' :: (chunkKey k v ++ '=' :: (chunkVal v ++ rest)) := by
    simp [chunkFor, List.append_assoc]
  rw [hsplit]
  rw [hsplit] at hcm
  rw [parseParams_cons]
  rw [trimLeftSpace_head (by decide) _]
  rw [if_neg (List.cons_ne_nil _ _)]
  simp only [hcm]
  rw [if_neg hkne]
  simp only [cutChar_not_found hkstar]
  simp only [hpk]
  rw [mssSet_absent hpk]

theorem parseParams_chunk_enc {k v chunk : Str} {rest : Str} {fuel : Nat}
    {params : Mss} {cont : Cont}
    (h : formatParam k v = some chunk) (hklow : toLowerAscii k = k)
    (hkstar : ∀ c ∈ k, ¬(c = '*'))
    (hne : needsEnc v = true)
    (hrest : ∀ c r, rest = c :: r → isTokenChar c = false)
    (hck : lookupA cont k = none) :
    parseParams (fuel + 1) (chunkFor k v ++ rest) params cont =
      parseParams fuel rest params (cont ++ [(k, [(k ++ ['*'], encVal v)])]) := by
  have hkne : k ≠ [] := isToken_ne_nil (formatParam_isToken h)
  have hcm := consumeMediaParam_chunk h hklow hrest
  have hckk : chunkKey k v = k ++ ['*'] := by simp [chunkKey, hne]
  have hpv : parsedVal v = encVal v := by simp [parsedVal, hne]
  rw [hckk, hpv] at hcm
  have hsplit : chunkFor k v ++ rest =
      ';' :: ' ' :: (chunkKey k v ++ '=' :: (chunkVal v ++ rest)) := by
    simp [chunkFor, List.append_assoc]
  rw [hsplit]
  rw [hsplit] at hcm
  rw [parseParams_cons]
  rw [trimLeftSpace_head (by decide) _]
  rw [if_neg (List.cons_ne_nil _ _)]
  simp only [hcm]
  rw [if_neg (by simp : ¬(k ++ ['*'] = []))]
  simp only [cutChar_found [] hkstar]
  rw [hck]
  simp only [Option.getD_none]
  simp only [show lookupA ([] : Mss) (k ++ ['*']) = none from rfl]
  rw [contSet_absent hck]

theorem fmtDirects_cons_direct {p : Mss} {k : Str} (ks : List Str)
    (hne : needsEnc ((lookupA p k).getD []) = false) :
    fmtDirects p (k :: ks) = (k, (lookupA p k).getD []) :: fmtDirects p ks := by
  simp [fmtDirects, List.filter_cons, hne]

theorem fmtDirects_cons_enc {p : Mss} {k : Str} (ks : List Str)
    (hne : needsEnc ((lookupA p k).getD []) = true) :
    fmtDirects p (k :: ks) = fmtDirects p ks := by
  simp [fmtDirects, List.filter_cons, hne]

theorem fmtConts_cons_direct {p : Mss} {k : Str} (ks : List Str)
    (hne : needsEnc ((lookupA p k).getD []) = false) :
    fmtConts p (k :: ks) = fmtConts p ks := by
  simp [fmtConts, List.filter_cons, hne]

theorem fmtConts_cons_enc {p : Mss} {k : Str} (ks : List Str)
    (hne : needsEnc ((lookupA p k).getD []) = true) :
    fmtConts p (k :: ks) =
      (k, [(k ++ ['*'], encVal ((lookupA p k).getD []))]) :: fmtConts p ks := by
  simp [fmtConts, List.filter_cons, hne]

theorem parseParams_formatChunks (p : Mss) : ∀ (ks : List Str) (cs : Str) (fuel : Nat)
    (params : Mss) (cont : Cont),
    formatChunks p ks = some cs → cs.length ≤ fuel →
    (∀ k ∈ ks, toLowerAscii k = k ∧ ∀ c ∈ k, ¬(c = '*')) →
    (∀ k ∈ ks, lookupA params k = none) →
    (∀ k ∈ ks, lookupA cont k = none) →
    ks.Nodup →
    parseParams fuel cs params cont =
      some (params ++ fmtDirects p ks, cont ++ fmtConts p ks) := by
  intro ks
  induction ks with
  | nil =>
    intro cs fuel params cont hcs _ _ _ _ _
    unfold formatChunks at hcs
    injection hcs with hcs
    rw [← hcs, parseParams_nil]
    simp [fmtDirects, fmtConts]
  | cons k ks2 ih =>
    intro cs fuel params cont hcs hfuel hwf hp hc hnd
    obtain ⟨chunk, cs2, hf, hc2, hcseq⟩ := formatChunks_cons_some hcs
    have hklow := (hwf k (by simp)).1
    have hkstar := (hwf k (by simp)).2
    have hchunk : chunk = chunkFor k ((lookupA p k).getD []) := formatParam_chunk hf hklow
    have hknotmem : k ∉ ks2 := (List.nodup_cons.mp hnd).1
    have hnd2 : ks2.Nodup := (List.nodup_cons.mp hnd).2
    subst hcseq
    rw [hchunk] at hfuel ⊢
    have hlen2 : (chunkFor k ((lookupA p k).getD []) ++ cs2).length =
        cs2.length + (chunkFor k ((lookupA p k).getD [])).length := by
      rw [List.length_append]
      omega
    have hchlen : 2 ≤ (chunkFor k ((lookupA p k).getD [])).length := by
      simp [chunkFor]
    cases fuel with
    | zero =>
      exfalso
      rw [hlen2] at hfuel
      omega
    | succ f =>
      have hrest := formatChunks_shape hc2
      have hlen3 : cs2.length ≤ f := by
        rw [hlen2] at hfuel
        omega
      have hwf2 : ∀ k2 ∈ ks2, toLowerAscii k2 = k2 ∧ ∀ c ∈ k2, ¬(c = '*') :=
        fun k2 hm => hwf k2 (by simp [hm])
      by_cases henc : needsEnc ((lookupA p k).getD []) = true
      · rw [parseParams_chunk_enc hf hklow hkstar henc hrest (hc k (by simp))]
        rw [ih cs2 f params (cont ++ [(k, [(k ++ ['*'], encVal ((lookupA p k).getD []))])])
          hc2 hlen3 hwf2
          (fun k2 hm => hp k2 (by simp [hm]))
          (fun k2 hm => by
            rw [lookupA_append_none _ (hc k2 (by simp [hm]))]
            exact lookupA_single_ne (fun he => hknotmem (by rw [he]; exact hm)) _)
          hnd2]
        rw [fmtDirects_cons_enc ks2 henc, fmtConts_cons_enc ks2 henc]
        simp [List.append_assoc]
      · have henc2 : needsEnc ((lookupA p k).getD []) = false := Bool.eq_false_iff.mpr henc
        rw [parseParams_chunk_direct hf hklow hkstar henc2 hrest (hp k (by simp))]
        rw [ih cs2 f (params ++ [(k, (lookupA p k).getD [])]) cont
          hc2 hlen3 hwf2
          (fun k2 hm => by
            rw [lookupA_append_none _ (hp k2 (by simp [hm]))]
            exact lookupA_single_ne (fun he => hknotmem (by rw [he]; exact hm)) _)
          (fun k2 hm => hc k2 (by simp [hm]))
          hnd2]
        rw [fmtDirects_cons_direct ks2 henc2, fmtConts_cons_direct ks2 henc2]
        simp [List.append_assoc]

/-! ### Stitching the continuation entries back -/

theorem stitchOne_single {params : Mss} {base v dec : Str}
    (hdec : decode2231Enc v = some dec) (hp : lookupA params base = none) :
    stitchOne params (base, [(base ++ ['*'], v)]) = some (params ++ [(base, dec)]) := by
  have hl : lookupA [(base ++ ['*'], v)] (base ++ ['*']) = some v := by
    rw [lookupA_cons, if_pos rfl]
  unfold stitchOne
  dsimp only
  simp only [hl, hdec]
  rw [mssSet_absent hp]

theorem stitchAll_enc (p : Mss) : ∀ (ks : List Str) (params : Mss),
    (∀ k ∈ ks, ∃ e, encodeRFC2231 ((lookupA p k).getD []) = some e) →
    (∀ k ∈ ks, lookupA params k = none) →
    ks.Nodup →
    stitchAll params (ks.map (fun k => (k, [(k ++ ['*'], encVal ((lookupA p k).getD []))]))) =
      some (params ++ ks.map (fun k => (k, (lookupA p k).getD []))) := by
  intro ks
  induction ks with
  | nil =>
    intro params _ _ _
    simp [stitchAll]
  | cons k ks2 ih =>
    intro params henc hp hnd
    obtain ⟨e, he⟩ := henc k (by simp)
    have h1 : stitchOne params (k, [(k ++ ['*'], encVal ((lookupA p k).getD []))]) =
        some (params ++ [(k, (lookupA p k).getD [])]) :=
      stitchOne_single (decode_encVal he) (hp k (by simp))
    simp only [List.map_cons, stitchAll, h1]
    have hknotmem : k ∉ ks2 := (List.nodup_cons.mp hnd).1
    rw [ih (params ++ [(k, (lookupA p k).getD [])])
      (fun k2 hm => henc k2 (by simp [hm]))
      (fun k2 hm => by
        rw [lookupA_append_none _ (hp k2 (by simp [hm]))]
        exact lookupA_single_ne (fun he2 => hknotmem (by rw [he2]; exact hm)) _)
      (List.nodup_cons.mp hnd).2]
    simp [List.append_assoc]

/-! ### The media-type base round trip -/

theorem isToken_intro {v : Str} (hne : v ≠ []) (h : ∀ c ∈ v, isTokenChar c = true) :
    isToken v = true := by
  unfold isToken
  simp only [Bool.and_eq_true, Bool.not_eq_true', List.all_eq_true]
  refine ⟨?_, h⟩
  cases v with
  | nil => exact absurd rfl hne
  | cons c cs => rfl

theorem consumeToken_all {v : Str} (h : ∀ c ∈ v, isTokenChar c = true) :
    consumeToken v = (v, []) := by
  unfold consumeToken
  rw [takeWhile_all_true h, dropWhile_all_true h]

theorem toLowerAscii_tokens {s : Str} (h : ∀ c ∈ s, isTokenChar c = true) :
    ∀ c ∈ toLowerAscii s, isTokenChar c = true := by
  intro c hc
  obtain ⟨c0, hc0, hmap⟩ := List.mem_map.mp hc
  rw [← hmap]
  exact isTokenChar_toLower (h c0 hc0)

theorem toLowerAscii_ne_nil {s : Str} (h : s ≠ []) : toLowerAscii s ≠ [] := by
  simp [toLowerAscii, h]

theorem isTokenChar_ne {c x : Char} (h : isTokenChar c = true)
    (hx : isTokenChar x = false) : ¬(c = x) := by
  intro he
  rw [he, hx] at h
  exact Bool.false_ne_true h

theorem toLowerChar_ne_slash {c : Char} (h : ¬(c = '/')) : ¬(toLowerChar c = '/') :=
  fun he => h ((toLowerChar_eq_iff (Or.inl (by decide))).mp he)

theorem toLowerChar_ne_plus {c : Char} (h : ¬(c = '+')) : ¬(toLowerChar c = '+') :=
  fun he => h ((toLowerChar_eq_iff (Or.inl (by decide))).mp he)

theorem isTokenChar_ne_slash {c : Char} (h : isTokenChar c = true) : ¬(c = '/') :=
  isTokenChar_ne h (by decide)

theorem isToken_no_space {v : Str} (h : isToken v = true) :
    ∀ c ∈ v, goIsSpace c = false :=
  fun c hc => isTokenChar_not_space (isToken_all h c hc)

theorem checkMediaTypeDisposition_token {v : Str} (hne : v ≠ [])
    (h : ∀ c ∈ v, isTokenChar c = true) : checkMediaTypeDisposition v = true := by
  unfold checkMediaTypeDisposition
  simp only [consumeToken_all h]
  rw [if_neg hne]

theorem checkMediaTypeDisposition_pair {major sub : Str} (hmne : major ≠ [])
    (hsne : sub ≠ []) (hm : ∀ c ∈ major, isTokenChar c = true)
    (hs : ∀ c ∈ sub, isTokenChar c = true) :
    checkMediaTypeDisposition (major ++ '/' :: sub) = true := by
  unfold checkMediaTypeDisposition
  have hct : consumeToken (major ++ '/' :: sub) = (major, '/' :: sub) :=
    consumeToken_split hm (fun c r heq => by
      injection heq with hh1 hh2
      rw [← hh1]
      decide)
  simp only [hct]
  rw [if_neg hmne]
  simp only [consumeToken_all hs]
  simp [List.isEmpty_iff, hsne]

theorem formatBase_wf {t b : Str} (h : formatBase t = some b) :
    formatBase b = some b ∧ b ≠ [] ∧ (∀ c ∈ b, isTokenChar c = true ∨ c = '/') ∧
    toLowerAscii b = b ∧ trimSpace b = b ∧ checkMediaTypeDisposition b = true ∧
    ((∀ c ∈ t, ¬(c = '+')) → ∀ c ∈ b, ¬(c = '+')) := by
  unfold formatBase at h
  rcases hcut : cutChar t '/' with ⟨maj, sub, flag⟩
  rw [hcut] at h
  cases flag with
  | false =>
    simp only [] at h
    by_cases htk : isToken t = true
    · rw [if_pos htk] at h
      simp only [Option.some.injEq] at h
      have hbeq : b = toLowerAscii t := h.symm
      have hbtok : ∀ c ∈ b, isTokenChar c = true :=
        hbeq ▸ toLowerAscii_tokens (isToken_all htk)
      have hbne : b ≠ [] := hbeq ▸ toLowerAscii_ne_nil (isToken_ne_nil htk)
      have hblow : toLowerAscii b = b := hbeq ▸ toLowerAscii_idem t
      refine ⟨?_, hbne, fun c hc => Or.inl (hbtok c hc), hblow,
        trimSpace_no (fun c hc => isTokenChar_not_space (hbtok c hc)),
        checkMediaTypeDisposition_token hbne hbtok, ?_⟩
      · unfold formatBase
        simp only [cutChar_not_found (fun c hc => isTokenChar_ne_slash (hbtok c hc))]
        rw [if_pos (isToken_intro hbne hbtok), hblow]
      · intro hplus c hc
        rw [hbeq] at hc
        obtain ⟨c0, hc0, hmap⟩ := List.mem_map.mp hc
        rw [← hmap]
        exact toLowerChar_ne_plus (hplus c0 hc0)
    · rw [if_neg htk] at h
      exact absurd h (by simp)
  | true =>
    simp only [] at h
    by_cases hms : isToken maj = true ∧ isToken sub = true
    · rw [if_pos hms] at h
      simp only [Option.some.injEq] at h
      obtain ⟨hteq, hmaj_ns⟩ := cutChar_found_inv hcut
      have hbeq : b = toLowerAscii maj ++ '/' :: toLowerAscii sub := h.symm
      have hmt := isToken_all hms.1
      have hst := isToken_all hms.2
      have hlm : ∀ c ∈ toLowerAscii maj, isTokenChar c = true := toLowerAscii_tokens hmt
      have hls : ∀ c ∈ toLowerAscii sub, isTokenChar c = true := toLowerAscii_tokens hst
      have hlmne : toLowerAscii maj ≠ [] := toLowerAscii_ne_nil (isToken_ne_nil hms.1)
      have hlsne : toLowerAscii sub ≠ [] := toLowerAscii_ne_nil (isToken_ne_nil hms.2)
      have hbchars : ∀ c ∈ b, isTokenChar c = true ∨ c = '/' := by
        intro c hc
        rw [hbeq] at hc
        rcases List.mem_append.mp hc with hm | hm
        · exact Or.inl (hlm c hm)
        · rcases List.mem_cons.mp hm with he | hm2
          · exact Or.inr he
          · exact Or.inl (hls c hm2)
      have hbne : b ≠ [] := by
        rw [hbeq]
        cases toLowerAscii maj <;> simp
      have hblow : toLowerAscii b = b := by
        rw [hbeq]
        unfold toLowerAscii
        rw [List.map_append, List.map_cons]
        rw [show toLowerChar '/' = '/' from by decide]
        have hi1 : List.map toLowerChar (List.map toLowerChar maj) =
            List.map toLowerChar maj := toLowerAscii_idem maj
        have hi2 : List.map toLowerChar (List.map toLowerChar sub) =
            List.map toLowerChar sub := toLowerAscii_idem sub
        rw [hi1, hi2]
      refine ⟨?_, hbne, hbchars, hblow,
        trimSpace_no (fun c hc => ?_), ?_, ?_⟩
      · unfold formatBase
        rw [hbeq]
        simp only [cutChar_found (toLowerAscii sub)
          (fun c hc => isTokenChar_ne_slash (hlm c hc))]
        rw [if_pos ⟨isToken_intro hlmne hlm, isToken_intro hlsne hls⟩]
        rw [toLowerAscii_idem maj, toLowerAscii_idem sub]
      · rcases hbchars c hc with ht | hs
        · exact isTokenChar_not_space ht
        · rw [hs]
          decide
      · rw [hbeq]
        exact checkMediaTypeDisposition_pair hlmne hlsne hlm hls
      · intro hplus c hc
        rw [hbeq] at hc
        have hmaj_sub : ∀ c ∈ maj, c ∈ t := fun c hm => by
          rw [hteq]
          exact List.mem_append.mpr (Or.inl hm)
        have hsub_sub : ∀ c ∈ sub, c ∈ t := fun c hm => by
          rw [hteq]
          exact List.mem_append.mpr (Or.inr (List.mem_cons.mpr (Or.inr hm)))
        rcases List.mem_append.mp hc with hm | hm
        · obtain ⟨c0, hc0, hmap⟩ := List.mem_map.mp hm
          rw [← hmap]
          exact toLowerChar_ne_plus (hplus c0 (hmaj_sub c0 hc0))
        · rcases List.mem_cons.mp hm with he | hm2
          · rw [he]
            decide
          · obtain ⟨c0, hc0, hmap⟩ := List.mem_map.mp hm2
            rw [← hmap]
            exact toLowerChar_ne_plus (hplus c0 (hsub_sub c0 hc0))
    · rw [if_neg hms] at h
      exact absurd h (by simp)

/-! ### Decomposing and re-running the parameter fold -/

theorem formatFold_none (p : Mss) (ks : List Str) :
    ks.foldl (formatFoldStep p) none = none := by
  induction ks with
  | nil => rfl
  | cons k ks2 ih =>
    rw [List.foldl_cons, show formatFoldStep p none k = none from rfl, ih]

theorem formatFold_eq (p : Mss) : ∀ (ks : List Str) (b : Str),
    ks.foldl (formatFoldStep p) (some b) =
      (formatChunks p ks).map (fun cs => b ++ cs) := by
  intro ks
  induction ks with
  | nil =>
    intro b
    simp [formatChunks]
  | cons k ks2 ih =>
    intro b
    rw [List.foldl_cons]
    cases hf : formatParam k ((lookupA p k).getD []) with
    | none =>
      rw [show formatFoldStep p (some b) k = none from by
        unfold formatFoldStep
        simp only [hf]]
      rw [formatFold_none]
      simp only [formatChunks, hf]
      rfl
    | some chunk =>
      rw [show formatFoldStep p (some b) k = some (b ++ chunk) from by
        unfold formatFoldStep
        simp only [hf]]
      rw [ih (b ++ chunk)]
      simp only [formatChunks, hf]
      cases hc2 : formatChunks p ks2 with
      | none => rfl
      | some cs2 => simp [List.append_assoc]

theorem FormatMediaType_some {t : Str} {p : Mss} {s : Str}
    (hf : FormatMediaType t p = s) (hne : s ≠ []) :
    ∃ b cs, formatBase t = some b ∧ formatChunks p (sortedKeys p) = some cs ∧
      s = b ++ cs := by
  unfold FormatMediaType at hf
  cases hb : formatBase t with
  | none =>
    rw [hb] at hf
    exact absurd hf.symm hne
  | some b =>
    rw [hb] at hf
    simp only [formatFold_eq] at hf
    cases hcs : formatChunks p (sortedKeys p) with
    | none =>
      rw [hcs] at hf
      exact absurd hf.symm hne
    | some cs =>
      rw [hcs] at hf
      simp only [Option.map_some'] at hf
      exact ⟨b, cs, rfl, rfl, hf.symm⟩

theorem formatChunks_param_some {p : Mss} : ∀ {ks : List Str} {cs : Str},
    formatChunks p ks = some cs →
    ∀ k ∈ ks, ∃ chunk, formatParam k ((lookupA p k).getD []) = some chunk := by
  intro ks
  induction ks with
  | nil =>
    intro cs _ k hk
    simp at hk
  | cons k0 ks2 ih =>
    intro cs h k hk
    obtain ⟨chunk, cs2, hf, hc2, _⟩ := formatChunks_cons_some h
    rcases List.mem_cons.mp hk with he | hm
    · exact he ▸ ⟨chunk, hf⟩
    · exact ih hc2 k hm

theorem formatChunks_head {p : Mss} {ks : List Str} {cs : Str}
    (h : formatChunks p ks = some cs) : cs = [] ∨ ∃ u, cs = ';' :: u := by
  cases ks with
  | nil =>
    unfold formatChunks at h
    injection h with h
    exact Or.inl h.symm
  | cons k ks2 =>
    obtain ⟨chunk, cs2, hf, _, hcs⟩ := formatChunks_cons_some h
    obtain ⟨u, hu⟩ := formatParam_head hf
    exact Or.inr ⟨' ' :: (u ++ cs2), by rw [hcs, hu]; rfl⟩

theorem keys_map_entry {α : Type} (f : Str → α) (ks : List Str) :
    (ks.map (fun k => (k, f k))).map Prod.fst = ks := by
  induction ks with
  | nil => rfl
  | cons k ks2 ih => rw [List.map_cons, List.map_cons, ih]

theorem fmtDirects_keys (p : Mss) (ks : List Str) :
    (fmtDirects p ks).map Prod.fst =
      ks.filter (fun k => !needsEnc ((lookupA p k).getD [])) := by
  unfold fmtDirects
  rw [keys_map_entry]

theorem ParseMediaType_format {t : Str} {p : Mss} {b cs : Str}
    (hb : formatBase t = some b) (hcs : formatChunks p (sortedKeys p) = some cs)
    (hwf : ∀ k ∈ sortedKeys p, toLowerAscii k = k ∧ ∀ c ∈ k, ¬(c = '*'))
    (hnd : (sortedKeys p).Nodup) :
    ParseMediaType (b ++ cs) = some (b, fmtParsed p (sortedKeys p)) := by
  obtain ⟨hfb, hbne, hbchars, hblow, hbtrim, hbcheck, _⟩ := formatBase_wf hb
  have hsemi : ∀ c ∈ b, (!(c == ';')) = true := by
    intro c hc
    rcases hbchars c hc with ht | hs
    · simp only [Bool.not_eq_true', beq_eq_false_iff_ne, Ne]
      exact isTokenChar_ne ht (by decide)
    · rw [hs]
      decide
  have htake : (b ++ cs).takeWhile (fun c => !(c == ';')) = b := by
    rw [takeWhile_append_all cs hsemi]
    rcases formatChunks_head hcs with hnil | ⟨u, hu⟩
    · rw [hnil]
      simp
    · rw [hu, List.takeWhile_cons_of_neg (by decide), List.append_nil]
  unfold ParseMediaType
  simp only [htake, hblow, hbtrim, hbcheck, if_pos, List.drop_left]
  have hpp := parseParams_formatChunks p (sortedKeys p) cs cs.length [] [] hcs
    (Nat.le_refl _) hwf (fun k _ => rfl) (fun k _ => rfl) hnd
  simp only [List.nil_append] at hpp
  simp only [hpp]
  have hstitch := stitchAll_enc p
    ((sortedKeys p).filter (fun k => needsEnc ((lookupA p k).getD [])))
    (fmtDirects p (sortedKeys p))
    (fun k hk => by
      obtain ⟨chunk, hf⟩ :=
        formatChunks_param_some hcs k (List.mem_of_mem_filter hk)
      exact formatParam_enc hf (by
        have := List.of_mem_filter hk
        simpa using this))
    (fun k hk => by
      rw [lookupA_eq_none_iff, fmtDirects_keys]
      intro hmem
      have h1 := List.of_mem_filter hk
      have h2 := List.of_mem_filter hmem
      simp only [Bool.not_eq_true'] at h2
      rw [h2] at h1
      exact Bool.false_ne_true h1)
    (hnd.filter _)
  unfold fmtConts
  rw [hstitch]
  rfl

theorem fmtParsed_keys (p : Mss) (ks : List Str) :
    (fmtParsed p ks).map Prod.fst =
      ks.filter (fun k => !needsEnc ((lookupA p k).getD [])) ++
      ks.filter (fun k => needsEnc ((lookupA p k).getD [])) := by
  unfold fmtParsed
  rw [List.map_append, fmtDirects_keys, keys_map_entry]

theorem fmtParsed_keys_perm (p : Mss) (ks : List Str) :
    ((fmtParsed p ks).map Prod.fst).Perm ks := by
  rw [fmtParsed_keys]
  have hcongr : ks.filter (fun k => !!needsEnc ((lookupA p k).getD [])) =
      ks.filter (fun k => needsEnc ((lookupA p k).getD [])) :=
    List.filter_congr (fun k _ => by rw [Bool.not_not])
  rw [← hcongr]
  exact List.filter_append_perm (fun k => !needsEnc ((lookupA p k).getD [])) ks

theorem lookupA_fmtParsed (p : Mss) (ks : List Str) (k : Str) :
    lookupA (fmtParsed p ks) k =
      if k ∈ ks then some ((lookupA p k).getD []) else none := by
  unfold fmtParsed fmtDirects
  by_cases hd : k ∈ ks.filter (fun k => !needsEnc ((lookupA p k).getD []))
  · have h1 : lookupA ((ks.filter (fun k => !needsEnc ((lookupA p k).getD []))).map
        (fun k => (k, (lookupA p k).getD []))) k = some ((lookupA p k).getD []) := by
      rw [lookupA_map_entry, if_pos hd]
    rw [lookupA_append_some _ h1, if_pos (List.mem_of_mem_filter hd)]
  · have h1 : lookupA ((ks.filter (fun k => !needsEnc ((lookupA p k).getD []))).map
        (fun k => (k, (lookupA p k).getD []))) k = none := by
      rw [lookupA_map_entry, if_neg hd]
    rw [lookupA_append_none _ h1, lookupA_map_entry]
    by_cases hk : k ∈ ks
    · have henc : needsEnc ((lookupA p k).getD []) = true := by
        by_contra hcon
        exact hd (List.mem_filter.mpr ⟨hk, by simp [Bool.eq_false_iff.mpr hcon]⟩)
      rw [if_pos (List.mem_filter.mpr ⟨hk, henc⟩), if_pos hk]
    · rw [if_neg (fun hm => hk (List.mem_of_mem_filter hm)), if_neg hk]

theorem formatFoldStep_congr {p q : Mss} {k : Str}
    (h : (lookupA q k).getD [] = (lookupA p k).getD []) (a : Option Str) :
    formatFoldStep q a k = formatFoldStep p a k := by
  unfold formatFoldStep
  cases a with
  | none => rfl
  | some s => rw [h]

theorem foldl_formatFoldStep_congr {p q : Mss} : ∀ {ks : List Str},
    (∀ k ∈ ks, (lookupA q k).getD [] = (lookupA p k).getD []) →
    ∀ a, ks.foldl (formatFoldStep q) a = ks.foldl (formatFoldStep p) a := by
  intro ks
  induction ks with
  | nil =>
    intro _ a
    rfl
  | cons k ks2 ih =>
    intro h a
    rw [List.foldl_cons, List.foldl_cons, formatFoldStep_congr (h k (by simp)),
      ih (fun k2 hm => h k2 (by simp [hm]))]

theorem sortedKeys_fmtParsed (p : Mss) :
    sortedKeys (fmtParsed p (sortedKeys p)) = sortedKeys p := by
  refine List.eq_of_perm_of_sorted ?_ (sortedKeys_sorted _) (sortedKeys_sorted _)
  exact (sortedKeys_perm _).trans (fmtParsed_keys_perm p (sortedKeys p))

theorem FormatMediaType_fmtParsed {t : Str} {p : Mss} {b cs : Str}
    (hb : formatBase t = some b) (hcs : formatChunks p (sortedKeys p) = some cs) :
    FormatMediaType b (fmtParsed p (sortedKeys p)) = b ++ cs := by
  have hfb : formatBase b = some b := (formatBase_wf hb).1
  have hcong : ∀ k ∈ sortedKeys p,
      (lookupA (fmtParsed p (sortedKeys p)) k).getD [] = (lookupA p k).getD [] := by
    intro k hk
    rw [lookupA_fmtParsed, if_pos hk, Option.getD_some]
  unfold FormatMediaType
  simp only [hfb]
  rw [sortedKeys_fmtParsed, foldl_formatFoldStep_congr hcong (some b), formatFold_eq, hcs]
  rfl

/-! ### Well-formedness of the parse output -/

theorem mssSet_wf {m : Mss} {k v : Str} (P : Str → Prop)
    (hm : ∀ e ∈ m, P e.1) (hk : P k) : ∀ e ∈ mssSet m k v, P e.1 := by
  intro e he
  unfold mssSet at he
  by_cases hs : (lookupA m k).isSome = true
  · rw [if_pos hs] at he
    obtain ⟨e0, he0, hmap⟩ := List.mem_map.mp he
    have hfst : e.1 = e0.1 := by
      rw [← hmap]
      by_cases heq : e0.1 = k <;> simp [heq]
    rw [hfst]
    exact hm e0 he0
  · rw [if_neg hs] at he
    rcases List.mem_append.mp he with hm2 | hm2
    · exact hm e hm2
    · rw [List.mem_singleton.mp hm2]
      exact hk

theorem map_fst_overwrite (m : Mss) (k v : Str) :
    (m.map (fun q => if q.1 = k then (q.1, v) else q)).map Prod.fst = m.map Prod.fst := by
  induction m with
  | nil => rfl
  | cons q m2 ih =>
    rw [List.map_cons, List.map_cons, List.map_cons, ih]
    by_cases heq : q.1 = k <;> simp [heq]

theorem mssSet_keys_nodup {m : Mss} {k v : Str} (hnd : (m.map Prod.fst).Nodup) :
    ((mssSet m k v).map Prod.fst).Nodup := by
  unfold mssSet
  by_cases hs : (lookupA m k).isSome = true
  · rw [if_pos hs, map_fst_overwrite]
    exact hnd
  · rw [if_neg hs, List.map_append]
    have hnone : lookupA m k = none := by
      cases h : lookupA m k with
      | none => rfl
      | some x => rw [h] at hs; simp at hs
    have hknot : k ∉ m.map Prod.fst := (lookupA_eq_none_iff m k).mp hnone
    simp [List.nodup_append, hnd, hknot]

theorem contSet_wf {c : Cont} {base k v : Str} (P : Str → Prop)
    (hc : ∀ e ∈ c, P e.1) (hb : P base) : ∀ e ∈ contSet c base k v, P e.1 := by
  intro e he
  unfold contSet at he
  by_cases hs : (lookupA c base).isSome = true
  · rw [if_pos hs] at he
    obtain ⟨e0, he0, hmap⟩ := List.mem_map.mp he
    have hfst : e.1 = e0.1 := by
      rw [← hmap]
      by_cases heq : e0.1 = base <;> simp [heq]
    rw [hfst]
    exact hc e0 he0
  · rw [if_neg hs] at he
    rcases List.mem_append.mp he with hm2 | hm2
    · exact hc e hm2
    · rw [List.mem_singleton.mp hm2]
      exact hb

theorem consumeMediaParam_key {v k val rest : Str}
    (h : consumeMediaParam v = (k, val, rest)) : ∀ c ∈ k, toLowerChar c = c := by
  unfold consumeMediaParam at h
  split at h
  · dsimp only at h
    split at h
    · simp only [Prod.mk.injEq] at h
      rw [← h.1]
      simp
    · split at h
      · split at h
        · simp only [Prod.mk.injEq] at h
          rw [← h.1]
          simp
        · simp only [Prod.mk.injEq] at h
          rw [← h.1]
          exact toLowerAscii_lower _
      · simp only [Prod.mk.injEq] at h
        rw [← h.1]
        simp
  · simp only [Prod.mk.injEq] at h
    rw [← h.1]
    simp

theorem parseParams_wf : ∀ (fuel : Nat) (v : Str) (params : Mss) (cont : Cont)
    (out : Mss) (contOut : Cont),
    parseParams fuel v params cont = some (out, contOut) →
    (∀ e ∈ params, wfKey e.1) → ((params.map Prod.fst).Nodup) →
    (∀ e ∈ cont, wfKey e.1) →
    (∀ e ∈ out, wfKey e.1) ∧ ((out.map Prod.fst).Nodup) ∧ (∀ e ∈ contOut, wfKey e.1) := by
  intro fuel
  induction fuel with
  | zero =>
    intro v params cont out contOut h hp1 hp2 hc
    cases v with
    | nil =>
      rw [parseParams_nil] at h
      simp only [Option.some.injEq, Prod.mk.injEq] at h
      rw [← h.1, ← h.2]
      exact ⟨hp1, hp2, hc⟩
    | cons c cs =>
      rw [show parseParams 0 (c :: cs) params cont = none from rfl] at h
      exact absurd h (by simp)
  | succ f ih =>
    intro v params cont out contOut h hp1 hp2 hc
    cases v with
    | nil =>
      rw [parseParams_nil] at h
      simp only [Option.some.injEq, Prod.mk.injEq] at h
      rw [← h.1, ← h.2]
      exact ⟨hp1, hp2, hc⟩
    | cons c cs =>
      rw [parseParams_cons] at h
      by_cases hv1 : trimLeftSpace (c :: cs) = []
      · rw [if_pos hv1] at h
        simp only [Option.some.injEq, Prod.mk.injEq] at h
        rw [← h.1, ← h.2]
        exact ⟨hp1, hp2, hc⟩
      · rw [if_neg hv1] at h
        rcases hcm : consumeMediaParam (trimLeftSpace (c :: cs)) with ⟨key, value, rest⟩
        simp only [hcm] at h
        by_cases hk0 : key = []
        · rw [if_pos hk0] at h
          by_cases hts : trimSpace (trimLeftSpace (c :: cs)) = [';']
          · rw [if_pos hts] at h
            simp only [Option.some.injEq, Prod.mk.injEq] at h
            rw [← h.1, ← h.2]
            exact ⟨hp1, hp2, hc⟩
          · rw [if_neg hts] at h
            exact absurd h (by simp)
        · rw [if_neg hk0] at h
          have hklow : ∀ c2 ∈ key, toLowerChar c2 = c2 := consumeMediaParam_key hcm
          rcases hcut : cutChar key '*' with ⟨base, brest, bflag⟩
          simp only [hcut] at h
          cases bflag with
          | true =>
            dsimp only at h
            obtain ⟨hkeq, hbase_ns⟩ := cutChar_found_inv hcut
            have hbase_wf : wfKey base := by
              intro c2 hc2
              refine ⟨hklow c2 (by rw [hkeq]; exact List.mem_append.mpr (Or.inl hc2)), ?_⟩
              exact hbase_ns c2 hc2
            have hc2 : ∀ e ∈ contSet cont base key value, wfKey e.1 :=
              contSet_wf wfKey hc hbase_wf
            cases hlk : lookupA ((lookupA cont base).getD []) key with
            | some vv =>
              simp only [hlk] at h
              by_cases hvv : vv = value
              · rw [if_pos hvv] at h
                exact ih rest params (contSet cont base key value) out contOut h hp1 hp2 hc2
              · rw [if_neg hvv] at h
                exact absurd h (by simp)
            | none =>
              simp only [hlk] at h
              exact ih rest params (contSet cont base key value) out contOut h hp1 hp2 hc2
          | false =>
            dsimp only at h
            have hkey_wf : wfKey key := by
              intro c2 hc2
              exact ⟨hklow c2 hc2, (cutChar_false_all hcut).2 c2 hc2⟩
            have hp1b : ∀ e ∈ mssSet params key value, wfKey e.1 :=
              mssSet_wf wfKey hp1 hkey_wf
            have hp2b : ((mssSet params key value).map Prod.fst).Nodup :=
              mssSet_keys_nodup hp2
            cases hlk : lookupA params key with
            | some vv =>
              simp only [hlk] at h
              by_cases hvv : vv = value
              · rw [if_pos hvv] at h
                exact ih rest (mssSet params key value) cont out contOut h hp1b hp2b hc
              · rw [if_neg hvv] at h
                exact absurd h (by simp)
            | none =>
              simp only [hlk] at h
              exact ih rest (mssSet params key value) cont out contOut h hp1b hp2b hc

theorem stitchOne_wf {params : Mss} {kp : Str × Mss} {out : Mss}
    (h : stitchOne params kp = some out)
    (hp1 : ∀ e ∈ params, wfKey e.1) (hp2 : (params.map Prod.fst).Nodup)
    (hk : wfKey kp.1) :
    (∀ e ∈ out, wfKey e.1) ∧ ((out.map Prod.fst).Nodup) := by
  unfold stitchOne at h
  split at h
  · split at h
    · simp only [Option.some.injEq] at h
      rw [← h]
      exact ⟨mssSet_wf wfKey hp1 hk, mssSet_keys_nodup hp2⟩
    · simp only [Option.some.injEq] at h
      rw [← h]
      exact ⟨hp1, hp2⟩
  · split at h
    · simp only [Option.some.injEq] at h
      rw [← h]
      exact ⟨mssSet_wf wfKey hp1 hk, mssSet_keys_nodup hp2⟩
    · exact absurd h (by simp)

theorem stitchAll_wf : ∀ (cont : Cont) (params : Mss) (out : Mss),
    stitchAll params cont = some out →
    (∀ e ∈ params, wfKey e.1) → ((params.map Prod.fst).Nodup) →
    (∀ e ∈ cont, wfKey e.1) →
    (∀ e ∈ out, wfKey e.1) ∧ ((out.map Prod.fst).Nodup) := by
  intro cont
  induction cont with
  | nil =>
    intro params out h hp1 hp2 _
    unfold stitchAll at h
    injection h with h
    rw [← h]
    exact ⟨hp1, hp2⟩
  | cons kp rest ih =>
    intro params out h hp1 hp2 hcw
    simp only [stitchAll] at h
    cases hso : stitchOne params kp with
    | none =>
      rw [hso] at h
      exact absurd h (by simp)
    | some params2 =>
      rw [hso] at h
      obtain ⟨hw1, hw2⟩ := stitchOne_wf hso hp1 hp2 (hcw kp (by simp))
      exact ih params2 out h hw1 hw2 (fun e he => hcw e (by simp [he]))

theorem ParseMediaType_wf {v mt : Str} {params : Mss}
    (h : ParseMediaType v = some (mt, params)) :
    (∀ e ∈ params, wfKey e.1) ∧ ((params.map Prod.fst).Nodup) := by
  unfold ParseMediaType at h
  by_cases hck : checkMediaTypeDisposition
      (trimSpace (toLowerAscii (v.takeWhile (fun c => !(c == ';'))))) = true
  · rw [if_pos hck] at h
    cases hpp : parseParams (v.drop (v.takeWhile (fun c => !(c == ';'))).length).length
        (v.drop (v.takeWhile (fun c => !(c == ';'))).length) [] [] with
    | none =>
      simp only [hpp] at h
      exact absurd h (by simp)
    | some pc =>
      rcases pc with ⟨p0, cont⟩
      simp only [hpp] at h
      obtain ⟨pw1, pw2, pw3⟩ := parseParams_wf _ _ [] [] p0 cont hpp
        (by simp) (by simp) (by simp)
      cases hst : stitchAll p0 cont with
      | none =>
        simp only [hst] at h
        exact absurd h (by simp)
      | some p2 =>
        simp only [hst] at h
        simp only [Option.some.injEq, Prod.mk.injEq] at h
        rw [← h.2]
        exact stitchAll_wf cont p0 p2 hst pw1 pw2 pw3
  · rw [if_neg hck] at h
    exact absurd h (by simp)

/-- A formatted media type is a fixed point of canonicalization: formatting
any parameter map with well-formed (lower-case, star-free, duplicate-free)
keys over a `+`-free base yields a string that parses back to the same base
and an equivalent parameter map, and re-formats to itself. -/
theorem canonicalIdentifier_stable {p : Mss} {t s : Str}
    (hwf1 : ∀ e ∈ p, wfKey e.1) (hnd : (p.map Prod.fst).Nodup)
    (hplus : ∀ c ∈ t, ¬(c = '+'))
    (hs : FormatMediaType t p = s) (hne : s ≠ []) :
    CanonicalIdentifier s = s := by
  obtain ⟨b, cs, hb, hcs, hseq⟩ := FormatMediaType_some hs hne
  have hwfs : ∀ k ∈ sortedKeys p, toLowerAscii k = k ∧ ∀ c ∈ k, ¬(c = '*') := by
    intro k hk
    have hkm : k ∈ p.map Prod.fst := (sortedKeys_perm p).mem_iff.mp hk
    obtain ⟨kv, hkv, hfst⟩ := List.mem_map.mp hkm
    have hw := hwf1 kv hkv
    rw [← hfst]
    exact ⟨toLowerAscii_of_lower (fun c hc => (hw c hc).1), fun c hc => (hw c hc).2⟩
  have hndk : (sortedKeys p).Nodup := ((sortedKeys_perm p).nodup_iff).mpr hnd
  have hparse := ParseMediaType_format hb hcs hwfs hndk
  have hbplus : ∀ c ∈ b, ¬(c = '+') := (formatBase_wf hb).2.2.2.2.2.2 hplus
  rw [hseq]
  unfold CanonicalIdentifier
  simp only [hparse]
  rw [takeWhile_all_true (fun c hc => by simp [hbplus c hc]),
    FormatMediaType_fmtParsed hb hcs]

/-- C8: `CanonicalIdentifier` is idempotent — for every string `id`,
`CanonicalIdentifier (CanonicalIdentifier id)` equals
`CanonicalIdentifier id`; identifiers differing only in their `+suffix`
canonicalize equal (`application/vnd.foo+json`, `application/vnd.foo+xml`
and `application/vnd.foo` all have the same canonical form); and an
identifier that fails to parse as a MIME value is returned verbatim as its
own canonical form — the function is total, never an error. -/
theorem c8_canonicalIdentifier_spec :
    (∀ id : Str, CanonicalIdentifier (CanonicalIdentifier id) = CanonicalIdentifier id) ∧
    (CanonicalIdentifier (strOf "application/vnd.foo+json") =
        CanonicalIdentifier (strOf "application/vnd.foo+xml") ∧
      CanonicalIdentifier (strOf "application/vnd.foo+xml") =
        CanonicalIdentifier (strOf "application/vnd.foo")) ∧
    (∀ id : Str, ParseMediaType id = none → CanonicalIdentifier id = id) := by
  have hverb : ∀ id : Str, ParseMediaType id = none → CanonicalIdentifier id = id := by
    intro id h
    unfold CanonicalIdentifier
    rw [h]
  refine ⟨?_, ⟨by decide, by decide⟩, hverb⟩
  intro id
  cases h : ParseMediaType id with
  | none =>
    rw [hverb id h]
    exact hverb id h
  | some pr =>
    rcases pr with ⟨base, params⟩
    have hCI : CanonicalIdentifier id =
        FormatMediaType (base.takeWhile (fun c => !(c == '+'))) params := by
      unfold CanonicalIdentifier
      rw [h]
    by_cases hsnil : FormatMediaType (base.takeWhile (fun c => !(c == '+'))) params = []
    · rw [hCI, hsnil]
      decide
    · obtain ⟨hw1, hw2⟩ := ParseMediaType_wf h
      rw [hCI]
      exact canonicalIdentifier_stable hw1 hw2
        (fun c hc => by
          have := List.mem_takeWhile_imp hc
          simpa using this)
        rfl hsnil

theorem c8_witness :
    ParseMediaType (strOf "not a mime") = none ∧
    CanonicalIdentifier (strOf "not a mime") = strOf "not a mime" :=
  ⟨by decide, c8_canonicalIdentifier_spec.2.2 (strOf "not a mime") (by decide)⟩

end Goa
